import Mathlib

/-!
# atomic_correlators_worker::operator()  (c++/atomic_correlators_worker.cpp)

Shallow embedding of the trace computation of the Krylov CTHYB solver.

Modelling conventions.
* C++ `double` (and `result_t`) is an element of a linear ordered field `K`;
  `std::exp` is the field `exp` of the worker.  Theorems that need facts about
  the exponential are stated for `K = ℝ` and `Real.exp`.
* Rounding decides one property, the sum of the gaps stored at line 53.  For it
  the fill loop is also given with the subtraction as a parameter
  (`fill_table_with`), and `double_sub` is the binary64 subtraction on doubles
  represented as integer multiples of `2^(-1074)`.
* `state_t`, the fundamental operators, `exp_h.apply_no_emin` and `dot_product`
  are declared outside this file of the repository; they are fields of the
  model (`S` is the type of states).
* `config->oplist` is a map ordered by descending time; `oplist` is the list of
  its entries in container order, so that `crbegin .. crend` is `oplist.reverse`.
* `throw` and a failing `assert` are the two constructors of `failure`;
  `ndebug = true` compiles the assertion out.
* Reading an array out of its range is undefined in C++; the model reads a
  default value there (`0`, the empty block, `default : S`).
-/

namespace cthyb_krylov

/-- One entry of `config->oplist`: the time `it->first` and the operator
`it->second` (its `dagger` flag and `linear_index`). -/
structure op_desc (K : Type) where
  tau : K
  dagger : Bool
  linear_index : Int

/-- The configuration: `beta()` and the operator list in container order
(descending time). -/
structure configuration (K : Type) where
  beta : K
  oplist : List (op_desc K)

/-- One element of `sosp.get_eigensystems()`. -/
structure eigensystem (K S : Type) where
  eigenvalues : List K
  eigenstates : List S

/-- The part of `sorted_spaces` the worker uses. `n_subspaces()` is the length
of `eigensystems`; `fundamental_operator dag n` is the operator returned by
`get_fundamental_operator_from_linear_index(dag, n)`. -/
structure sorted_spaces (K S : Type) where
  eigensystems : List (eigensystem K S)
  fundamental_operator_connect_from_linear_index : Bool → Int → Int → Int
  fundamental_operator : Bool → Int → S → S

/-- The worker object together with the library primitives its call uses. -/
structure atomic_correlators_worker (K S : Type) where
  config : configuration K
  sosp : sorted_spaces K S
  /-- Models `exp_h.apply_no_emin(psi, dtau)`, returning the updated `psi`. -/
  apply_no_emin : S → K → S
  make_histograms : Bool
  /-- Models `dot_product(psi0, psi)`. -/
  dot_product : S → S → K
  /-- Models `std::exp`. -/
  exp : K → K
  /-- Is true when `assert` is compiled out. -/
  ndebug : Bool

/-- The struct `_p1` of the source. -/
structure p1 (K : Type) where
  dtau : K
  dag : Bool
  n : Int

/-- The two ways the call can fail: `throw "halte la !"` (line 137) and a
failing `assert(dtau > 0)` (line 131). -/
inductive failure where
  | halte_la
  | assertion
  deriving DecidableEq, Repr

/-- Locals of the exact pass (`full_trace`, `first_term`) and two logs that the
source does not keep: `entered` lists the entries `to_sort[bl]` whose loop body
ran, `visited` lists `(to_sort[bl].first, block_index, state_index)` for every
state whose `dot_product` was computed (line 135). -/
structure exact_state (K : Type) where
  full_trace : K
  first_term : K
  entered : List (K × Int)
  visited : List (K × Int × Nat)

/-- What a call leaves behind: the returned scalar or the failure, the locals
of the exact pass at exit, and the values pushed into the histograms. -/
structure call_result (K : Type) where
  ret : Except failure K
  locals : exact_state K
  histos : List (String × K)
  histo_bs_block : List Int

section defs

variable {K S : Type} [LinearOrderedField K] [Inhabited S]

/-- The range `[_begin, _end)` = `[crbegin, crend)`: ascending time. -/
def crange (w : atomic_correlators_worker K S) : List (op_desc K) :=
  w.config.oplist.reverse

/-- Line 35. -/
def n_blocks (w : atomic_correlators_worker K S) : Nat :=
  w.sosp.eigensystems.length

/-- The expression `(it == _end ? config->beta() : double(it->first))` of lines
45, 53 and 130; the iterator `it` is given as the range `[it, _end)`. -/
def tau_or_beta (beta : K) : List (op_desc K) → K
  | [] => beta
  | it :: _ => it.tau

/-- Line 45. -/
def dtau0 (w : atomic_correlators_worker K S) : K :=
  tau_or_beta w.config.beta (crange w)

/-- Lines 48-56: the loop filling `config_table`, over the range `[it, _end)`,
with the exact difference of the field; `fill_table_with` is the same loop with
the subtraction of line 53 as a parameter. -/
def fill_table (beta : K) : List (op_desc K) → List (p1 K)
  | [] => []
  | it1 :: rest =>
    { dtau := tau_or_beta beta rest - it1.tau,
      dag := it1.dagger,
      n := it1.linear_index } :: fill_table beta rest

/-- The table after the fill loop. -/
def config_table (w : atomic_correlators_worker K S) : List (p1 K) :=
  fill_table w.config.beta (crange w)

/-- Models `sosp.get_eigensystems()[bl]`. -/
def get_eigensystem (w : atomic_correlators_worker K S) (bl : Int) : eigensystem K S :=
  w.sosp.eigensystems.getD bl.toNat ⟨[], []⟩

/-- Models `sosp.get_eigensystems()[bl].eigenvalues[0]`. -/
def E_min (w : atomic_correlators_worker K S) (bl : Int) : K :=
  (get_eigensystem w bl).eigenvalues.headD 0

/-- Lines 62-67: the loop of the reference walk over the remaining table, with
the current values of `bl0` and `E_min_delta_tau0`; returns both at exit. -/
def ref_walk (w : atomic_correlators_worker K S) : List (p1 K) → Int → K → Int × K
  | [], bl0, E => (bl0, E)
  | p :: rest, bl0, E =>
    let bl1 := w.sosp.fundamental_operator_connect_from_linear_index p.dag p.n bl0
    if bl1 = -1 then (bl1, E)
    else ref_walk w rest bl1 (E + p.dtau * E_min w bl1)

/-- Lines 59-67: the value of `E_min_delta_tau0` after the reference walk. -/
def E_min_delta_tau0 (w : atomic_correlators_worker K S) : K :=
  (ref_walk w (config_table w) 0 (dtau0 w * E_min w 0)).2

/-- Lines 73-81: the inner loop of the bound pass over the remaining table, with
the current `bl` and `sum_emin_dtau`; `E0` is `E_min_delta_tau0`. -/
def block_walk (w : atomic_correlators_worker K S) (E0 : K) : List (p1 K) → Int → K → Int × K
  | [], bl, s => (bl, s)
  | p :: rest, bl, s =>
    let bl1 := w.sosp.fundamental_operator_connect_from_linear_index p.dag p.n bl
    if bl1 = -1 then (bl1, s)
    else
      let s1 := s + p.dtau * E_min w bl1
      if s1 > E0 + 35 then (-1, s1)
      else block_walk w E0 rest bl1 s1

/-- Lines 71-81 for block `n`: `(bl, sum_emin_dtau)` at the end of the walk. -/
def first_pass (w : atomic_correlators_worker K S) (n : Nat) : Int × K :=
  block_walk w (E_min_delta_tau0 w) (config_table w) (n : Int) (dtau0 w * E_min w (n : Int))

/-- Line 82. -/
def blo (w : atomic_correlators_worker K S) (n : Nat) : Int := (first_pass w n).1

/-- Line 83. -/
def E_min_delta_tau (w : atomic_correlators_worker K S) (n : Nat) : K := (first_pass w n).2

/-- Lines 69-85: `one_non_zero` after the loop over the blocks. -/
def one_non_zero (w : atomic_correlators_worker K S) : Bool :=
  (List.range (n_blocks w)).foldl (fun b n => b || decide (blo w n ≠ -1)) false

/-- The order `!(b < a)` of `std::pair<double, int>`. -/
def pair_le (a b : K × Int) : Prop := a.1 < b.1 ∨ (a.1 = b.1 ∧ a.2 ≤ b.2)

instance pair_le_decidable : DecidableRel (pair_le : K × Int → K × Int → Prop) :=
  fun a b => by unfold pair_le; exact inferInstance

instance pair_le_total {K : Type} [LinearOrderedField K] :
    IsTotal (K × Int) pair_le := by
  constructor
  intro a b
  unfold pair_le
  rcases lt_trichotomy a.1 b.1 with h | h | h
  · exact Or.inl (Or.inl h)
  · rcases le_total a.2 b.2 with h2 | h2
    · exact Or.inl (Or.inr ⟨h, h2⟩)
    · exact Or.inr (Or.inr ⟨h.symm, h2⟩)
  · exact Or.inr (Or.inl h)

instance pair_le_trans {K : Type} [LinearOrderedField K] :
    IsTrans (K × Int) pair_le := by
  constructor
  intro a b c hab hbc
  unfold pair_le at *
  rcases hab with h | ⟨h, h2⟩
  · rcases hbc with h3 | ⟨h3, _⟩
    · exact Or.inl (lt_trans h h3)
    · exact Or.inl (h3 ▸ h)
  · rcases hbc with h3 | ⟨h3, h4⟩
    · exact Or.inl (h ▸ h3)
    · exact Or.inr ⟨h.trans h3, le_trans h2 h4⟩

/-- Lines 91-93: the entries `to_sort[0 .. n_bl)` before sorting. -/
def to_sort_unsorted (w : atomic_correlators_worker K S) : List (K × Int) :=
  ((List.range (n_blocks w)).filter (fun n => decide (blo w n = (n : Int)))).map
    (fun n => (E_min_delta_tau w n, (n : Int)))

/-- Line 95: the entries `to_sort[0 .. n_bl)` after `std::sort`. -/
def to_sort (w : atomic_correlators_worker K S) : List (K × Int) :=
  (to_sort_unsorted w).insertionSort pair_le

/-- Lines 90-93: the value of `n_bl`. -/
def n_bl (w : atomic_correlators_worker K S) : Nat := (to_sort w).length

/-- Line 100. -/
def epsilon : K := 1 / 10 ^ 15

/-- The constant `1.0000001` of line 137. -/
def check_bound : K := 10000001 / 10000000

/-- Lines 122-133: the loop over the operators on the range `[it, _end)`;
`none` is a failing `assert(dtau > 0)`. -/
def propagate (w : atomic_correlators_worker K S) : List (op_desc K) → S → Option S
  | [], psi => some psi
  | it :: rest, psi =>
    let psi1 := w.sosp.fundamental_operator it.dagger it.linear_index psi
    let tau1 := it.tau
    let dtau := tau_or_beta w.config.beta rest - tau1
    if !w.ndebug && !decide (dtau > 0) then none
    else propagate w rest (w.apply_no_emin psi1 dtau)

/-- Lines 128-130: the values of `dtau` that the loop of the exact pass computes
(and asserts to be positive) over the range `[it, _end)`, in order. -/
def exact_gaps (beta : K) : List (op_desc K) → List K
  | [] => []
  | it :: rest => (tau_or_beta beta rest - it.tau) :: exact_gaps beta rest

/-- Line 112. -/
def block_size (w : atomic_correlators_worker K S) (block_index : Int) : Nat :=
  (get_eigensystem w block_index).eigenvalues.length

/-- Models `sosp.get_eigensystems()[block_index].eigenvalues[state_index]`. -/
def eigenvalue (w : atomic_correlators_worker K S) (block_index : Int) (state_index : Nat) : K :=
  (get_eigensystem w block_index).eigenvalues.getD state_index 0

/-- Line 115. -/
def eigenstate (w : atomic_correlators_worker K S) (block_index : Int) (state_index : Nat) : S :=
  (get_eigensystem w block_index).eigenstates.getD state_index default

/-- Lines 114-141: the loop over the remaining `state_index` values of one
block; `bl` is the position in `to_sort`, `key` is `to_sort[bl].first`. -/
def state_loop (w : atomic_correlators_worker K S) (bl : Nat) (key : K) (block_index : Int)
    (exp_no_emin : K) : List Nat → exact_state K → Except (failure × exact_state K) (exact_state K)
  | [], a => .ok a
  | state_index :: rest, a =>
    let psi0 := eigenstate w block_index state_index
    match propagate w (crange w) (w.apply_no_emin psi0 (dtau0 w)) with
    | none => .error (failure.assertion, a)
    | some psi =>
      let partial_trace_no_emin := w.dot_product psi0 psi
      let partial_trace := partial_trace_no_emin * exp_no_emin
      let a1 : exact_state K := { a with visited := a.visited ++ [(key, block_index, state_index)] }
      if |partial_trace_no_emin| > check_bound then .error (failure.halte_la, a1)
      else
        state_loop w bl key block_index exp_no_emin rest
          { a1 with
            first_term := if bl = 0 then partial_trace else a1.first_term,
            full_trace := a1.full_trace + partial_trace }

/-- Lines 105-142: the loop over the remaining entries of `to_sort[0 .. n_bl)`,
`bl` being the position of the first of them. -/
def block_loop (w : atomic_correlators_worker K S) :
    List (K × Int) → Nat → exact_state K → Except (failure × exact_state K) (exact_state K)
  | [], _, a => .ok a
  | e :: es, bl, a =>
    if w.exp (-e.1) ≥ |a.full_trace| * epsilon then
      match state_loop w bl e.1 e.2 (w.exp (-e.1)) (List.range (block_size w e.2))
          { a with entered := a.entered ++ [e] } with
      | .ok a1 => block_loop w es (bl + 1) a1
      | .error x => .error x
    else .ok a

/-- Lines 99-101: the locals before the exact pass. -/
def exact_init : exact_state K :=
  { full_trace := 0, first_term := 0, entered := [], visited := [] }

/-- Lines 144-149: the values pushed into the named histograms. -/
def histo_pushes (w : atomic_correlators_worker K S) (a : exact_state K) : List (String × K) :=
  let abs_trace := |a.full_trace|
  (if abs_trace > 0 then [("FirsTerm_FullTrace", |a.first_term| / abs_trace)] else []) ++
    [("FullTrace_ExpSumMin", |a.full_trace| / w.exp (-((to_sort w).headD (0, 0)).1))]

/-- Models `atomic_correlators_worker::operator()()`. -/
def operator_call (w : atomic_correlators_worker K S) : call_result K :=
  if !one_non_zero w then
    { ret := .ok 0, locals := exact_init, histos := [], histo_bs_block := [] }
  else
    match block_loop w (to_sort w) 0 exact_init with
    | .error (f, a) => { ret := .error f, locals := a, histos := [], histo_bs_block := [] }
    | .ok a =>
      if w.make_histograms then
        { ret := .ok a.full_trace, locals := a, histos := histo_pushes w a,
          histo_bs_block := [((to_sort w).headD (0, 0)).2] }
      else
        { ret := .ok a.full_trace, locals := a, histos := [], histo_bs_block := [] }

end defs

/-! ### Definitions that follow the words of the specification -/

section spec_defs

variable {K S : Type} [LinearOrderedField K] [Inhabited S]

/-- The state `psi0` propagated by the initial gap and then, for each insertion
in ascending time order, mapped by that insertion's operator and propagated by
the following gap of the gap table. -/
def psi_final (w : atomic_correlators_worker K S) (psi0 : S) : S :=
  (config_table w).foldl
    (fun psi p => w.apply_no_emin (w.sosp.fundamental_operator p.dag p.n psi) p.dtau)
    (w.apply_no_emin psi0 (dtau0 w))

/-- The inner product of eigenstate `state_index` of block `block_index` with
its propagated image: the "no-emin" partial trace of that state. -/
def partial_trace_no_emin (w : atomic_correlators_worker K S) (block_index : Int)
    (state_index : Nat) : K :=
  w.dot_product (eigenstate w block_index state_index)
    (psi_final w (eigenstate w block_index state_index))

/-- The contribution `exp(-bound) * dot_product(psi0, psi_final)` of the state
`s = (bound, block_index, state_index)`. -/
def contribution (w : atomic_correlators_worker K S) (s : K × Int × Nat) : K :=
  w.exp (-s.1) * partial_trace_no_emin w s.2.1 s.2.2

/-- All the states `(bound, block_index, state_index)` of a schedule entry. -/
def states_of (w : atomic_correlators_worker K S) (e : K × Int) : List (K × Int × Nat) :=
  (List.range (block_size w e.2)).map (fun k => (e.1, e.2, k))

/-- The sum of the contributions of all the states of a schedule entry. -/
def block_sum (w : atomic_correlators_worker K S) (e : K × Int) : K :=
  ((states_of w e).map (contribution w)).sum

/-- Walking the full connectivity chain from block `bl` over the insertions in
ascending time order: each insertion maps the current block by the connectivity
function, and the walk ends in the forbidden value `-1` as soon as it meets it. -/
def connectivity_chain (w : atomic_correlators_worker K S) :
    List (op_desc K) → Int → Int
  | [], bl => bl
  | it :: rest, bl =>
    if w.sosp.fundamental_operator_connect_from_linear_index it.dagger it.linear_index bl = -1
    then -1
    else connectivity_chain w rest
      (w.sosp.fundamental_operator_connect_from_linear_index it.dagger it.linear_index bl)

/-- The running bound `sum_emin_dtau` of the walk of block `n` after the initial
gap and the first `k` insertions (the inner loop of the bound pass stopped
after `k` iterations). -/
def running_bound (w : atomic_correlators_worker K S) (n k : Nat) : K :=
  (block_walk w (E_min_delta_tau0 w) ((config_table w).take k) (n : Int)
    (dtau0 w * E_min w (n : Int))).2

/-- The worker constructed with the given value of `make_histograms`, all the
rest unchanged. -/
def with_histograms (w : atomic_correlators_worker K S) (b : Bool) :
    atomic_correlators_worker K S :=
  { w with make_histograms := b }

/-- The trace accumulated over all the states of the entries `0 .. i-1` of the
schedule. -/
def running_total (w : atomic_correlators_worker K S) (i : Nat) : K :=
  (((to_sort w).take i).map (block_sum w)).sum

/-! The call with the pruning disabled: the 35-unit margin and the `1e-15`
continuation cutoff are treated as infinite, so that the two tests never fire.
The bound walk without the margin test is the loop of the reference walk
(`ref_walk`) started from block `n`. -/

/-- The partition function: the sum over all blocks and all states of
`exp(-beta * eigenvalue)`. -/
def partition_function (w : atomic_correlators_worker K S) : K :=
  (w.sosp.eigensystems.map (fun es =>
    (es.eigenvalues.map (fun E => w.exp (-(w.config.beta * E)))).sum)).sum

end spec_defs

/-- The assumptions on the eigenbasis and on the library primitives: `std::exp`
is the real exponential, the eigenvalues of each block are ascending, the inner
product is linear in its second argument, the eigenstates of each block are
orthonormal, and `apply_no_emin` multiplies eigenstate `k` of block `b` by
`exp(-dtau * (E_k - E_min(b)))`. -/
def orthonormal_eigenbasis {S : Type} [Inhabited S] [AddCommGroup S] [Module ℝ S]
    (w : atomic_correlators_worker ℝ S) : Prop :=
  w.exp = Real.exp ∧
  (∀ es ∈ w.sosp.eigensystems, es.eigenvalues.Sorted (fun x y => x ≤ y)) ∧
  (∀ (c : ℝ) (x y : S), w.dot_product x (c • y) = c * w.dot_product x y) ∧
  (∀ b : Nat, b < n_blocks w → ∀ j k, j < block_size w b → k < block_size w b →
    w.dot_product (eigenstate w b j) (eigenstate w b k) = if j = k then 1 else 0) ∧
  (∀ b : Nat, b < n_blocks w → ∀ k, k < block_size w b → ∀ dtau : ℝ,
    w.apply_no_emin (eigenstate w b k) dtau =
      Real.exp (-(dtau * (eigenvalue w b k - E_min w b))) • eigenstate w b k)

/-! ### Concrete inputs -/

section scenarios

/-- A single orbital of energy `E`: block 0 is the empty state (energy 0),
block 1 the occupied state (energy `E`).  A state is the pair of its amplitudes
(empty, occupied); `dagger = false` is the annihilation operator and
`dagger = true` the creation operator.  Both blocks have one eigenstate, so the
decay normalised by the minimum eigenvalue is the identity.  `beta = 1`. -/
def orbital (K : Type) [LinearOrderedField K] (exp : K → K) (E : K)
    (oplist : List (op_desc K)) (hist ndebug : Bool) :
    atomic_correlators_worker K (K × K) :=
  { config := { beta := 1, oplist := oplist },
    sosp :=
      { eigensystems := [⟨[0], [(1, 0)]⟩, ⟨[E], [(0, 1)]⟩],
        fundamental_operator_connect_from_linear_index := fun dag _ bl =>
          if dag then (if bl = 0 then 1 else -1) else (if bl = 1 then 0 else -1),
        fundamental_operator := fun dag _ psi =>
          if dag then (0, psi.1) else (psi.2, 0) },
    apply_no_emin := fun psi _ => psi,
    make_histograms := hist,
    dot_product := fun a b => a.1 * b.1 + a.2 * b.2,
    exp := exp,
    ndebug := ndebug }

/-- The operator list (descending time) with the creation operator at time 3/4
and the annihilation operator at time 1/4. -/
def pair_oplist (K : Type) [LinearOrderedField K] : List (op_desc K) :=
  [⟨3 / 4, true, 0⟩, ⟨1 / 4, false, 0⟩]

/-- The operator list with the annihilation operator at time 3/4 and the
creation operator at time 1/4. -/
def reversed_pair_oplist (K : Type) [LinearOrderedField K] : List (op_desc K) :=
  [⟨3 / 4, false, 0⟩, ⟨1 / 4, true, 0⟩]

/-- The operator list with the creation operator at time 1, which is `beta` for
the single orbital, and the annihilation operator at time 1/4. -/
def edge_oplist (K : Type) [LinearOrderedField K] : List (op_desc K) :=
  [⟨1, true, 0⟩, ⟨1 / 4, false, 0⟩]

/-- The operator list with one annihilation operator at time 1/2. -/
def single_oplist (K : Type) [LinearOrderedField K] : List (op_desc K) :=
  [⟨1 / 2, false, 0⟩]

/-- The single orbital of energy 1 with the pair of operators, except that the
operator table is inconsistent with the eigenbasis: the creation operator
doubles the amplitude it moves. -/
def doubling_orbital (K : Type) [LinearOrderedField K] (exp : K → K) :
    atomic_correlators_worker K (K × K) :=
  { config := { beta := 1, oplist := pair_oplist K },
    sosp :=
      { eigensystems := [⟨[0], [(1, 0)]⟩, ⟨[1], [(0, 1)]⟩],
        fundamental_operator_connect_from_linear_index := fun dag _ bl =>
          if dag then (if bl = 0 then 1 else -1) else (if bl = 1 then 0 else -1),
        fundamental_operator := fun dag _ psi =>
          if dag then (0, 2 * psi.1) else (psi.2, 0) },
    apply_no_emin := fun psi _ => psi,
    make_histograms := false,
    dot_product := fun a b => a.1 * b.1 + a.2 * b.2,
    exp := exp,
    ndebug := false }

/-- Two blocks over a three-dimensional space: block 0 has the eigenvalues
`[0, 1]` and block 1 the eigenvalue `[1/2]`; a state is the triple of its
amplitudes on the three eigenstates.  The configuration is empty and
`beta = 2`.  The decay normalised by the minimum eigenvalue of the block
multiplies the second eigenstate of block 0 by `exp(-dtau * (1 - 0))` and
leaves the two others unchanged. -/
def two_blocks (K : Type) [LinearOrderedField K] (exp : K → K) (hist ndebug : Bool) :
    atomic_correlators_worker K (K × K × K) :=
  { config := { beta := 2, oplist := [] },
    sosp :=
      { eigensystems := [⟨[0, 1], [(1, 0, 0), (0, 1, 0)]⟩, ⟨[1 / 2], [(0, 0, 1)]⟩],
        fundamental_operator_connect_from_linear_index := fun _ _ _ => -1,
        fundamental_operator := fun _ _ psi => psi },
    apply_no_emin := fun psi dtau => (psi.1, exp (-(dtau * (1 - 0))) * psi.2.1, psi.2.2),
    make_histograms := hist,
    dot_product := fun a b => a.1 * b.1 + a.2.1 * b.2.1 + a.2.2 * b.2.2,
    exp := exp,
    ndebug := ndebug }

end scenarios

/-! ### Double-precision subtraction (line 53)

The definitions above take C++ `double` as an ordered field, where a difference
is exact.  The difference of line 53 (and of line 130) is an IEEE 754 binary64
operation: its result is the exact difference rounded to nearest, ties to even.
The definitions below keep the subtraction as a parameter `sub`, and
`double_sub` is the binary64 subtraction.  A finite `double` is an integer
multiple of `2^(-1074)`, the smallest subnormal, and is represented by that
integer; the sum or difference of two finite doubles is again such a multiple,
so rounding it is rounding an integer.  Overflow to infinity is not modelled:
the operands here are times in `[0, beta]`. -/

section rounding

variable {K : Type}

/-- The expression `(it == _end ? config->beta() : double(it->first))` of lines
45, 53 and 130 for any carrier of `double`; the iterator `it` is given as the
range `[it, _end)`. -/
def time_or_beta (beta : K) : List (op_desc K) → K
  | [] => beta
  | it :: _ => it.tau

/-- Lines 48-56 over the range `[it, _end)`, the subtraction of line 53 being
`sub`. -/
def fill_table_with (sub : K → K → K) (beta : K) : List (op_desc K) → List (p1 K)
  | [] => []
  | it1 :: rest =>
    { dtau := sub (time_or_beta beta rest) it1.tau,
      dag := it1.dagger,
      n := it1.linear_index } :: fill_table_with sub beta rest

/-- Line 45 for any carrier of `double`: `[_begin, _end)` is the operator list
in reverse container order. -/
def dtau0_of (config : configuration K) : K :=
  time_or_beta config.beta config.oplist.reverse

/-- The table after the fill loop of lines 48-56, the subtraction of line 53
being `sub`.  With the exact subtraction of a field it is `config_table`
(`config_table_with_exact`). -/
def config_table_with (sub : K → K → K) (config : configuration K) : List (p1 K) :=
  fill_table_with sub config.beta config.oplist.reverse

/-- Lines 128-130 over the range `[it, _end)`, the subtraction of line 130
being `sub`: the values of `dtau` of the exact pass, in order. -/
def exact_gaps_with (sub : K → K → K) (beta : K) : List (op_desc K) → List K
  | [] => []
  | it :: rest => sub (time_or_beta beta rest) it.tau :: exact_gaps_with sub beta rest

end rounding

/-- The number of low-order bits of `N` that a 53-bit significand cannot hold:
the number of halvings that bring `N` below `2^53`.  `fuel` bounds the search;
a finite double is below `2^2098` in units of `2^(-1074)`, so `2100` halvings
are enough. -/
def double_shift : Nat → Nat → Nat
  | 0, _ => 0
  | fuel + 1, N => if N < 2 ^ 53 then 0 else double_shift fuel (N / 2) + 1

/-- Round `N` to a multiple of `2^s`: to the nearest one, and to the one with
an even quotient when `N` is half way between two. -/
def round_half_even (s N : Nat) : Nat :=
  if 2 * (N % 2 ^ s) < 2 ^ s then N / 2 ^ s * 2 ^ s
  else if 2 ^ s < 2 * (N % 2 ^ s) then (N / 2 ^ s + 1) * 2 ^ s
  else if N / 2 ^ s % 2 = 0 then N / 2 ^ s * 2 ^ s
  else (N / 2 ^ s + 1) * 2 ^ s

/-- Binary64 rounding (to nearest, ties to even) of the exact value
`x * 2^(-1074)`: the magnitude is rounded to 53 significant bits and the sign
is kept. -/
def round_double (x : Int) : Int :=
  Int.sign x * (round_half_even (double_shift 2100 x.natAbs) x.natAbs : Nat)

/-- The `double` subtraction `a - b`, in units of `2^(-1074)`. -/
def double_sub (a b : Int) : Int := round_double (a - b)

/-- The `double` addition `a + b`, in units of `2^(-1074)`. -/
def double_add (a b : Int) : Int := round_double (a + b)

/-- The double `m * 2^e * 2^(-1074)`. -/
def double_of (m e : Nat) : Int := ((m * 2 ^ e : Nat) : Int)

/-- A configuration with `beta = 1.0` and two insertions, an annihilation at
the double nearest to `0.2` (`3602879701896397 * 2^(-54)`) and a creation at
the double nearest to `0.83` (`7475975381435023 * 2^(-53)`), in container order
(descending time). -/
def rounding_config : configuration Int :=
  { beta := double_of 1 1074,
    oplist := [⟨double_of 7475975381435023 1021, true, 0⟩,
               ⟨double_of 3602879701896397 1020, false, 0⟩] }

/-! ### The bound pass and the schedule: basic lemmas -/

theorem foldl_or_blo {α : Type} (p : α → Bool) :
    ∀ (l : List α) (b : Bool), l.foldl (fun b n => b || p n) b = (b || l.any p) := by
  intro l
  induction l with
  | nil => intro b; simp
  | cons x xs ih => intro b; simp [ih, Bool.or_assoc]

theorem one_non_zero_iff {K S : Type} [LinearOrderedField K] [Inhabited S]
    (w : atomic_correlators_worker K S) :
    one_non_zero w = true ↔ ∃ n, n < n_blocks w ∧ blo w n ≠ -1 := by
  unfold one_non_zero
  rw [foldl_or_blo (fun n => decide (blo w n ≠ -1))]
  simp [List.any_eq_true]

theorem mem_to_sort {K S : Type} [LinearOrderedField K] [Inhabited S]
    (w : atomic_correlators_worker K S) (e : K × Int) :
    e ∈ to_sort w ↔ ∃ n, n < n_blocks w ∧ blo w n = (n : Int) ∧ e = (E_min_delta_tau w n, (n : Int)) := by
  unfold to_sort to_sort_unsorted
  rw [List.mem_insertionSort]
  simp only [List.mem_map, List.mem_filter, List.mem_range, decide_eq_true_eq]
  constructor
  · rintro ⟨n, ⟨h1, h2⟩, rfl⟩; exact ⟨n, h1, h2, rfl⟩
  · rintro ⟨n, h1, h2, rfl⟩; exact ⟨n, ⟨h1, h2⟩, rfl⟩

theorem to_sort_sorted {K S : Type} [LinearOrderedField K] [Inhabited S]
    (w : atomic_correlators_worker K S) : (to_sort w).Sorted pair_le :=
  List.sorted_insertionSort pair_le _

theorem to_sort_perm {K S : Type} [LinearOrderedField K] [Inhabited S]
    (w : atomic_correlators_worker K S) : (to_sort w).Perm (to_sort_unsorted w) :=
  List.perm_insertionSort pair_le _

theorem to_sort_nodup {K S : Type} [LinearOrderedField K] [Inhabited S]
    (w : atomic_correlators_worker K S) : ((to_sort w).map Prod.snd).Nodup := by
  have h : ((to_sort_unsorted w).map Prod.snd).Nodup := by
    unfold to_sort_unsorted
    rw [List.map_map]
    have hinj : Function.Injective (Prod.snd ∘ fun n : Nat => (E_min_delta_tau w n, (n : Int))) := by
      intro a b hab
      simpa using hab
    exact (List.Nodup.filter _ (List.nodup_range _)).map hinj
  exact ((to_sort_perm w).map Prod.snd).nodup_iff.2 h


/-! ### The exact pass: loop lemmas -/

theorem propagate_some {K S : Type} [LinearOrderedField K] (w : atomic_correlators_worker K S) :
    ∀ (ops : List (op_desc K)) (psi psi1 : S), propagate w ops psi = some psi1 →
      psi1 = (fill_table w.config.beta ops).foldl
        (fun psi p => w.apply_no_emin (w.sosp.fundamental_operator p.dag p.n psi) p.dtau) psi := by
  intro ops
  induction ops with
  | nil => intro psi psi1 h; simp [propagate] at h; simp [fill_table, h]
  | cons it rest ih =>
    intro psi psi1 h
    rw [propagate] at h
    simp only [fill_table, List.foldl_cons]
    split at h
    · exact absurd h (by simp)
    · exact ih _ _ h

theorem propagate_psi_final {K S : Type} [LinearOrderedField K] [Inhabited S]
    (w : atomic_correlators_worker K S) (psi0 psi : S)
    (h : propagate w (crange w) (w.apply_no_emin psi0 (dtau0 w)) = some psi) :
    psi = psi_final w psi0 := by
  have := propagate_some w _ _ _ h
  simpa [psi_final, config_table] using this

theorem state_loop_ok {K S : Type} [LinearOrderedField K] [Inhabited S]
    (w : atomic_correlators_worker K S) (bl : Nat) (key : K) (b : Int) :
    ∀ (ks : List Nat) (a a1 : exact_state K),
      state_loop w bl key b (w.exp (-key)) ks a = .ok a1 →
        a1.full_trace = a.full_trace + (ks.map (fun k => contribution w (key, b, k))).sum ∧
        a1.entered = a.entered ∧
        a1.visited = a.visited ++ ks.map (fun k => (key, b, k)) ∧
        ∀ k ∈ ks, |partial_trace_no_emin w b k| ≤ check_bound := by
  intro ks
  induction ks with
  | nil => intro a a1 h; simp [state_loop] at h; subst h; simp
  | cons k rest ih =>
    intro a a1 h
    rw [state_loop] at h
    split at h
    · exact absurd h (by simp)
    · rename_i psi hp
      have hpsi := propagate_psi_final w _ _ hp
      simp only at h
      split at h
      · exact absurd h (by simp)
      · rename_i hle
        obtain ⟨h1, h2, h3, h4⟩ := ih _ _ h
        subst hpsi
        refine ⟨?_, ?_, ?_, ?_⟩
        · rw [h1]; simp [contribution, partial_trace_no_emin]; ring
        · rw [h2]
        · rw [h3]; simp
        · intro k1 hk1
          rcases List.mem_cons.1 hk1 with rfl | hk1
          · exact not_lt.1 hle
          · exact h4 _ hk1

theorem state_loop_error {K S : Type} [LinearOrderedField K] [Inhabited S]
    (w : atomic_correlators_worker K S) (bl : Nat) (key : K) (b : Int) :
    ∀ (ks : List Nat) (a a1 : exact_state K) (f : failure),
      state_loop w bl key b (w.exp (-key)) ks a = .error (f, a1) →
        ∃ pre k post, ks = pre ++ k :: post ∧
          a1.full_trace = a.full_trace + (pre.map (fun k => contribution w (key, b, k))).sum ∧
          a1.entered = a.entered ∧
          (∀ j ∈ pre, |partial_trace_no_emin w b j| ≤ check_bound) ∧
          ((f = failure.halte_la ∧
              a1.visited = a.visited ++ pre.map (fun k => (key, b, k)) ++ [(key, b, k)] ∧
              check_bound < |partial_trace_no_emin w b k|) ∨
           (f = failure.assertion ∧
              a1.visited = a.visited ++ pre.map (fun k => (key, b, k)))) := by
  intro ks
  induction ks with
  | nil => intro a a1 f h; simp [state_loop] at h
  | cons k rest ih =>
    intro a a1 f h
    rw [state_loop] at h
    split at h
    · simp only [Except.error.injEq, Prod.mk.injEq] at h
      obtain ⟨hf, ha⟩ := h
      subst ha
      exact ⟨[], k, rest, by simp, by simp, rfl, by simp, Or.inr ⟨hf.symm, by simp⟩⟩
    · rename_i psi hp
      have hpsi := propagate_psi_final w _ _ hp
      subst hpsi
      simp only at h
      split at h
      · rename_i hgt
        simp only [Except.error.injEq, Prod.mk.injEq] at h
        obtain ⟨hf, ha⟩ := h
        subst ha
        exact ⟨[], k, rest, by simp, by simp, rfl, by simp,
          Or.inl ⟨hf.symm, by simp, hgt⟩⟩
      · rename_i hle
        obtain ⟨pre, k1, post, h1, h2, h3, h4, h5⟩ := ih _ _ _ h
        refine ⟨k :: pre, k1, post, by simp [h1], ?_, ?_, ?_, ?_⟩
        · rw [h2]; simp [contribution, partial_trace_no_emin]; ring
        · rw [h3]
        · intro j hj
          rcases List.mem_cons.1 hj with rfl | hj
          · exact not_lt.1 hle
          · exact h4 _ hj
        · rcases h5 with ⟨hf, hv, hc⟩ | ⟨hf, hv⟩
          · exact Or.inl ⟨hf, by rw [hv]; simp, hc⟩
          · exact Or.inr ⟨hf, by rw [hv]; simp⟩


theorem block_loop_ok {K S : Type} [LinearOrderedField K] [Inhabited S]
    (w : atomic_correlators_worker K S) :
    ∀ (es : List (K × Int)) (bl : Nat) (a a1 : exact_state K),
      block_loop w es bl a = .ok a1 →
        ∃ pre post, es = pre ++ post ∧
          a1.entered = a.entered ++ pre ∧
          a1.visited = a.visited ++ pre.flatMap (states_of w) ∧
          a1.full_trace = a.full_trace + (pre.map (block_sum w)).sum ∧
          ∀ s ∈ pre.flatMap (states_of w), |partial_trace_no_emin w s.2.1 s.2.2| ≤ check_bound := by
  intro es
  induction es with
  | nil =>
    intro bl a a1 h
    simp [block_loop] at h
    subst h
    exact ⟨[], [], by simp⟩
  | cons e es ih =>
    intro bl a a1 h
    rw [block_loop] at h
    split at h
    · split at h
      · rename_i a2 hs
        obtain ⟨s1, s2, s3, s4⟩ := state_loop_ok w bl e.1 e.2 _ _ _ hs
        obtain ⟨pre, post, h1, h2, h3, h4, h5⟩ := ih _ _ _ h
        refine ⟨e :: pre, post, by simp [h1], ?_, ?_, ?_, ?_⟩
        · rw [h2, s2]; simp
        · rw [h3, s3]; simp [states_of]
        · rw [h4, s1]; simp [block_sum, states_of, List.map_map, Function.comp_def]; ring
        · intro s hs1
          simp only [List.flatMap_cons, List.mem_append] at hs1
          rcases hs1 with hs1 | hs1
          · simp only [states_of, List.mem_map, List.mem_range] at hs1
            obtain ⟨k, hk, rfl⟩ := hs1
            exact s4 k (List.mem_range.2 hk)
          · exact h5 s hs1
      · exact absurd h (by simp)
    · simp only [Except.ok.injEq] at h
      subst h
      exact ⟨[], e :: es, by simp⟩

theorem block_loop_error {K S : Type} [LinearOrderedField K] [Inhabited S]
    (w : atomic_correlators_worker K S) :
    ∀ (es : List (K × Int)) (bl : Nat) (a a1 : exact_state K) (f : failure),
      block_loop w es bl a = .error (f, a1) →
        ∃ vs, (∀ s ∈ vs, |partial_trace_no_emin w s.2.1 s.2.2| ≤ check_bound) ∧
          a1.full_trace = a.full_trace + (vs.map (contribution w)).sum ∧
          ((f = failure.halte_la ∧ ∃ s, a1.visited = a.visited ++ vs ++ [s] ∧
              check_bound < |partial_trace_no_emin w s.2.1 s.2.2|) ∨
           (f = failure.assertion ∧ a1.visited = a.visited ++ vs)) := by
  intro es
  induction es with
  | nil => intro bl a a1 f h; simp [block_loop] at h
  | cons e es ih =>
    intro bl a a1 f h
    rw [block_loop] at h
    split at h
    · split at h
      · rename_i a2 hs
        obtain ⟨s1, _, s3, s4⟩ := state_loop_ok w bl e.1 e.2 _ _ _ hs
        obtain ⟨vs, h1, h2, h3⟩ := ih _ _ _ _ h
        refine ⟨states_of w e ++ vs, ?_, ?_, ?_⟩
        · intro s hs1
          rcases List.mem_append.1 hs1 with hs1 | hs1
          · simp only [states_of, List.mem_map, List.mem_range] at hs1
            obtain ⟨k, hk, rfl⟩ := hs1
            exact s4 k (List.mem_range.2 hk)
          · exact h1 s hs1
        · rw [h2, s1]; simp [states_of, List.map_map, Function.comp_def]; ring
        · rcases h3 with ⟨hf, s, hv, hc⟩ | ⟨hf, hv⟩
          · exact Or.inl ⟨hf, s, by rw [hv, s3]; simp [states_of], hc⟩
          · exact Or.inr ⟨hf, by rw [hv, s3]; simp [states_of]⟩
      · rename_i x hs
        simp only [Except.error.injEq] at h
        subst h
        obtain ⟨pre, k, post, _, h2, _, h4, h5⟩ := state_loop_error w bl e.1 e.2 _ _ _ _ hs
        refine ⟨pre.map (fun k => (e.1, e.2, k)), ?_, ?_, ?_⟩
        · intro s hs1
          simp only [List.mem_map] at hs1
          obtain ⟨j, hj, rfl⟩ := hs1
          exact h4 j hj
        · rw [h2]; simp [List.map_map, Function.comp_def]
        · rcases h5 with ⟨hf, hv, hc⟩ | ⟨hf, hv⟩
          · exact Or.inl ⟨hf, (e.1, e.2, k), by rw [hv], hc⟩
          · exact Or.inr ⟨hf, by rw [hv]⟩
    · exact absurd h (by simp)

/-! ### The call: case analysis -/

theorem operator_call_fast_exit {K S : Type} [LinearOrderedField K] [Inhabited S]
    (w : atomic_correlators_worker K S) (h : one_non_zero w = false) :
    operator_call w =
      { ret := .ok 0, locals := exact_init, histos := [], histo_bs_block := [] } := by
  simp [operator_call, h]

theorem operator_call_ok {K S : Type} [LinearOrderedField K] [Inhabited S]
    (w : atomic_correlators_worker K S) (v : K) (h : (operator_call w).ret = .ok v) :
    (one_non_zero w = false ∧ v = 0 ∧ (operator_call w).locals = exact_init) ∨
    (one_non_zero w = true ∧ block_loop w (to_sort w) 0 exact_init = .ok (operator_call w).locals ∧
      v = (operator_call w).locals.full_trace) := by
  unfold operator_call at h ⊢
  cases h1 : one_non_zero w
  · left
    simp [h1] at h
    simp [h.symm]
  · right
    simp only [h1, Bool.not_true, Bool.false_eq_true, if_false] at h ⊢
    cases h2 : block_loop w (to_sort w) 0 exact_init with
    | error x => simp [h2] at h
    | ok a =>
      simp only [h2] at h ⊢
      cases h3 : w.make_histograms <;> simp [h3] at h ⊢ <;> exact h.symm

theorem operator_call_error {K S : Type} [LinearOrderedField K] [Inhabited S]
    (w : atomic_correlators_worker K S) (f : failure) (h : (operator_call w).ret = .error f) :
    one_non_zero w = true ∧
      block_loop w (to_sort w) 0 exact_init = .error (f, (operator_call w).locals) := by
  unfold operator_call at h ⊢
  cases h1 : one_non_zero w
  · simp [h1] at h
  · simp only [h1, Bool.not_true, Bool.false_eq_true, if_false] at h ⊢
    cases h2 : block_loop w (to_sort w) 0 exact_init with
    | error x =>
      obtain ⟨f1, a⟩ := x
      simp [h2] at h ⊢
      exact h
    | ok a =>
      simp only [h2] at h
      cases h3 : w.make_histograms <;> simp [h3] at h


theorem operator_call_visited {K S : Type} [LinearOrderedField K] [Inhabited S]
    (w : atomic_correlators_worker K S) :
    (∃ v, (operator_call w).ret = .ok v ∧
        ∀ s ∈ (operator_call w).locals.visited,
          |partial_trace_no_emin w s.2.1 s.2.2| ≤ check_bound) ∨
    ((operator_call w).ret = .error failure.assertion ∧
        ∀ s ∈ (operator_call w).locals.visited,
          |partial_trace_no_emin w s.2.1 s.2.2| ≤ check_bound) ∨
    ((operator_call w).ret = .error failure.halte_la ∧
        ∃ pre s, (operator_call w).locals.visited = pre ++ [s] ∧
          (∀ t ∈ pre, |partial_trace_no_emin w t.2.1 t.2.2| ≤ check_bound) ∧
          check_bound < |partial_trace_no_emin w s.2.1 s.2.2| ∧
          (operator_call w).locals.full_trace = (pre.map (contribution w)).sum) := by
  cases hr : (operator_call w).ret with
  | ok v =>
    left
    refine ⟨v, rfl, ?_⟩
    rcases operator_call_ok w v hr with ⟨_, _, hl⟩ | ⟨_, hb, _⟩
    · rw [hl]; simp [exact_init]
    · obtain ⟨pre, post, _, _, h3, _, h5⟩ := block_loop_ok w _ _ _ _ hb
      rw [h3]
      simpa [exact_init] using h5
  | error f =>
    right
    obtain ⟨_, hb⟩ := operator_call_error w f hr
    obtain ⟨vs, h1, h2, h3⟩ := block_loop_error w _ _ _ _ _ hb
    rcases h3 with ⟨hf, s, hv, hc⟩ | ⟨hf, hv⟩
    · right
      subst hf
      refine ⟨rfl, vs, s, by simpa [exact_init] using hv, h1, hc, by simpa [exact_init] using h2⟩
    · left
      subst hf
      refine ⟨rfl, ?_⟩
      rw [hv]
      simpa [exact_init] using h1

theorem state_loop_complete {K S : Type} [LinearOrderedField K] [Inhabited S]
    (w : atomic_correlators_worker K S) (bl : Nat) (key : K) (b : Int) (x : K)
    (hprop : ∀ psi, ∃ psi1, propagate w (crange w) psi = some psi1) :
    ∀ (ks : List Nat) (a : exact_state K),
      (∀ k ∈ ks, |partial_trace_no_emin w b k| ≤ check_bound) →
        ∃ a1, state_loop w bl key b x ks a = .ok a1 := by
  intro ks
  induction ks with
  | nil => intro a _; exact ⟨a, rfl⟩
  | cons k rest ih =>
    intro a hk
    obtain ⟨psi1, hp⟩ := hprop (w.apply_no_emin (eigenstate w b k) (dtau0 w))
    have hpsi := propagate_psi_final w _ _ hp
    have hle := hk k (List.mem_cons_self _ _)
    rw [partial_trace_no_emin, ← hpsi] at hle
    rw [state_loop]
    simp only [hp, not_lt.2 hle, if_false]
    exact ih _ (fun j hj => hk j (List.mem_cons_of_mem _ hj))

theorem block_loop_complete {K S : Type} [LinearOrderedField K] [Inhabited S]
    (w : atomic_correlators_worker K S)
    (hprop : ∀ psi, ∃ psi1, propagate w (crange w) psi = some psi1) :
    ∀ (es : List (K × Int)) (bl : Nat) (a : exact_state K),
      (∀ s ∈ es.flatMap (states_of w), |partial_trace_no_emin w s.2.1 s.2.2| ≤ check_bound) →
      (∀ pre e post, es = pre ++ e :: post →
        |a.full_trace + (pre.map (block_sum w)).sum| * epsilon ≤ w.exp (-e.1)) →
        ∃ a1, block_loop w es bl a = .ok a1 ∧
          a1.entered = a.entered ++ es ∧
          a1.visited = a.visited ++ es.flatMap (states_of w) ∧
          a1.full_trace = a.full_trace + (es.map (block_sum w)).sum := by
  intro es
  induction es with
  | nil => intro bl a _ _; exact ⟨a, rfl, by simp, by simp, by simp⟩
  | cons e es ih =>
    intro bl a hs hc
    have hc0 := hc [] e es rfl
    simp only [List.map_nil, List.sum_nil, add_zero] at hc0
    obtain ⟨a2, h2⟩ := state_loop_complete w bl e.1 e.2 (w.exp (-e.1)) hprop
      (List.range (block_size w e.2)) { a with entered := a.entered ++ [e] }
      (fun k hk => hs (e.1, e.2, k) (by
        simp only [List.flatMap_cons, List.mem_append]
        exact Or.inl (List.mem_map.2 ⟨k, hk, rfl⟩)))
    obtain ⟨s1, s2, s3, _⟩ := state_loop_ok w bl e.1 e.2 _ _ _ h2
    have hsum : a2.full_trace = a.full_trace + block_sum w e := by
      rw [s1]; simp [block_sum, states_of, List.map_map, Function.comp_def]
    obtain ⟨a1, h1, e1, v1, f1⟩ := ih (bl + 1) a2
      (fun s hs1 => hs s (by
        simp only [List.flatMap_cons, List.mem_append]
        exact Or.inr hs1))
      (fun pre e1 post hes => by
        have := hc (e :: pre) e1 post (by simp [hes])
        rw [hsum]
        simpa [add_assoc] using this)
    refine ⟨a1, ?_, ?_, ?_, ?_⟩
    · rw [block_loop, if_pos hc0, h2]
      exact h1
    · rw [e1, s2]; simp
    · rw [v1, s3]; simp [states_of]
    · rw [f1, hsum]; simp [add_assoc]

theorem operator_call_of_ok {K S : Type} [LinearOrderedField K] [Inhabited S]
    (w : atomic_correlators_worker K S) (a : exact_state K) (h1 : one_non_zero w = true)
    (h2 : block_loop w (to_sort w) 0 exact_init = .ok a) :
    (operator_call w).ret = .ok a.full_trace ∧ (operator_call w).locals = a := by
  unfold operator_call
  simp only [h1, h2, Bool.not_true, Bool.false_eq_true, if_false]
  cases w.make_histograms <;> simp

/-! ### The bound pass: walks -/

theorem block_walk_chain {K S : Type} [LinearOrderedField K]
    (w : atomic_correlators_worker K S) (E0 beta : K) :
    ∀ (ops : List (op_desc K)) (bl : Int) (s : K),
      (block_walk w E0 (fill_table beta ops) bl s).1 = -1 ∨
      (block_walk w E0 (fill_table beta ops) bl s).1 = connectivity_chain w ops bl := by
  intro ops
  induction ops with
  | nil => intro bl s; right; rfl
  | cons it rest ih =>
    intro bl s
    simp only [fill_table, block_walk, connectivity_chain]
    split
    · left; assumption
    · split
      · left; rfl
      · exact ih _ _

theorem blo_eq {K S : Type} [LinearOrderedField K] [Inhabited S]
    (w : atomic_correlators_worker K S) (n : Nat) :
    blo w n = -1 ∨ blo w n = connectivity_chain w (crange w) (n : Int) :=
  block_walk_chain w _ _ _ _ _

theorem to_sort_nil_of_no_return {K S : Type} [LinearOrderedField K] [Inhabited S]
    (w : atomic_correlators_worker K S)
    (h : ∀ n, n < n_blocks w → blo w n ≠ (n : Int)) : to_sort w = [] := by
  apply List.eq_nil_iff_forall_not_mem.2
  intro e he
  obtain ⟨n, hn, hb, _⟩ := (mem_to_sort w e).1 he
  exact h n hn hb

theorem operator_call_no_return {K S : Type} [LinearOrderedField K] [Inhabited S]
    (w : atomic_correlators_worker K S)
    (h : ∀ n, n < n_blocks w → blo w n ≠ (n : Int)) :
    (operator_call w).ret = .ok 0 ∧ (operator_call w).locals = exact_init := by
  have hs := to_sort_nil_of_no_return w h
  unfold operator_call
  cases h1 : one_non_zero w
  · simp
  · simp only [Bool.not_true, Bool.false_eq_true, if_false, hs, block_loop]
    cases w.make_histograms <;> simp [exact_init]


theorem block_walk_margin {K S : Type} [LinearOrderedField K]
    (w : atomic_correlators_worker K S) (E0 : K) :
    ∀ (t : List (p1 K)) (bl : Int) (s : K) (k : Nat), 1 ≤ k → k ≤ t.length →
      E0 + 35 < (block_walk w E0 (t.take k) bl s).2 → (block_walk w E0 t bl s).1 = -1 := by
  intro t
  induction t with
  | nil => intro bl s k h1 h2; simp at h2; omega
  | cons p rest ih =>
    intro bl s k h1 h2 h3
    obtain ⟨k1, rfl⟩ : ∃ k1, k = k1 + 1 := ⟨k - 1, by omega⟩
    simp only [List.take_succ_cons, block_walk] at h3 ⊢
    split
    · assumption
    · rename_i hb
      simp only [hb, if_false] at h3
      split
      · rfl
      · rename_i hs
        simp only [hs, if_false] at h3
        rcases Nat.eq_zero_or_pos k1 with rfl | hk
        · simp only [List.take_zero, block_walk] at h3
          exact absurd h3 hs
        · exact ih _ _ k1 hk (by simpa using h2) h3

theorem block_walk_ge {K S : Type} [LinearOrderedField K]
    (w : atomic_correlators_worker K S) (E0 : K) (hE : ∀ bl, 0 ≤ E_min w bl) :
    ∀ (t : List (p1 K)) (bl : Int) (s : K), (∀ p ∈ t, 0 ≤ p.dtau) →
      s ≤ (block_walk w E0 t bl s).2 := by
  intro t
  induction t with
  | nil => intro bl s _; exact le_refl _
  | cons p rest ih =>
    intro bl s ht
    have hp : 0 ≤ p.dtau := ht p (List.mem_cons_self _ _)
    have hstep : s ≤ s + p.dtau *
        E_min w (w.sosp.fundamental_operator_connect_from_linear_index p.dag p.n bl) :=
      le_add_of_nonneg_right (mul_nonneg hp (hE _))
    simp only [block_walk]
    split
    · exact le_refl _
    · split
      · exact hstep
      · exact le_trans hstep (ih _ _ (fun q hq => ht q (List.mem_cons_of_mem _ hq)))

theorem block_walk_prefix_mono {K S : Type} [LinearOrderedField K]
    (w : atomic_correlators_worker K S) (E0 : K) (hE : ∀ bl, 0 ≤ E_min w bl) :
    ∀ (t : List (p1 K)) (bl : Int) (s : K) (k : Nat), (∀ p ∈ t, 0 ≤ p.dtau) →
      (block_walk w E0 (t.take k) bl s).2 ≤ (block_walk w E0 (t.take (k + 1)) bl s).2 := by
  intro t
  induction t with
  | nil => intro bl s k _; simp
  | cons p rest ih =>
    intro bl s k ht
    cases k with
    | zero =>
      simp only [List.take_zero]
      exact block_walk_ge w E0 hE _ _ _ (fun q hq => ht q (List.mem_of_mem_take hq))
    | succ k1 =>
      simp only [List.take_succ_cons, block_walk]
      split
      · exact le_refl _
      · split
        · exact le_refl _
        · exact ih _ _ k1 (fun q hq => ht q (List.mem_cons_of_mem _ hq))

/-! ### Evaluation of the concrete inputs -/

theorem orbital_E_min (exp : ℝ → ℝ) (E : ℝ) (ops : List (op_desc ℝ)) (hist ndebug : Bool)
    (hE : 0 ≤ E) (bl : Int) : 0 ≤ E_min (orbital ℝ exp E ops hist ndebug) bl := by
  unfold E_min get_eigensystem orbital
  rcases bl.toNat with _ | _ | n <;> simp [hE]

theorem orbital_pair_table (exp : ℝ → ℝ) (E : ℝ) (hist ndebug : Bool) :
    config_table (orbital ℝ exp E (pair_oplist ℝ) hist ndebug) =
        [⟨1 / 2, false, 0⟩, ⟨1 / 4, true, 0⟩] ∧
    dtau0 (orbital ℝ exp E (pair_oplist ℝ) hist ndebug) = 1 / 4 := by
  constructor
  · simp [config_table, crange, orbital, pair_oplist, fill_table, tau_or_beta]; norm_num
  · simp [dtau0, crange, orbital, pair_oplist, tau_or_beta]

theorem orbital_pair_E0 (exp : ℝ → ℝ) (E : ℝ) (hist ndebug : Bool) :
    E_min_delta_tau0 (orbital ℝ exp E (pair_oplist ℝ) hist ndebug) = 0 := by
  rw [E_min_delta_tau0, (orbital_pair_table exp E hist ndebug).1,
    (orbital_pair_table exp E hist ndebug).2]
  simp [ref_walk, E_min, get_eigensystem, orbital]

theorem orbital_pair_first_pass (exp : ℝ → ℝ) (E : ℝ) (hist ndebug : Bool) (hE : E ≤ 140) :
    first_pass (orbital ℝ exp E (pair_oplist ℝ) hist ndebug) 0 = (-1, 0) ∧
    first_pass (orbital ℝ exp E (pair_oplist ℝ) hist ndebug) 1 =
      (if E / 2 > 35 then -1 else 1, E / 2) := by
  constructor
  · rw [first_pass, (orbital_pair_table exp E hist ndebug).1,
      (orbital_pair_table exp E hist ndebug).2]
    simp [block_walk, E_min, get_eigensystem, orbital]
  · rw [first_pass, (orbital_pair_table exp E hist ndebug).1,
      (orbital_pair_table exp E hist ndebug).2, orbital_pair_E0]
    simp [block_walk, E_min, get_eigensystem, orbital]
    have h1 : ¬ (35 < 4⁻¹ * E) := by linarith
    have h2 : (4 : ℝ)⁻¹ * E + 4⁻¹ * E = E / 2 := by ring
    simp only [h1, h2, if_false]
    split <;> simp

theorem orbital_pair_to_sort (exp : ℝ → ℝ) (hist ndebug : Bool) :
    one_non_zero (orbital ℝ exp 1 (pair_oplist ℝ) hist ndebug) = true ∧
    to_sort (orbital ℝ exp 1 (pair_oplist ℝ) hist ndebug) = [(1 / 2, 1)] := by
  have h := orbital_pair_first_pass exp 1 hist ndebug (by norm_num)
  have hn : n_blocks (orbital ℝ exp 1 (pair_oplist ℝ) hist ndebug) = 2 := rfl
  constructor
  · rw [one_non_zero_iff]
    refine ⟨1, by simp [hn], ?_⟩
    rw [blo, h.2]; norm_num
  · simp only [to_sort, to_sort_unsorted, hn, List.range_succ, List.range_zero, List.nil_append,
      List.cons_append, List.filter, blo, E_min_delta_tau, h.1, h.2]
    norm_num
    rw [h.2]

theorem orbital_pair_block_loop (hist ndebug : Bool) :
    block_loop (orbital ℝ Real.exp 1 (pair_oplist ℝ) hist ndebug) [(1 / 2, 1)] 0 exact_init =
      .ok { full_trace := Real.exp (-(1 / 2)), first_term := Real.exp (-(1 / 2)),
            entered := [(1 / 2, 1)], visited := [(1 / 2, 1, 0)] } := by
  have hc : (orbital ℝ Real.exp 1 (pair_oplist ℝ) hist ndebug).exp = Real.exp := rfl
  have hp : ∀ psi, propagate (orbital ℝ Real.exp 1 (pair_oplist ℝ) hist ndebug)
      (crange (orbital ℝ Real.exp 1 (pair_oplist ℝ) hist ndebug)) psi = some (0, psi.2) := by
    intro psi
    simp [crange, orbital, pair_oplist, propagate, tau_or_beta]
    norm_num
  simp only [block_loop, exact_init, abs_zero, zero_mul, hc]
  rw [if_pos (Real.exp_pos _).le]
  have hb : block_size (orbital ℝ Real.exp 1 (pair_oplist ℝ) hist ndebug) 1 = 1 := by
    simp [block_size, get_eigensystem, orbital]
  simp only [hb, List.range_succ, List.range_zero, List.nil_append, state_loop, hp]
  simp [eigenstate, get_eigensystem, orbital, check_bound]
  norm_num

theorem orbital_pair_call (hist ndebug : Bool) :
    (operator_call (orbital ℝ Real.exp 1 (pair_oplist ℝ) hist ndebug)).ret =
        .ok (Real.exp (-(1 / 2))) ∧
    (operator_call (orbital ℝ Real.exp 1 (pair_oplist ℝ) hist ndebug)).locals =
      { full_trace := Real.exp (-(1 / 2)), first_term := Real.exp (-(1 / 2)),
        entered := [(1 / 2, 1)], visited := [(1 / 2, 1, 0)] } := by
  have h1 := orbital_pair_to_sort Real.exp hist ndebug
  have h2 := orbital_pair_block_loop hist ndebug
  unfold operator_call
  simp only [h1.1, h1.2, h2, Bool.not_true, Bool.false_eq_true, if_false]
  cases (orbital ℝ Real.exp 1 (pair_oplist ℝ) hist ndebug).make_histograms <;> simp

theorem orbital_single_first_pass (exp : ℝ → ℝ) (hist ndebug : Bool) :
    n_blocks (orbital ℝ exp 1 (single_oplist ℝ) hist ndebug) = 2 ∧
    blo (orbital ℝ exp 1 (single_oplist ℝ) hist ndebug) 0 = -1 ∧
    blo (orbital ℝ exp 1 (single_oplist ℝ) hist ndebug) 1 = 0 := by
  have ht : config_table (orbital ℝ exp 1 (single_oplist ℝ) hist ndebug) = [⟨1 / 2, false, 0⟩] := by
    simp [config_table, crange, orbital, single_oplist, fill_table, tau_or_beta]; norm_num
  have hd : dtau0 (orbital ℝ exp 1 (single_oplist ℝ) hist ndebug) = 1 / 2 := by
    simp [dtau0, crange, orbital, single_oplist, tau_or_beta]
  have h0 : E_min_delta_tau0 (orbital ℝ exp 1 (single_oplist ℝ) hist ndebug) = 0 := by
    rw [E_min_delta_tau0, ht, hd]
    simp [ref_walk, E_min, get_eigensystem, orbital]
  refine ⟨rfl, ?_, ?_⟩
  · rw [blo, first_pass, ht, hd]
    simp [block_walk, orbital]
  · rw [blo, first_pass, ht, hd, h0]
    simp [block_walk, E_min, get_eigensystem, orbital]
    norm_num

theorem orbital_single_chain (exp : ℝ → ℝ) (hist ndebug : Bool) :
    ∀ n, n < n_blocks (orbital ℝ exp 1 (single_oplist ℝ) hist ndebug) →
      connectivity_chain (orbital ℝ exp 1 (single_oplist ℝ) hist ndebug)
        (crange (orbital ℝ exp 1 (single_oplist ℝ) hist ndebug)) (n : Int) ≠ (n : Int) := by
  intro n hn
  have h2 : n_blocks (orbital ℝ exp 1 (single_oplist ℝ) hist ndebug) = 2 := rfl
  rw [h2] at hn
  interval_cases n <;> simp [connectivity_chain, crange, orbital, single_oplist]

theorem orbital_single_call (exp : ℝ → ℝ) (ndebug : Bool) :
    one_non_zero (orbital ℝ exp 1 (single_oplist ℝ) true ndebug) = true ∧
    to_sort (orbital ℝ exp 1 (single_oplist ℝ) true ndebug) = [] ∧
    (operator_call (orbital ℝ exp 1 (single_oplist ℝ) true ndebug)).histo_bs_block = [0] := by
  obtain ⟨hn, h0, h1⟩ := orbital_single_first_pass exp true ndebug
  have hz : one_non_zero (orbital ℝ exp 1 (single_oplist ℝ) true ndebug) = true := by
    rw [one_non_zero_iff]
    exact ⟨1, by rw [hn]; norm_num, by rw [h1]; norm_num⟩
  have hs : to_sort (orbital ℝ exp 1 (single_oplist ℝ) true ndebug) = [] := by
    apply to_sort_nil_of_no_return
    intro n hlt
    rw [hn] at hlt
    interval_cases n
    · rw [h0]; norm_num
    · rw [h1]; norm_num
  refine ⟨hz, hs, ?_⟩
  unfold operator_call
  simp only [hz, hs, block_loop, Bool.not_true, Bool.false_eq_true, if_false]
  simp [orbital]

theorem orbital_empty_first_pass (exp : ℝ → ℝ) (E : ℝ) (hist ndebug : Bool) :
    n_blocks (orbital ℝ exp E [] hist ndebug) = 2 ∧
    config_table (orbital ℝ exp E [] hist ndebug) = [] ∧
    dtau0 (orbital ℝ exp E [] hist ndebug) = 1 ∧
    E_min_delta_tau0 (orbital ℝ exp E [] hist ndebug) = 0 ∧
    first_pass (orbital ℝ exp E [] hist ndebug) 0 = (0, 0) ∧
    first_pass (orbital ℝ exp E [] hist ndebug) 1 = (1, E) := by
  have ht : config_table (orbital ℝ exp E [] hist ndebug) = [] := by
    simp [config_table, crange, orbital, fill_table]
  have hd : dtau0 (orbital ℝ exp E [] hist ndebug) = 1 := by
    simp [dtau0, crange, orbital, tau_or_beta]
  have h0 : E_min_delta_tau0 (orbital ℝ exp E [] hist ndebug) = 0 := by
    rw [E_min_delta_tau0, ht, hd]
    simp [ref_walk, E_min, get_eigensystem, orbital]
  refine ⟨rfl, ht, hd, h0, ?_, ?_⟩
  · rw [first_pass, ht, hd]
    simp [block_walk, E_min, get_eigensystem, orbital]
  · rw [first_pass, ht, hd]
    simp [block_walk, E_min, get_eigensystem, orbital]

theorem orbital_empty_to_sort (exp : ℝ → ℝ) (E : ℝ) (hist ndebug : Bool) (hE : 0 < E) :
    one_non_zero (orbital ℝ exp E [] hist ndebug) = true ∧
    to_sort (orbital ℝ exp E [] hist ndebug) = [(0, 0), (E, 1)] := by
  obtain ⟨hn, _, _, _, h0, h1⟩ := orbital_empty_first_pass exp E hist ndebug
  constructor
  · rw [one_non_zero_iff]
    exact ⟨0, by rw [hn]; norm_num, by rw [blo, h0]; norm_num⟩
  · simp only [to_sort, to_sort_unsorted, hn, List.range_succ, List.range_zero, List.nil_append,
      List.cons_append, List.filter, blo, E_min_delta_tau, h0, h1]
    norm_num
    rw [h0, h1]
    simp [List.insertionSort, List.orderedInsert, pair_le, hE]

/-! ### The empty configuration -/

theorem range_map_getD {α β : Type} (l : List α) (d : α) (f : α → β) :
    (List.range l.length).map (fun k => f (l.getD k d)) = l.map f := by
  apply List.ext_getElem
  · simp
  · intro i h1 h2
    simp at h1
    simp [h1]

theorem empty_config_first_pass {K S : Type} [LinearOrderedField K] [Inhabited S]
    (w : atomic_correlators_worker K S) (hcfg : w.config.oplist = []) :
    crange w = [] ∧ config_table w = [] ∧ dtau0 w = w.config.beta ∧
    ∀ n, first_pass w n = ((n : Int), w.config.beta * E_min w (n : Int)) := by
  have h1 : crange w = [] := by simp [crange, hcfg]
  have h2 : config_table w = [] := by simp [config_table, h1, fill_table]
  have h3 : dtau0 w = w.config.beta := by simp [dtau0, h1, tau_or_beta]
  exact ⟨h1, h2, h3, fun n => by simp [first_pass, h2, h3, block_walk]⟩

theorem empty_config_to_sort_unsorted {K S : Type} [LinearOrderedField K] [Inhabited S]
    (w : atomic_correlators_worker K S) (hcfg : w.config.oplist = []) :
    to_sort_unsorted w =
      (List.range (n_blocks w)).map
        (fun n : Nat => (w.config.beta * E_min w (n : Int), (n : Int))) := by
  obtain ⟨_, _, _, h4⟩ := empty_config_first_pass w hcfg
  unfold to_sort_unsorted
  have hf : (List.range (n_blocks w)).filter (fun n => decide (blo w n = (n : Int))) =
      List.range (n_blocks w) := by
    apply List.filter_eq_self.2
    intro n _
    simp [blo, h4]
  rw [hf]
  apply List.map_congr_left
  intro n _
  simp [E_min_delta_tau, h4]

theorem E_min_le_eigenvalue {K S : Type} [LinearOrderedField K] [Inhabited S]
    (w : atomic_correlators_worker K S)
    (hs : ∀ es ∈ w.sosp.eigensystems, es.eigenvalues.Sorted (fun x y => x ≤ y))
    (b : Nat) (hb : b < n_blocks w) (k : Nat) (hk : k < block_size w b) :
    E_min w b ≤ eigenvalue w b k := by
  unfold E_min eigenvalue
  unfold block_size at hk
  have hmem : get_eigensystem w b ∈ w.sosp.eigensystems := by
    unfold get_eigensystem
    simp only [Int.toNat_ofNat]
    rw [List.getD_eq_getElem _ _ hb]
    exact List.getElem_mem _
  have hsorted := hs _ hmem
  generalize (get_eigensystem w b).eigenvalues = l at hk hsorted
  cases l with
  | nil => simp at hk
  | cons x xs =>
    cases k with
    | zero => simp
    | succ k1 =>
      simp only [List.headD_cons, List.getD_cons_succ]
      simp only [List.length_cons, Nat.add_lt_add_iff_right] at hk
      rw [List.getD_eq_getElem _ _ hk]
      exact List.rel_of_sorted_cons hsorted _ (List.getElem_mem _)

theorem empty_config_partial_trace {S : Type} [Inhabited S] [AddCommGroup S] [Module ℝ S]
    (w : atomic_correlators_worker ℝ S) (hcfg : w.config.oplist = [])
    (hb : orthonormal_eigenbasis w) (b : Nat) (hbn : b < n_blocks w) (k : Nat)
    (hk : k < block_size w b) :
    partial_trace_no_emin w b k =
      Real.exp (-(w.config.beta * (eigenvalue w b k - E_min w b))) := by
  obtain ⟨_, h2, h3, _⟩ := empty_config_first_pass w hcfg
  obtain ⟨_, _, hlin, horth, happ⟩ := hb
  unfold partial_trace_no_emin psi_final
  rw [h2, h3, List.foldl_nil, happ b hbn k hk, hlin, horth b hbn k k hk hk]
  simp

theorem empty_config_block_sum {S : Type} [Inhabited S] [AddCommGroup S] [Module ℝ S]
    (w : atomic_correlators_worker ℝ S) (hcfg : w.config.oplist = [])
    (hb : orthonormal_eigenbasis w) (b : Nat) (hbn : b < n_blocks w) :
    block_sum w (w.config.beta * E_min w b, (b : Int)) =
      ((get_eigensystem w b).eigenvalues.map
        (fun E => w.exp (-(w.config.beta * E)))).sum := by
  have hexp : w.exp = Real.exp := hb.1
  unfold block_sum states_of
  rw [List.map_map, ← range_map_getD (get_eigensystem w b).eigenvalues 0]
  congr 1
  apply List.map_congr_left
  intro k hk
  have hk1 : k < block_size w b := List.mem_range.1 hk
  simp only [Function.comp_def, contribution]
  rw [empty_config_partial_trace w hcfg hb b hbn k hk1, hexp, ← Real.exp_add]
  congr 1
  unfold eigenvalue
  ring

theorem empty_config_sum {S : Type} [Inhabited S] [AddCommGroup S] [Module ℝ S]
    (w : atomic_correlators_worker ℝ S) (hcfg : w.config.oplist = [])
    (hb : orthonormal_eigenbasis w) :
    ((to_sort w).map (block_sum w)).sum = partition_function w := by
  rw [((to_sort_perm w).map (block_sum w)).sum_eq, empty_config_to_sort_unsorted w hcfg,
    List.map_map]
  unfold partition_function
  rw [← range_map_getD w.sosp.eigensystems ⟨[], []⟩]
  congr 1
  apply List.map_congr_left
  intro n hn
  have hn1 : n < n_blocks w := List.mem_range.1 hn
  simp only [Function.comp_def]
  rw [empty_config_block_sum w hcfg hb n hn1]
  simp [get_eigensystem]

theorem sum_take_le_sum {l : List ℝ} (h : ∀ x ∈ l, 0 ≤ x) (pre post : List ℝ)
    (hl : l = pre ++ post) : 0 ≤ pre.sum ∧ pre.sum ≤ l.sum := by
  subst hl
  have h1 : 0 ≤ pre.sum := List.sum_nonneg (fun x hx => h x (List.mem_append_left _ hx))
  have h2 : 0 ≤ post.sum := List.sum_nonneg (fun x hx => h x (List.mem_append_right _ hx))
  rw [List.sum_append]
  exact ⟨h1, by linarith⟩

theorem empty_config_call {S : Type} [Inhabited S] [AddCommGroup S] [Module ℝ S]
    (w : atomic_correlators_worker ℝ S) (hcfg : w.config.oplist = [])
    (hbeta : 0 < w.config.beta) (hn : 0 < n_blocks w) (hb : orthonormal_eigenbasis w)
    (hcut : ∀ b : Nat, b < n_blocks w →
      epsilon * partition_function w ≤ Real.exp (-(w.config.beta * E_min w b))) :
    (operator_call w).ret = .ok (partition_function w) ∧
    (operator_call w).locals.entered = to_sort w ∧
    (operator_call w).locals.visited = (to_sort w).flatMap (states_of w) := by
  have hexp : w.exp = Real.exp := hb.1
  obtain ⟨hc1, _, _, hfp⟩ := empty_config_first_pass w hcfg
  have hone : one_non_zero w = true := by
    rw [one_non_zero_iff]
    refine ⟨0, hn, ?_⟩
    rw [blo, hfp]; simp
  have hprop : ∀ psi, ∃ psi1, propagate w (crange w) psi = some psi1 := by
    intro psi; rw [hc1]; exact ⟨psi, rfl⟩
  have hmem : ∀ e ∈ to_sort w, ∃ n : Nat, n < n_blocks w ∧
      e = (w.config.beta * E_min w n, (n : Int)) := by
    intro e he
    obtain ⟨n, h1, _, h3⟩ := (mem_to_sort w e).1 he
    refine ⟨n, h1, ?_⟩
    rw [h3, E_min_delta_tau, hfp]
  have hcheck : ∀ s ∈ (to_sort w).flatMap (states_of w),
      |partial_trace_no_emin w s.2.1 s.2.2| ≤ check_bound := by
    intro s hs
    obtain ⟨e, he, hse⟩ := List.mem_flatMap.1 hs
    obtain ⟨n, hn1, rfl⟩ := hmem e he
    simp only [states_of, List.mem_map, List.mem_range] at hse
    obtain ⟨k, hk, rfl⟩ := hse
    simp only
    rw [empty_config_partial_trace w hcfg hb n hn1 k hk, abs_of_pos (Real.exp_pos _)]
    have hle := E_min_le_eigenvalue w hb.2.1 n hn1 k hk
    have h1 : Real.exp (-(w.config.beta * (eigenvalue w n k - E_min w n))) ≤ 1 := by
      rw [Real.exp_le_one_iff]
      have := mul_nonneg hbeta.le (sub_nonneg.2 hle)
      linarith
    unfold check_bound
    linarith [show (1 : ℝ) ≤ 10000001 / 10000000 by norm_num]
  have hnonneg : ∀ x ∈ (to_sort w).map (block_sum w), 0 ≤ x := by
    intro x hx
    obtain ⟨e, he, rfl⟩ := List.mem_map.1 hx
    obtain ⟨n, hn1, rfl⟩ := hmem e he
    rw [empty_config_block_sum w hcfg hb n hn1, hexp]
    apply List.sum_nonneg
    intro y hy
    obtain ⟨E, _, rfl⟩ := List.mem_map.1 hy
    exact (Real.exp_pos _).le
  have hcont : ∀ pre e post, to_sort w = pre ++ e :: post →
      |(exact_init : exact_state ℝ).full_trace + (pre.map (block_sum w)).sum| * epsilon
        ≤ w.exp (-e.1) := by
    intro pre e post hes
    have he : e ∈ to_sort w := by rw [hes]; simp
    obtain ⟨h0, h1⟩ := sum_take_le_sum hnonneg (pre.map (block_sum w))
      ((e :: post).map (block_sum w)) (by rw [hes]; simp)
    obtain ⟨n, hn1, rfl⟩ := hmem e he
    rw [empty_config_sum w hcfg hb] at h1
    have heps : (0 : ℝ) ≤ epsilon := by unfold epsilon; positivity
    simp only [exact_init, zero_add]
    rw [abs_of_nonneg h0, hexp]
    calc (pre.map (block_sum w)).sum * epsilon
        ≤ partition_function w * epsilon := mul_le_mul_of_nonneg_right h1 heps
      _ = epsilon * partition_function w := mul_comm _ _
      _ ≤ Real.exp (-(w.config.beta * E_min w n)) := hcut n hn1
  obtain ⟨a1, h1, h2, h3, h4⟩ := block_loop_complete w hprop (to_sort w) 0 exact_init hcheck hcont
  obtain ⟨r1, r2⟩ := operator_call_of_ok w a1 hone h1
  refine ⟨?_, ?_, ?_⟩
  · rw [r1, h4, empty_config_sum w hcfg hb]; simp [exact_init]
  · rw [r2, h2]; simp [exact_init]
  · rw [r2, h3]; simp [exact_init]

theorem exp_neg_36_lt : Real.exp (-36) < (epsilon : ℝ) := by
  have h1 : (2.7182818283 : ℝ) < Real.exp 1 := Real.exp_one_gt_d9
  have h2 : Real.exp 36 = Real.exp 1 ^ 36 := by
    rw [← Real.exp_nat_mul]; norm_num
  have h3 : (10 : ℝ) ^ 15 < Real.exp 36 := by
    rw [h2]
    calc (10 : ℝ) ^ 15 < 2.7182818283 ^ 36 := by norm_num
      _ < Real.exp 1 ^ 36 := by gcongr
  rw [Real.exp_neg, epsilon, one_div]
  exact inv_strictAnti₀ (by positivity) h3

theorem orbital_eigenbasis (E : ℝ) (ops : List (op_desc ℝ)) (hist ndebug : Bool) :
    orthonormal_eigenbasis (orbital ℝ Real.exp E ops hist ndebug) := by
  have hn : n_blocks (orbital ℝ Real.exp E ops hist ndebug) = 2 := rfl
  refine ⟨rfl, ?_, ?_, ?_, ?_⟩
  · intro es hes
    simp only [orbital, List.mem_cons, List.not_mem_nil, or_false] at hes
    rcases hes with rfl | rfl <;> simp
  · intro c x y
    simp only [orbital, Prod.smul_fst, Prod.smul_snd, smul_eq_mul]
    ring
  · intro b hb j k hj hk
    rw [hn] at hb
    interval_cases b
    · have hj0 : j = 0 := by simpa [block_size, get_eigensystem, orbital] using hj
      have hk0 : k = 0 := by simpa [block_size, get_eigensystem, orbital] using hk
      subst hj0 hk0
      simp [eigenstate, get_eigensystem, orbital]
    · have hj0 : j = 0 := by simpa [block_size, get_eigensystem, orbital] using hj
      have hk0 : k = 0 := by simpa [block_size, get_eigensystem, orbital] using hk
      subst hj0 hk0
      simp [eigenstate, get_eigensystem, orbital]
  · intro b hb k hk dtau
    rw [hn] at hb
    interval_cases b
    · have hk0 : k = 0 := by simpa [block_size, get_eigensystem, orbital] using hk
      subst hk0
      simp [eigenstate, eigenvalue, E_min, get_eigensystem, orbital]
    · have hk0 : k = 0 := by simpa [block_size, get_eigensystem, orbital] using hk
      subst hk0
      simp [eigenstate, eigenvalue, E_min, get_eigensystem, orbital]

theorem orbital_empty_call (hist ndebug : Bool) :
    (operator_call (orbital ℝ Real.exp 36 [] hist ndebug)).ret = .ok 1 ∧
    (operator_call (orbital ℝ Real.exp 36 [] hist ndebug)).locals.entered = [(0, 0)] ∧
    partition_function (orbital ℝ Real.exp 36 [] hist ndebug) = 1 + Real.exp (-36) := by
  obtain ⟨hone, hs⟩ := orbital_empty_to_sort Real.exp 36 hist ndebug (by norm_num)
  have hc : (orbital ℝ Real.exp 36 [] hist ndebug).exp = Real.exp := rfl
  have hcr : crange (orbital ℝ Real.exp 36 [] hist ndebug) = [] := rfl
  have hb : block_size (orbital ℝ Real.exp 36 [] hist ndebug) 0 = 1 := by
    simp [block_size, get_eigensystem, orbital]
  have hloop : block_loop (orbital ℝ Real.exp 36 [] hist ndebug) [(0, 0), (36, 1)] 0 exact_init =
      .ok { full_trace := 1, first_term := 1, entered := [(0, 0)], visited := [(0, 0, 0)] } := by
    simp only [block_loop, exact_init, abs_zero, zero_mul, hc, neg_zero, Real.exp_zero]
    rw [if_pos zero_le_one]
    simp only [hb, List.range_succ, List.range_zero, List.nil_append, state_loop, hcr, propagate]
    have hck : ¬ ((check_bound : ℝ) < 1) := by
      unfold check_bound; norm_num
    have hcut1 : ¬ ((epsilon : ℝ) ≤ Real.exp (-36)) := not_le.2 exp_neg_36_lt
    simp [eigenstate, get_eigensystem, orbital, hck, hcut1]
  obtain ⟨r1, r2⟩ := operator_call_of_ok _ _ hone (by rw [hs]; exact hloop)
  refine ⟨r1, by rw [r2], ?_⟩
  simp [partition_function, orbital]

theorem two_blocks_eigenbasis (hist ndebug : Bool) :
    orthonormal_eigenbasis (two_blocks ℝ Real.exp hist ndebug) := by
  have hn : n_blocks (two_blocks ℝ Real.exp hist ndebug) = 2 := rfl
  refine ⟨rfl, ?_, ?_, ?_, ?_⟩
  · intro es hes
    simp only [two_blocks, List.mem_cons, List.not_mem_nil, or_false] at hes
    rcases hes with rfl | rfl <;> simp
  · intro c x y
    simp only [two_blocks, Prod.smul_fst, Prod.smul_snd, smul_eq_mul]
    ring
  · intro b hb j k hj hk
    rw [hn] at hb
    interval_cases b
    · have hj0 : j < 2 := by simpa [block_size, get_eigensystem, two_blocks] using hj
      have hk0 : k < 2 := by simpa [block_size, get_eigensystem, two_blocks] using hk
      interval_cases j <;> interval_cases k <;>
        simp [eigenstate, get_eigensystem, two_blocks]
    · have hj0 : j = 0 := by simpa [block_size, get_eigensystem, two_blocks] using hj
      have hk0 : k = 0 := by simpa [block_size, get_eigensystem, two_blocks] using hk
      subst hj0 hk0
      simp [eigenstate, get_eigensystem, two_blocks]
  · intro b hb k hk dtau
    rw [hn] at hb
    interval_cases b
    · have hk0 : k < 2 := by simpa [block_size, get_eigensystem, two_blocks] using hk
      interval_cases k <;>
        simp [eigenstate, eigenvalue, E_min, get_eigensystem, two_blocks]
    · have hk0 : k = 0 := by simpa [block_size, get_eigensystem, two_blocks] using hk
      subst hk0
      simp [eigenstate, eigenvalue, E_min, get_eigensystem, two_blocks]

theorem exp_neg_one_ge : (1 : ℝ) / 3 ≤ Real.exp (-1) := by
  have h1 : Real.exp 1 < 3 := lt_trans Real.exp_one_lt_d9 (by norm_num)
  rw [Real.exp_neg, one_div]
  exact (inv_strictAnti₀ (Real.exp_pos 1) h1).le

theorem two_blocks_cut :
    0 < (two_blocks ℝ Real.exp false false).config.beta ∧
    0 < n_blocks (two_blocks ℝ Real.exp false false) ∧
    ∀ b : Nat, b < n_blocks (two_blocks ℝ Real.exp false false) →
      epsilon * partition_function (two_blocks ℝ Real.exp false false) ≤
        Real.exp (-((two_blocks ℝ Real.exp false false).config.beta *
          E_min (two_blocks ℝ Real.exp false false) b)) := by
  have hn : n_blocks (two_blocks ℝ Real.exp false false) = 2 := rfl
  have hbeta : (two_blocks ℝ Real.exp false false).config.beta = 2 := rfl
  have hZ : partition_function (two_blocks ℝ Real.exp false false) =
      Real.exp 0 + Real.exp (-2) + Real.exp (-1) := by
    simp [partition_function, two_blocks]
  have hZ3 : partition_function (two_blocks ℝ Real.exp false false) ≤ 3 := by
    rw [hZ]
    have h1 : Real.exp (-2) ≤ 1 := Real.exp_le_one_iff.2 (by norm_num)
    have h2 : Real.exp (-1) ≤ 1 := Real.exp_le_one_iff.2 (by norm_num)
    rw [Real.exp_zero]; linarith
  have heps : (epsilon : ℝ) * partition_function (two_blocks ℝ Real.exp false false) ≤ 1 / 3 := by
    have : (epsilon : ℝ) * partition_function (two_blocks ℝ Real.exp false false) ≤ epsilon * 3 :=
      mul_le_mul_of_nonneg_left hZ3 (by unfold epsilon; positivity)
    refine le_trans this ?_
    unfold epsilon; norm_num
  refine ⟨by rw [hbeta]; norm_num, by rw [hn]; norm_num, ?_⟩
  intro b hb
  rw [hn] at hb
  rw [hbeta]
  interval_cases b
  · have : E_min (two_blocks ℝ Real.exp false false) ((0 : Nat) : Int) = 0 := by
      simp [E_min, get_eigensystem, two_blocks]
    rw [this]; simp only [mul_zero, neg_zero, Real.exp_zero]; linarith
  · have : E_min (two_blocks ℝ Real.exp false false) ((1 : Nat) : Int) = 1 / 2 := by
      simp [E_min, get_eigensystem, two_blocks]
    rw [this]
    have h : -((2 : ℝ) * (1 / 2)) = -1 := by norm_num
    rw [h]
    exact le_trans heps exp_neg_one_ge

/-! ### Pruned and unpruned evaluation -/

theorem ref_walk_ge {K S : Type} [LinearOrderedField K]
    (w : atomic_correlators_worker K S) (hE : ∀ bl, 0 ≤ E_min w bl) :
    ∀ (t : List (p1 K)) (bl : Int) (s : K), (∀ p ∈ t, 0 ≤ p.dtau) →
      s ≤ (ref_walk w t bl s).2 := by
  intro t
  induction t with
  | nil => intro bl s _; exact le_refl _
  | cons p rest ih =>
    intro bl s ht
    have hp : 0 ≤ p.dtau := ht p (List.mem_cons_self _ _)
    have hstep : s ≤ s + p.dtau *
        E_min w (w.sosp.fundamental_operator_connect_from_linear_index p.dag p.n bl) :=
      le_add_of_nonneg_right (mul_nonneg hp (hE _))
    simp only [ref_walk]
    split
    · exact le_refl _
    · exact le_trans hstep (ih _ _ (fun q hq => ht q (List.mem_cons_of_mem _ hq)))

theorem block_walk_vs_ref_walk {K S : Type} [LinearOrderedField K]
    (w : atomic_correlators_worker K S) (E0 : K) (hE : ∀ bl, 0 ≤ E_min w bl) :
    ∀ (t : List (p1 K)) (bl : Int) (s : K), (∀ p ∈ t, 0 ≤ p.dtau) →
      block_walk w E0 t bl s = ref_walk w t bl s ∨
      ((block_walk w E0 t bl s).1 = -1 ∧ E0 + 35 < (ref_walk w t bl s).2) := by
  intro t
  induction t with
  | nil => intro bl s _; left; rfl
  | cons p rest ih =>
    intro bl s ht
    have ht1 : ∀ q ∈ rest, 0 ≤ q.dtau := fun q hq => ht q (List.mem_cons_of_mem _ hq)
    simp only [block_walk, ref_walk]
    split
    · left; rfl
    · split
      · rename_i hgt
        right
        exact ⟨rfl, lt_of_lt_of_le hgt (ref_walk_ge w hE _ _ _ ht1)⟩
      · exact ih _ _ ht1

theorem block_loop_stop {K S : Type} [LinearOrderedField K] [Inhabited S]
    (w : atomic_correlators_worker K S) :
    ∀ (es : List (K × Int)) (bl : Nat) (a a1 : exact_state K),
      block_loop w es bl a = .ok a1 →
        ∃ pre post, es = pre ++ post ∧
          a1.entered = a.entered ++ pre ∧
          a1.full_trace = a.full_trace + (pre.map (block_sum w)).sum ∧
          (∀ e ∈ post.head?, w.exp (-e.1) < |a1.full_trace| * epsilon) := by
  intro es
  induction es with
  | nil =>
    intro bl a a1 h
    simp [block_loop] at h
    subst h
    exact ⟨[], [], by simp⟩
  | cons e es ih =>
    intro bl a a1 h
    rw [block_loop] at h
    split at h
    · split at h
      · rename_i a2 hs
        obtain ⟨s1, s2, _, _⟩ := state_loop_ok w bl e.1 e.2 _ _ _ hs
        obtain ⟨pre, post, h1, h2, h3, h4⟩ := ih _ _ _ h
        refine ⟨e :: pre, post, by simp [h1], ?_, ?_, h4⟩
        · rw [h2, s2]; simp
        · rw [h3, s1]; simp [block_sum, states_of, List.map_map, Function.comp_def]; ring
      · exact absurd h (by simp)
    · rename_i hlt
      simp only [Except.ok.injEq] at h
      subst h
      refine ⟨[], e :: es, by simp, by simp, by simp, ?_⟩
      intro e1 he1
      simp only [List.head?_cons, Option.mem_def, Option.some.injEq] at he1
      subst he1
      exact not_le.1 hlt

theorem orbital_pair_gaps (exp : ℝ → ℝ) (E : ℝ) (hist ndebug : Bool) :
    0 < dtau0 (orbital ℝ exp E (pair_oplist ℝ) hist ndebug) ∧
    ∀ p ∈ config_table (orbital ℝ exp E (pair_oplist ℝ) hist ndebug), 0 < p.dtau := by
  obtain ⟨ht, hd⟩ := orbital_pair_table exp E hist ndebug
  rw [ht, hd]
  refine ⟨by norm_num, ?_⟩
  intro p hp
  simp only [List.mem_cons, List.not_mem_nil, or_false] at hp
  rcases hp with rfl | rfl <;> norm_num

theorem orbital_pair_running :
    E_min_delta_tau0 (orbital ℝ Real.exp 100 (pair_oplist ℝ) false false) + 35 <
      running_bound (orbital ℝ Real.exp 100 (pair_oplist ℝ) false false) 1 2 := by
  have h := (orbital_pair_first_pass Real.exp 100 false false (by norm_num)).2
  have ht := (orbital_pair_table Real.exp 100 false false).1
  have hr : running_bound (orbital ℝ Real.exp 100 (pair_oplist ℝ) false false) 1 2 =
      (first_pass (orbital ℝ Real.exp 100 (pair_oplist ℝ) false false) 1).2 := by
    rw [running_bound, first_pass, ht]; rfl
  rw [hr, h, orbital_pair_E0]
  norm_num

theorem doubling_orbital_call :
    (operator_call (doubling_orbital ℝ Real.exp)).ret = .error failure.halte_la ∧
    (operator_call (doubling_orbital ℝ Real.exp)).locals.visited = [(1 / 2, 1, 0)] ∧
    (operator_call (doubling_orbital ℝ Real.exp)).locals.full_trace = 0 ∧
    partial_trace_no_emin (doubling_orbital ℝ Real.exp) 1 0 = 2 := by
  have hn : n_blocks (doubling_orbital ℝ Real.exp) = 2 := rfl
  have hc : (doubling_orbital ℝ Real.exp).exp = Real.exp := rfl
  have ht : config_table (doubling_orbital ℝ Real.exp) =
      [⟨1 / 2, false, 0⟩, ⟨1 / 4, true, 0⟩] := by
    simp [config_table, crange, doubling_orbital, pair_oplist, fill_table, tau_or_beta]
    norm_num
  have hd : dtau0 (doubling_orbital ℝ Real.exp) = 1 / 4 := by
    simp [dtau0, crange, doubling_orbital, pair_oplist, tau_or_beta]
  have hE0 : E_min_delta_tau0 (doubling_orbital ℝ Real.exp) = 0 := by
    rw [E_min_delta_tau0, ht, hd]
    simp [ref_walk, E_min, get_eigensystem, doubling_orbital]
  have h0 : first_pass (doubling_orbital ℝ Real.exp) 0 = (-1, 0) := by
    rw [first_pass, ht, hd]
    simp [block_walk, E_min, get_eigensystem, doubling_orbital]
  have h1 : first_pass (doubling_orbital ℝ Real.exp) 1 = (1, 1 / 2) := by
    rw [first_pass, ht, hd, hE0]
    simp [block_walk, E_min, get_eigensystem, doubling_orbital]
    norm_num
  have hone : one_non_zero (doubling_orbital ℝ Real.exp) = true := by
    rw [one_non_zero_iff]
    exact ⟨1, by rw [hn]; norm_num, by rw [blo, h1]; norm_num⟩
  have hs : to_sort (doubling_orbital ℝ Real.exp) = [(1 / 2, 1)] := by
    simp only [to_sort, to_sort_unsorted, hn, List.range_succ, List.range_zero, List.nil_append,
      List.cons_append, List.filter, blo, E_min_delta_tau, h0, h1]
    norm_num
    rw [h1]
  have hp : ∀ psi, propagate (doubling_orbital ℝ Real.exp)
      (crange (doubling_orbital ℝ Real.exp)) psi = some (0, 2 * psi.2) := by
    intro psi
    simp [crange, doubling_orbital, pair_oplist, propagate, tau_or_beta]
    norm_num
  have hb : block_size (doubling_orbital ℝ Real.exp) 1 = 1 := by
    simp [block_size, get_eigensystem, doubling_orbital]
  have hck : (check_bound : ℝ) < 2 := by unfold check_bound; norm_num
  have hloop : block_loop (doubling_orbital ℝ Real.exp) [(1 / 2, 1)] 0 exact_init =
      .error (failure.halte_la,
        { full_trace := 0, first_term := 0, entered := [(1 / 2, 1)],
          visited := [(1 / 2, 1, 0)] }) := by
    simp only [block_loop, exact_init, abs_zero, zero_mul, hc]
    rw [if_pos (Real.exp_pos _).le]
    simp only [hb, List.range_succ, List.range_zero, List.nil_append, state_loop, hp]
    simp [eigenstate, get_eigensystem, doubling_orbital, hck]
  have hcall : operator_call (doubling_orbital ℝ Real.exp) =
      { ret := .error failure.halte_la,
        locals := { full_trace := 0, first_term := 0, entered := [(1 / 2, 1)],
                    visited := [(1 / 2, 1, 0)] },
        histos := [], histo_bs_block := [] } := by
    unfold operator_call
    simp only [hone, hs, hloop, Bool.not_true, Bool.false_eq_true, if_false]
  refine ⟨by rw [hcall], by rw [hcall], by rw [hcall], ?_⟩
  rw [partial_trace_no_emin, psi_final, ht]
  simp [eigenstate, get_eigensystem, doubling_orbital]

/-! ### The diagnostics flag -/

theorem ref_walk_with_histograms {K S : Type} [LinearOrderedField K]
    (w : atomic_correlators_worker K S) (b : Bool) :
    ∀ (t : List (p1 K)) (bl : Int) (E : K),
      ref_walk (with_histograms w b) t bl E = ref_walk w t bl E := by
  intro t
  induction t with
  | nil => intro bl E; rfl
  | cons p rest ih =>
    intro bl E
    have hs : (with_histograms w b).sosp = w.sosp := rfl
    have hE : ∀ x, E_min (with_histograms w b) x = E_min w x := fun _ => rfl
    simp only [ref_walk, hs, hE, ih]

theorem block_walk_with_histograms {K S : Type} [LinearOrderedField K]
    (w : atomic_correlators_worker K S) (b : Bool) (E0 : K) :
    ∀ (t : List (p1 K)) (bl : Int) (s : K),
      block_walk (with_histograms w b) E0 t bl s = block_walk w E0 t bl s := by
  intro t
  induction t with
  | nil => intro bl s; rfl
  | cons p rest ih =>
    intro bl s
    have hs : (with_histograms w b).sosp = w.sosp := rfl
    have hE : ∀ x, E_min (with_histograms w b) x = E_min w x := fun _ => rfl
    simp only [block_walk, hs, hE, ih]

theorem first_pass_with_histograms {K S : Type} [LinearOrderedField K] [Inhabited S]
    (w : atomic_correlators_worker K S) (b : Bool) (n : Nat) :
    first_pass (with_histograms w b) n = first_pass w n := by
  unfold first_pass E_min_delta_tau0
  rw [ref_walk_with_histograms, block_walk_with_histograms]
  rfl

theorem one_non_zero_with_histograms {K S : Type} [LinearOrderedField K] [Inhabited S]
    (w : atomic_correlators_worker K S) (b : Bool) :
    one_non_zero (with_histograms w b) = one_non_zero w := by
  unfold one_non_zero blo
  simp only [first_pass_with_histograms]
  rfl

theorem to_sort_with_histograms {K S : Type} [LinearOrderedField K] [Inhabited S]
    (w : atomic_correlators_worker K S) (b : Bool) :
    to_sort (with_histograms w b) = to_sort w := by
  unfold to_sort to_sort_unsorted blo E_min_delta_tau
  simp only [first_pass_with_histograms]
  rfl

theorem propagate_with_histograms {K S : Type} [LinearOrderedField K]
    (w : atomic_correlators_worker K S) (b : Bool) :
    ∀ (ops : List (op_desc K)) (psi : S),
      propagate (with_histograms w b) ops psi = propagate w ops psi := by
  intro ops
  induction ops with
  | nil => intro psi; rfl
  | cons it rest ih =>
    intro psi
    rw [propagate, propagate]
    simp only [ih]
    rfl

theorem state_loop_with_histograms {K S : Type} [LinearOrderedField K] [Inhabited S]
    (w : atomic_correlators_worker K S) (b : Bool) (bl : Nat) (key : K) (bi : Int) (x : K) :
    ∀ (ks : List Nat) (a : exact_state K),
      state_loop (with_histograms w b) bl key bi x ks a = state_loop w bl key bi x ks a := by
  intro ks
  induction ks with
  | nil => intro a; rfl
  | cons k rest ih =>
    intro a
    rw [state_loop, state_loop]
    simp only [ih]
    have hp : propagate (with_histograms w b) (crange (with_histograms w b))
        ((with_histograms w b).apply_no_emin (eigenstate (with_histograms w b) bi k)
          (dtau0 (with_histograms w b))) =
        propagate w (crange w) (w.apply_no_emin (eigenstate w bi k) (dtau0 w)) :=
      propagate_with_histograms w b _ _
    rw [hp]
    rfl

theorem block_loop_with_histograms {K S : Type} [LinearOrderedField K] [Inhabited S]
    (w : atomic_correlators_worker K S) (b : Bool) :
    ∀ (es : List (K × Int)) (bl : Nat) (a : exact_state K),
      block_loop (with_histograms w b) es bl a = block_loop w es bl a := by
  intro es
  induction es with
  | nil => intro bl a; rfl
  | cons e es ih =>
    intro bl a
    rw [block_loop, block_loop]
    simp only [ih, state_loop_with_histograms]
    rfl

theorem operator_call_histos {K S : Type} [LinearOrderedField K] [Inhabited S]
    (w : atomic_correlators_worker K S)
    (h : (operator_call w).histos ≠ [] ∨ (operator_call w).histo_bs_block ≠ []) :
    w.make_histograms = true ∧ ∃ v, (operator_call w).ret = .ok v := by
  unfold operator_call at h ⊢
  cases h1 : one_non_zero w
  · simp [h1] at h
  · simp only [h1, Bool.not_true, Bool.false_eq_true, if_false] at h ⊢
    cases h2 : block_loop w (to_sort w) 0 exact_init with
    | error x => simp [h2] at h
    | ok a =>
      simp only [h2] at h ⊢
      cases h3 : w.make_histograms
      · simp [h3] at h
      · simp

/-! ### The gap table and the gaps of the exact pass -/

theorem fill_table_length {K : Type} [LinearOrderedField K] (beta : K) :
    ∀ (ops : List (op_desc K)), (fill_table beta ops).length = ops.length := by
  intro ops
  induction ops with
  | nil => rfl
  | cons it rest ih => simp [fill_table, ih]

theorem fill_table_getElem {K : Type} [LinearOrderedField K] (beta : K) :
    ∀ (ops : List (op_desc K)) (i : Nat) (o : op_desc K), ops[i]? = some o →
      (fill_table beta ops)[i]? =
        some { dtau := (match ops[i + 1]? with
                        | some nx => nx.tau
                        | none => beta) - o.tau,
               dag := o.dagger, n := o.linear_index } := by
  intro ops
  induction ops with
  | nil => intro i o h; simp at h
  | cons it rest ih =>
    intro i o h
    cases i with
    | zero =>
      simp only [List.getElem?_cons_zero, Option.some.injEq] at h
      subst h
      cases rest <;> simp [fill_table, tau_or_beta]
    | succ j =>
      simp only [List.getElem?_cons_succ] at h
      simpa [fill_table] using ih j o h

/-- In the ordered-field model, where the difference of line 53 is exact, the
gaps telescope; `fill_table_with_sum_error` is the statement with rounding. -/
theorem fill_table_sum {K : Type} [LinearOrderedField K] (beta : K) :
    ∀ (ops : List (op_desc K)),
      tau_or_beta beta ops + ((fill_table beta ops).map p1.dtau).sum = beta := by
  intro ops
  induction ops with
  | nil => simp [fill_table, tau_or_beta]
  | cons it rest ih =>
    have h0 : tau_or_beta beta (it :: rest) = it.tau := rfl
    rw [h0]
    simp only [fill_table, List.map_cons, List.sum_cons]
    linarith

theorem exact_gaps_eq_table {K : Type} [LinearOrderedField K] (beta : K) :
    ∀ (ops : List (op_desc K)), exact_gaps beta ops = (fill_table beta ops).map p1.dtau := by
  intro ops
  induction ops with
  | nil => rfl
  | cons it rest ih => simp [exact_gaps, fill_table, ih]

theorem propagate_none {K S : Type} [LinearOrderedField K]
    (w : atomic_correlators_worker K S) :
    ∀ (ops : List (op_desc K)) (psi : S), propagate w ops psi = none →
      w.ndebug = false ∧ ∃ g ∈ exact_gaps w.config.beta ops, ¬ (0 < g) := by
  intro ops
  induction ops with
  | nil => intro psi h; simp [propagate] at h
  | cons it rest ih =>
    intro psi h
    rw [propagate] at h
    split at h
    · rename_i hc
      simp only [gt_iff_lt, Bool.and_eq_true, Bool.not_eq_eq_eq_not, Bool.not_true,
        decide_eq_false_iff_not] at hc
      exact ⟨hc.1, _, by simp [exact_gaps], hc.2⟩
    · obtain ⟨h1, g, hg, hn⟩ := ih _ h
      exact ⟨h1, g, by simp [exact_gaps, hg], hn⟩

theorem exact_gaps_pos {K : Type} [LinearOrderedField K] (beta : K) :
    ∀ (ops : List (op_desc K)), ops.Pairwise (fun a b => a.tau < b.tau) →
      (∀ o ∈ ops, o.tau < beta) → ∀ g ∈ exact_gaps beta ops, 0 < g := by
  intro ops
  induction ops with
  | nil => intro _ _ g hg; simp [exact_gaps] at hg
  | cons it rest ih =>
    intro hp hb g hg
    simp only [exact_gaps, List.mem_cons] at hg
    rcases hg with rfl | hg
    · cases rest with
      | nil => simpa [tau_or_beta] using hb it (List.mem_cons_self _ _)
      | cons nx tl =>
        simp only [tau_or_beta, sub_pos]
        exact List.rel_of_pairwise_cons hp (List.mem_cons_self _ _)
    · exact ih (List.Pairwise.of_cons hp) (fun o ho => hb o (List.mem_cons_of_mem _ ho)) g hg

theorem state_loop_assertion {K S : Type} [LinearOrderedField K] [Inhabited S]
    (w : atomic_correlators_worker K S) (bl : Nat) (key : K) (b : Int) (x : K) :
    ∀ (ks : List Nat) (a a1 : exact_state K),
      state_loop w bl key b x ks a = .error (failure.assertion, a1) →
        ∃ psi, propagate w (crange w) psi = none := by
  intro ks
  induction ks with
  | nil => intro a a1 h; simp [state_loop] at h
  | cons k rest ih =>
    intro a a1 h
    rw [state_loop] at h
    split at h
    · rename_i hp
      exact ⟨_, hp⟩
    · simp only at h
      split at h
      · simp at h
      · exact ih _ _ h

theorem block_loop_assertion {K S : Type} [LinearOrderedField K] [Inhabited S]
    (w : atomic_correlators_worker K S) :
    ∀ (es : List (K × Int)) (bl : Nat) (a a1 : exact_state K),
      block_loop w es bl a = .error (failure.assertion, a1) →
        ∃ psi, propagate w (crange w) psi = none := by
  intro es
  induction es with
  | nil => intro bl a a1 h; simp [block_loop] at h
  | cons e es ih =>
    intro bl a a1 h
    rw [block_loop] at h
    split at h
    · split at h
      · exact ih _ _ _ h
      · rename_i x hs
        simp only [Except.error.injEq] at h
        subst h
        exact state_loop_assertion w bl e.1 e.2 _ _ _ _ hs
    · simp at h

theorem orbital_edge_call :
    (operator_call (orbital ℝ Real.exp 1 (edge_oplist ℝ) false false)).ret =
      .error failure.assertion ∧
    exact_gaps (orbital ℝ Real.exp 1 (edge_oplist ℝ) false false).config.beta
      (crange (orbital ℝ Real.exp 1 (edge_oplist ℝ) false false)) = [3 / 4, 0] := by
  have hn : n_blocks (orbital ℝ Real.exp 1 (edge_oplist ℝ) false false) = 2 := rfl
  have hc : (orbital ℝ Real.exp 1 (edge_oplist ℝ) false false).exp = Real.exp := rfl
  have ht : config_table (orbital ℝ Real.exp 1 (edge_oplist ℝ) false false) =
      [⟨3 / 4, false, 0⟩, ⟨0, true, 0⟩] := by
    simp [config_table, crange, orbital, edge_oplist, fill_table, tau_or_beta]
    norm_num
  have hd : dtau0 (orbital ℝ Real.exp 1 (edge_oplist ℝ) false false) = 1 / 4 := by
    simp [dtau0, crange, orbital, edge_oplist, tau_or_beta]
  have hE0 : E_min_delta_tau0 (orbital ℝ Real.exp 1 (edge_oplist ℝ) false false) = 0 := by
    rw [E_min_delta_tau0, ht, hd]
    simp [ref_walk, E_min, get_eigensystem, orbital]
  have h0 : first_pass (orbital ℝ Real.exp 1 (edge_oplist ℝ) false false) 0 = (-1, 0) := by
    rw [first_pass, ht, hd]
    simp [block_walk, E_min, get_eigensystem, orbital]
  have h1 : first_pass (orbital ℝ Real.exp 1 (edge_oplist ℝ) false false) 1 = (1, 1 / 4) := by
    rw [first_pass, ht, hd, hE0]
    simp [block_walk, E_min, get_eigensystem, orbital]
    norm_num
  have hone : one_non_zero (orbital ℝ Real.exp 1 (edge_oplist ℝ) false false) = true := by
    rw [one_non_zero_iff]
    exact ⟨1, by rw [hn]; norm_num, by rw [blo, h1]; norm_num⟩
  have hs : to_sort (orbital ℝ Real.exp 1 (edge_oplist ℝ) false false) = [(1 / 4, 1)] := by
    simp only [to_sort, to_sort_unsorted, hn, List.range_succ, List.range_zero, List.nil_append,
      List.cons_append, List.filter, blo, E_min_delta_tau, h0, h1]
    norm_num
    rw [h1]
  have hp : ∀ psi, propagate (orbital ℝ Real.exp 1 (edge_oplist ℝ) false false)
      (crange (orbital ℝ Real.exp 1 (edge_oplist ℝ) false false)) psi = none := by
    intro psi
    simp [crange, orbital, edge_oplist, propagate, tau_or_beta]
  have hb : block_size (orbital ℝ Real.exp 1 (edge_oplist ℝ) false false) 1 = 1 := by
    simp [block_size, get_eigensystem, orbital]
  have hloop : block_loop (orbital ℝ Real.exp 1 (edge_oplist ℝ) false false) [(1 / 4, 1)] 0
      exact_init =
      .error (failure.assertion,
        { full_trace := 0, first_term := 0, entered := [(1 / 4, 1)], visited := [] }) := by
    simp only [block_loop, exact_init, abs_zero, zero_mul, hc]
    rw [if_pos (Real.exp_pos _).le]
    simp only [hb, List.range_succ, List.range_zero, List.nil_append, state_loop, hp]
  constructor
  · unfold operator_call
    simp only [hone, hs, hloop, Bool.not_true, Bool.false_eq_true, if_false]
  · rw [exact_gaps_eq_table]
    have : fill_table (orbital ℝ Real.exp 1 (edge_oplist ℝ) false false).config.beta
        (crange (orbital ℝ Real.exp 1 (edge_oplist ℝ) false false)) =
        config_table (orbital ℝ Real.exp 1 (edge_oplist ℝ) false false) := rfl
    rw [this, ht]
    simp

/-! ### The continuation cutoff and the reference block -/

theorem to_sort_nil_of_not_one_non_zero {K S : Type} [LinearOrderedField K] [Inhabited S]
    (w : atomic_correlators_worker K S) (hone : one_non_zero w = false) : to_sort w = [] := by
  apply to_sort_nil_of_no_return
  intro n hn hb
  have : one_non_zero w = true := (one_non_zero_iff w).2 ⟨n, hn, by rw [hb]; omega⟩
  rw [hone] at this
  exact absurd this (by simp)

theorem operator_call_ok_stop {K S : Type} [LinearOrderedField K] [Inhabited S]
    (w : atomic_correlators_worker K S) (v : K) (h : (operator_call w).ret = .ok v) :
    ∃ post, to_sort w = (operator_call w).locals.entered ++ post ∧
      v = ((operator_call w).locals.entered.map (block_sum w)).sum ∧
      ∀ e ∈ post.head?, w.exp (-e.1) < |v| * epsilon := by
  rcases operator_call_ok w v h with ⟨hone, hv, hl⟩ | ⟨_, hb, hv⟩
  · refine ⟨[], ?_, ?_, by simp⟩
    · rw [hl, to_sort_nil_of_not_one_non_zero w hone]; simp [exact_init]
    · rw [hl, hv]; simp [exact_init]
  · obtain ⟨pre, post, p1, p2, p3, p4⟩ := block_loop_stop w _ _ _ _ hb
    simp only [exact_init, List.nil_append, zero_add] at p2 p3
    refine ⟨post, by rw [p2]; exact p1, by rw [hv, p3, p2], ?_⟩
    rw [hv]; exact p4

theorem ref_walk_chain {K S : Type} [LinearOrderedField K]
    (w : atomic_correlators_worker K S) (beta : K) :
    ∀ (ops : List (op_desc K)) (bl : Int) (s : K),
      (ref_walk w (fill_table beta ops) bl s).1 = connectivity_chain w ops bl := by
  intro ops
  induction ops with
  | nil => intro bl s; rfl
  | cons it rest ih =>
    intro bl s
    simp only [fill_table, ref_walk, connectivity_chain]
    split
    · assumption
    · exact ih _ _

theorem block_loop_tests {K S : Type} [LinearOrderedField K] [Inhabited S]
    (w : atomic_correlators_worker K S) :
    ∀ (es : List (K × Int)) (bl : Nat) (a a1 : exact_state K),
      (block_loop w es bl a = .ok a1 ∨ ∃ f, block_loop w es bl a = .error (f, a1)) →
        ∃ pre post, es = pre ++ post ∧ a1.entered = a.entered ++ pre ∧
          ∀ q1 e q2, pre = q1 ++ e :: q2 →
            w.exp (-e.1) ≥ |a.full_trace + (q1.map (block_sum w)).sum| * epsilon := by
  intro es
  induction es with
  | nil =>
    intro bl a a1 h
    rcases h with h | ⟨f, h⟩
    · simp only [block_loop, Except.ok.injEq] at h
      subst h
      exact ⟨[], [], by simp, by simp, fun q1 e q2 hq => by simp at hq⟩
    · simp [block_loop] at h
  | cons e es ih =>
    intro bl a a1 h
    rw [block_loop] at h
    by_cases htest : w.exp (-e.1) ≥ |a.full_trace| * epsilon
    · simp only [htest, if_true] at h
      cases hs : state_loop w bl e.1 e.2 (w.exp (-e.1)) (List.range (block_size w e.2))
          { a with entered := a.entered ++ [e] } with
      | ok a2 =>
        simp only [hs] at h
        obtain ⟨s1, s2, _, _⟩ := state_loop_ok w bl e.1 e.2 _ _ _ hs
        have hsum : a2.full_trace = a.full_trace + block_sum w e := by
          rw [s1]; simp [block_sum, states_of, List.map_map, Function.comp_def]
        obtain ⟨pre, post, h1, h2, h3⟩ := ih _ _ _ h
        refine ⟨e :: pre, post, by simp [h1], by rw [h2, s2]; simp, ?_⟩
        intro q1 e1 q2 hq
        cases q1 with
        | nil =>
          simp only [List.nil_append, List.cons.injEq] at hq
          rw [← hq.1]
          simpa using htest
        | cons x q1t =>
          simp only [List.cons_append, List.cons.injEq] at hq
          have := h3 q1t e1 q2 hq.2
          rw [hsum] at this
          rw [← hq.1]
          simpa [add_assoc] using this
      | error x =>
        simp only [hs] at h
        rcases h with h | ⟨f, h⟩
        · simp at h
        · simp only [Except.error.injEq] at h
          subst h
          obtain ⟨_, _, _, _, _, h3, _⟩ := state_loop_error w bl e.1 e.2 _ _ _ _ hs
          refine ⟨[e], es, by simp, by rw [h3], ?_⟩
          intro q1 e1 q2 hq
          cases q1 with
          | nil =>
            simp only [List.nil_append, List.cons.injEq] at hq
            rw [← hq.1]
            simpa using htest
          | cons x q1t =>
            simp only [List.cons_append, List.cons.injEq] at hq
            have := hq.2
            simp at this
    · simp only [htest, if_false] at h
      rcases h with h | ⟨f, h⟩
      · simp only [Except.ok.injEq] at h
        subst h
        exact ⟨[], e :: es, by simp, by simp, fun q1 e1 q2 hq => by simp at hq⟩
      · simp at h

theorem operator_call_locals {K S : Type} [LinearOrderedField K] [Inhabited S]
    (w : atomic_correlators_worker K S) :
    (one_non_zero w = false ∧ (operator_call w).locals = exact_init) ∨
    (one_non_zero w = true ∧
      (block_loop w (to_sort w) 0 exact_init = .ok (operator_call w).locals ∨
        ∃ f, block_loop w (to_sort w) 0 exact_init = .error (f, (operator_call w).locals))) := by
  cases hr : (operator_call w).ret with
  | ok v =>
    rcases operator_call_ok w v hr with ⟨h1, _, h2⟩ | ⟨h1, h2, _⟩
    · exact Or.inl ⟨h1, h2⟩
    · exact Or.inr ⟨h1, Or.inl h2⟩
  | error f =>
    obtain ⟨h1, h2⟩ := operator_call_error w f hr
    exact Or.inr ⟨h1, Or.inr ⟨f, h2⟩⟩

theorem first_entry_entered {K S : Type} [LinearOrderedField K] [Inhabited S]
    (w : atomic_correlators_worker K S) (hexp : ∀ x, 0 ≤ w.exp x) (e : K × Int)
    (es : List (K × Int)) (a1 : exact_state K)
    (h : block_loop w (e :: es) 0 exact_init = .ok a1 ∨
      ∃ f, block_loop w (e :: es) 0 exact_init = .error (f, a1)) :
    a1.entered.head? = some e := by
  obtain ⟨pre, post, h1, h2, _⟩ := block_loop_tests w _ _ _ _ h
  simp only [exact_init, List.nil_append] at h2
  cases pre with
  | nil =>
    exfalso
    have htest : w.exp (-e.1) ≥ |(exact_init : exact_state K).full_trace| * epsilon := by
      simp only [exact_init, abs_zero, zero_mul]
      exact hexp _
    rw [block_loop, if_pos htest] at h
    cases hs : state_loop w 0 e.1 e.2 (w.exp (-e.1)) (List.range (block_size w e.2))
        { (exact_init : exact_state K) with
          entered := (exact_init : exact_state K).entered ++ [e] } with
    | ok a2 =>
      simp only [hs] at h
      obtain ⟨_, s2, _, _⟩ := state_loop_ok w 0 e.1 e.2 _ _ _ hs
      obtain ⟨pre1, post1, _, k2, _⟩ := block_loop_tests w _ _ _ _ h
      rw [s2, h2] at k2
      simp [exact_init] at k2
    | error x =>
      simp only [hs] at h
      rcases h with h | ⟨f, h⟩
      · simp at h
      · simp only [Except.error.injEq] at h
        subst h
        obtain ⟨_, _, _, _, _, h3, _⟩ := state_loop_error w 0 e.1 e.2 _ _ _ _ hs
        rw [h2] at h3
        simp [exact_init] at h3
  | cons x pt =>
    simp only [List.cons_append, List.cons.injEq] at h1
    rw [h2, h1.1]
    rfl

theorem running_total_take {K S : Type} [LinearOrderedField K] [Inhabited S]
    (w : atomic_correlators_worker K S) (pre post : List (K × Int))
    (h : to_sort w = pre ++ post) (i : Nat) (hi : i ≤ pre.length) :
    running_total w i = ((pre.take i).map (block_sum w)).sum := by
  unfold running_total
  rw [h, List.take_append_of_le_length hi]

/-! ### The diagnostics values -/

theorem getLast?_range_succ (n : Nat) : (List.range (n + 1)).getLast? = some n := by
  rw [List.range_succ]; simp

theorem state_loop_first_term {K S : Type} [LinearOrderedField K] [Inhabited S]
    (w : atomic_correlators_worker K S) (bl : Nat) (key : K) (b : Int) (x : K) :
    ∀ (ks : List Nat) (a a1 : exact_state K),
      state_loop w bl key b x ks a = .ok a1 →
        a1.first_term =
          if bl = 0 then
            (match ks.getLast? with
             | some k => partial_trace_no_emin w b k * x
             | none => a.first_term)
          else a.first_term := by
  intro ks
  induction ks with
  | nil => intro a a1 h; simp [state_loop] at h; subst h; simp
  | cons k rest ih =>
    intro a a1 h
    rw [state_loop] at h
    split at h
    · exact absurd h (by simp)
    · rename_i psi hp
      have hpsi := propagate_psi_final w _ _ hp
      subst hpsi
      simp only at h
      split at h
      · exact absurd h (by simp)
      · have := ih _ _ h
        rw [this]
        by_cases hbl : bl = 0
        · simp only [hbl, if_true]
          cases rest with
          | nil => simp [partial_trace_no_emin]
          | cons k2 r2 =>
            rw [List.getLast?_eq_getLast _ (List.cons_ne_nil _ _),
              List.getLast?_eq_getLast _ (List.cons_ne_nil _ _),
              List.getLast_cons (List.cons_ne_nil _ _)]
        · simp [hbl]

theorem block_loop_first_term {K S : Type} [LinearOrderedField K] [Inhabited S]
    (w : atomic_correlators_worker K S) :
    ∀ (es : List (K × Int)) (bl : Nat) (a a1 : exact_state K), bl ≠ 0 →
      block_loop w es bl a = .ok a1 → a1.first_term = a.first_term := by
  intro es
  induction es with
  | nil => intro bl a a1 _ h; simp [block_loop] at h; subst h; rfl
  | cons e es ih =>
    intro bl a a1 hbl h
    rw [block_loop] at h
    split at h
    · split at h
      · rename_i a2 hs
        have h1 := state_loop_first_term w bl e.1 e.2 _ _ _ _ hs
        simp only [hbl, if_false] at h1
        rw [ih _ _ _ (Nat.succ_ne_zero bl) h, h1]
      · exact absurd h (by simp)
    · simp only [Except.ok.injEq] at h
      subst h; rfl

theorem first_term_value {K S : Type} [LinearOrderedField K] [Inhabited S]
    (w : atomic_correlators_worker K S) (hexp : ∀ x, 0 ≤ w.exp x) (v : K)
    (hv : (operator_call w).ret = .ok v) (e : K × Int) (rest : List (K × Int))
    (hs : to_sort w = e :: rest) :
    (operator_call w).locals.first_term =
      if block_size w e.2 = 0 then 0
      else contribution w (e.1, e.2, block_size w e.2 - 1) := by
  rcases operator_call_ok w v hv with ⟨h1, _, _⟩ | ⟨_, hb, _⟩
  · rw [to_sort_nil_of_not_one_non_zero w h1] at hs
    simp at hs
  · rw [hs, block_loop] at hb
    have htest : w.exp (-e.1) ≥ |(exact_init : exact_state K).full_trace| * epsilon := by
      simp only [exact_init, abs_zero, zero_mul]
      exact hexp _
    rw [if_pos htest] at hb
    split at hb
    · rename_i a2 hst
      have h1 := state_loop_first_term w 0 e.1 e.2 _ _ _ _ hst
      rw [block_loop_first_term w _ _ _ _ (by norm_num) hb, h1]
      simp only [if_true]
      cases hn : block_size w e.2 with
      | zero => simp [exact_init]
      | succ m =>
        rw [getLast?_range_succ]
        simp [contribution, mul_comm]
    · exact absurd hb (by simp)

theorem operator_call_histos_eq {K S : Type} [LinearOrderedField K] [Inhabited S]
    (w : atomic_correlators_worker K S) (hh : w.make_histograms = true)
    (hone : one_non_zero w = true) (v : K) (hv : (operator_call w).ret = .ok v) :
    (operator_call w).histos = histo_pushes w (operator_call w).locals ∧
    (operator_call w).histo_bs_block = [((to_sort w).headD (0, 0)).2] ∧
    (operator_call w).locals.full_trace = v := by
  unfold operator_call at hv ⊢
  simp only [hone, Bool.not_true, Bool.false_eq_true, if_false] at hv ⊢
  cases h2 : block_loop w (to_sort w) 0 exact_init with
  | error x => simp [h2] at hv
  | ok a =>
    simp only [h2, hh, if_true] at hv ⊢
    simp only [Except.ok.injEq] at hv
    simp [hv]

theorem block_loop_error_entered {K S : Type} [LinearOrderedField K] [Inhabited S]
    (w : atomic_correlators_worker K S) :
    ∀ (es : List (K × Int)) (bl : Nat) (a a1 : exact_state K) (f : failure),
      block_loop w es bl a = .error (f, a1) →
        ∃ pre e, a1.entered = a.entered ++ pre ++ [e] := by
  intro es
  induction es with
  | nil => intro bl a a1 f h; simp [block_loop] at h
  | cons e0 es ih =>
    intro bl a a1 f h
    rw [block_loop] at h
    split at h
    · split at h
      · rename_i a2 hs
        obtain ⟨_, s2, _, _⟩ := state_loop_ok w bl e0.1 e0.2 _ _ _ hs
        obtain ⟨pre, e, h1⟩ := ih _ _ _ _ h
        exact ⟨e0 :: pre, e, by rw [h1, s2]; simp⟩
      · rename_i x hs
        simp only [Except.error.injEq] at h
        subst h
        obtain ⟨_, _, _, _, _, h3, _⟩ := state_loop_error w bl e0.1 e0.2 _ _ _ _ hs
        exact ⟨[], e0, by rw [h3]; simp⟩
    · exact absurd h (by simp)

theorem operator_call_error_entered {K S : Type} [LinearOrderedField K] [Inhabited S]
    (w : atomic_correlators_worker K S) (f : failure)
    (h : (operator_call w).ret = .error f) : (operator_call w).locals.entered ≠ [] := by
  obtain ⟨_, hb⟩ := operator_call_error w f h
  obtain ⟨pre, e, h1⟩ := block_loop_error_entered w _ _ _ _ _ hb
  rw [h1]
  simp

theorem two_blocks_call :
    (operator_call (two_blocks ℝ Real.exp false false)).ret =
      .ok (Real.exp 0 + Real.exp (-2) + Real.exp (-1)) ∧
    to_sort (two_blocks ℝ Real.exp false false) = [(0, 0), (1, 1)] ∧
    contribution (two_blocks ℝ Real.exp false false) (0, 0, 0) = 1 ∧
    contribution (two_blocks ℝ Real.exp false false) (0, 0, 1) = Real.exp (-2) := by
  have hn : n_blocks (two_blocks ℝ Real.exp false false) = 2 := rfl
  have hb := two_blocks_eigenbasis false false
  have hop : (two_blocks ℝ Real.exp false false).config.oplist = [] := rfl
  have hc : (two_blocks ℝ Real.exp false false).exp = Real.exp := rfl
  have hE0 : E_min (two_blocks ℝ Real.exp false false) ((0 : Nat) : Int) = 0 := by
    simp [E_min, get_eigensystem, two_blocks]
  have hE1 : E_min (two_blocks ℝ Real.exp false false) ((1 : Nat) : Int) = 1 / 2 := by
    simp [E_min, get_eigensystem, two_blocks]
  have hbeta : (two_blocks ℝ Real.exp false false).config.beta = 2 := rfl
  have hbs : block_size (two_blocks ℝ Real.exp false false) ((0 : Nat) : Int) = 2 := by
    simp [block_size, get_eigensystem, two_blocks]
  obtain ⟨r1, _, _⟩ := empty_config_call _ hop two_blocks_cut.1 two_blocks_cut.2.1 hb
    two_blocks_cut.2.2
  have hZ : partition_function (two_blocks ℝ Real.exp false false) =
      Real.exp 0 + Real.exp (-2) + Real.exp (-1) := by
    simp [partition_function, two_blocks]
  have p0 := empty_config_partial_trace _ hop hb 0 (by rw [hn]; norm_num) 0 (by rw [hbs]; norm_num)
  have p1 := empty_config_partial_trace _ hop hb 0 (by rw [hn]; norm_num) 1 (by rw [hbs]; norm_num)
  have hv0 : eigenvalue (two_blocks ℝ Real.exp false false) ((0 : Nat) : Int) 0 = 0 := by
    simp [eigenvalue, get_eigensystem, two_blocks]
  have hv1 : eigenvalue (two_blocks ℝ Real.exp false false) ((0 : Nat) : Int) 1 = 1 := by
    simp [eigenvalue, get_eigensystem, two_blocks]
  rw [hv0, hE0, hbeta] at p0
  rw [hv1, hE0, hbeta] at p1
  simp only [Nat.cast_zero] at p0 p1
  refine ⟨by rw [r1, hZ], ?_, ?_, ?_⟩
  · unfold to_sort
    rw [empty_config_to_sort_unsorted _ hop, hn]
    simp only [List.range_succ, List.range_zero, List.nil_append, List.cons_append, List.map]
    rw [hE0, hE1, hbeta]
    norm_num [List.insertionSort, List.orderedInsert, pair_le]
  · simp only [contribution, hc]
    rw [p0]; norm_num
  · simp only [contribution, hc]
    rw [p1]; norm_num

theorem orbital_pair_histos :
    (operator_call (orbital ℝ Real.exp 1 (pair_oplist ℝ) true false)).histos =
      [("FirsTerm_FullTrace", 1), ("FullTrace_ExpSumMin", 1)] ∧
    (operator_call (orbital ℝ Real.exp 1 (pair_oplist ℝ) true false)).histo_bs_block = [1] := by
  obtain ⟨hone, hs⟩ := orbital_pair_to_sort Real.exp true false
  obtain ⟨hr, hl⟩ := orbital_pair_call true false
  obtain ⟨h1, h2, _⟩ := operator_call_histos_eq _ rfl hone _ hr
  have hc : (orbital ℝ Real.exp 1 (pair_oplist ℝ) true false).exp = Real.exp := rfl
  refine ⟨?_, by rw [h2, hs]; rfl⟩
  rw [h1, hl]
  unfold histo_pushes
  simp only [hs, hc, List.headD_cons]
  have hpos : (0 : ℝ) < Real.exp (-(1 / 2)) := Real.exp_pos _
  rw [abs_of_pos hpos, if_pos hpos, div_self hpos.ne']
  rfl

theorem orbital_reversed_pair (exp : ℝ → ℝ) (hist ndebug : Bool) :
    (∀ p ∈ config_table (orbital ℝ exp 1 (reversed_pair_oplist ℝ) hist ndebug), 0 ≤ p.dtau) ∧
    connectivity_chain (orbital ℝ exp 1 (reversed_pair_oplist ℝ) hist ndebug)
      (crange (orbital ℝ exp 1 (reversed_pair_oplist ℝ) hist ndebug)) 0 ≠ -1 := by
  have ht : config_table (orbital ℝ exp 1 (reversed_pair_oplist ℝ) hist ndebug) =
      [⟨1 / 2, true, 0⟩, ⟨1 / 4, false, 0⟩] := by
    simp [config_table, crange, orbital, reversed_pair_oplist, fill_table, tau_or_beta]
    norm_num
  constructor
  · rw [ht]
    intro p hp
    simp only [List.mem_cons, List.not_mem_nil, or_false] at hp
    rcases hp with rfl | rfl <;> norm_num
  · simp [connectivity_chain, crange, orbital, reversed_pair_oplist]

theorem orbital_pair_data_model :
    (orbital ℝ Real.exp 1 (pair_oplist ℝ) false false).config.oplist.Pairwise
      (fun a b => b.tau < a.tau) ∧
    ∀ o ∈ (orbital ℝ Real.exp 1 (pair_oplist ℝ) false false).config.oplist,
      0 < o.tau ∧ o.tau < (orbital ℝ Real.exp 1 (pair_oplist ℝ) false false).config.beta := by
  constructor
  · simp [orbital, pair_oplist]
    norm_num
  · intro o ho
    simp only [orbital, pair_oplist, List.mem_cons, List.not_mem_nil, or_false] at ho
    rcases ho with rfl | rfl <;> norm_num [orbital]

/-! ### The gap table with a rounded subtraction -/

theorem fill_table_with_length {K : Type} (sub : K → K → K) (beta : K) :
    ∀ (ops : List (op_desc K)), (fill_table_with sub beta ops).length = ops.length := by
  intro ops
  induction ops with
  | nil => rfl
  | cons it rest ih => simp [fill_table_with, ih]

theorem fill_table_with_getElem {K : Type} (sub : K → K → K) (beta : K) :
    ∀ (ops : List (op_desc K)) (i : Nat) (o : op_desc K), ops[i]? = some o →
      (fill_table_with sub beta ops)[i]? =
        some { dtau := sub (match ops[i + 1]? with
                            | some nx => nx.tau
                            | none => beta) o.tau,
               dag := o.dagger, n := o.linear_index } := by
  intro ops
  induction ops with
  | nil => intro i o h; simp at h
  | cons it rest ih =>
    intro i o h
    cases i with
    | zero =>
      simp only [List.getElem?_cons_zero, Option.some.injEq] at h
      subst h
      cases rest <;> simp [fill_table_with, time_or_beta]
    | succ j =>
      simp only [List.getElem?_cons_succ] at h
      simpa [fill_table_with] using ih j o h

theorem exact_gaps_with_eq_table {K : Type} (sub : K → K → K) (beta : K) :
    ∀ (ops : List (op_desc K)),
      exact_gaps_with sub beta ops = (fill_table_with sub beta ops).map p1.dtau := by
  intro ops
  induction ops with
  | nil => rfl
  | cons it rest ih => simp [exact_gaps_with, fill_table_with, ih]

theorem time_or_beta_le {K : Type} [LinearOrderedCommRing K] (beta : K) (it : op_desc K) :
    ∀ (rest : List (op_desc K)), (it :: rest).Pairwise (fun a b => a.tau < b.tau) →
      (∀ o ∈ it :: rest, o.tau ≤ beta) → it.tau ≤ time_or_beta beta rest := by
  intro rest hp hb
  cases rest with
  | nil => exact hb it (List.mem_cons_self _ _)
  | cons nx tl => exact le_of_lt (List.rel_of_pairwise_cons hp (List.mem_cons_self _ _))

theorem fill_table_with_sum_exact {K : Type} [LinearOrderedCommRing K] (sub : K → K → K)
    (hsub : ∀ a b, sub a b = a - b) (beta : K) :
    ∀ (ops : List (op_desc K)),
      time_or_beta beta ops + ((fill_table_with sub beta ops).map p1.dtau).sum = beta := by
  intro ops
  induction ops with
  | nil => simp [fill_table_with, time_or_beta]
  | cons it rest ih =>
    have h0 : time_or_beta beta (it :: rest) = it.tau := rfl
    rw [h0]
    simp only [fill_table_with, List.map_cons, List.sum_cons, hsub]
    linarith

theorem fill_table_with_sum_error {K : Type} [LinearOrderedCommRing K] (sub : K → K → K)
    (c : K) (hc : 0 ≤ c) (hsub : ∀ a b, c * |sub a b - (a - b)| ≤ |a - b|) (beta : K) :
    ∀ (ops : List (op_desc K)), ops.Pairwise (fun a b => a.tau < b.tau) →
      (∀ o ∈ ops, o.tau ≤ beta) →
      c * |time_or_beta beta ops + ((fill_table_with sub beta ops).map p1.dtau).sum - beta|
        ≤ beta - time_or_beta beta ops := by
  intro ops
  induction ops with
  | nil => intro _ _; simp [fill_table_with, time_or_beta]
  | cons it rest ih =>
    intro hp hb
    have h0 : time_or_beta beta (it :: rest) = it.tau := rfl
    have hle := time_or_beta_le beta it rest hp hb
    have ih1 := ih (List.Pairwise.of_cons hp) (fun o ho => hb o (List.mem_cons_of_mem _ ho))
    have h1 := hsub (time_or_beta beta rest) it.tau
    rw [abs_of_nonneg (sub_nonneg.mpr hle)] at h1
    rw [h0]
    simp only [fill_table_with, List.map_cons, List.sum_cons]
    have hsplit : it.tau + (sub (time_or_beta beta rest) it.tau +
          ((fill_table_with sub beta rest).map p1.dtau).sum) - beta =
        (sub (time_or_beta beta rest) it.tau - (time_or_beta beta rest - it.tau)) +
        (time_or_beta beta rest + ((fill_table_with sub beta rest).map p1.dtau).sum - beta) := by
      ring
    rw [hsplit]
    calc c * |(sub (time_or_beta beta rest) it.tau - (time_or_beta beta rest - it.tau)) +
          (time_or_beta beta rest + ((fill_table_with sub beta rest).map p1.dtau).sum - beta)|
        ≤ c * (|sub (time_or_beta beta rest) it.tau - (time_or_beta beta rest - it.tau)| +
          |time_or_beta beta rest + ((fill_table_with sub beta rest).map p1.dtau).sum - beta|) :=
          mul_le_mul_of_nonneg_left (abs_add _ _) hc
      _ = c * |sub (time_or_beta beta rest) it.tau - (time_or_beta beta rest - it.tau)| +
          c * |time_or_beta beta rest +
            ((fill_table_with sub beta rest).map p1.dtau).sum - beta| := by ring
      _ ≤ (time_or_beta beta rest - it.tau) + (beta - time_or_beta beta rest) :=
          add_le_add h1 ih1
      _ = beta - it.tau := by ring

/-- The table of the ordered-field model is the table filled with the exact
subtraction. -/
theorem config_table_with_exact {K S : Type} [LinearOrderedField K] [Inhabited S]
    (w : atomic_correlators_worker K S) :
    config_table w = config_table_with (fun a b => a - b) w.config ∧
    dtau0 w = dtau0_of w.config ∧
    exact_gaps w.config.beta (crange w) =
      exact_gaps_with (fun a b => a - b) w.config.beta w.config.oplist.reverse := by
  have ht : ∀ (beta : K) (ops : List (op_desc K)), tau_or_beta beta ops = time_or_beta beta ops := by
    intro beta ops; cases ops <;> rfl
  have hf : ∀ (beta : K) (ops : List (op_desc K)),
      fill_table beta ops = fill_table_with (fun a b => a - b) beta ops := by
    intro beta ops
    induction ops with
    | nil => rfl
    | cons it rest ih => simp [fill_table, fill_table_with, ih, ht]
  refine ⟨hf _ _, ht _ _, ?_⟩
  rw [exact_gaps_eq_table, exact_gaps_with_eq_table, hf]
  rfl

/-! ### Binary64 rounding -/

theorem double_shift_spec : ∀ (fuel N : Nat),
    double_shift fuel N = 0 ∨ 2 ^ (52 + double_shift fuel N) ≤ N := by
  intro fuel
  induction fuel with
  | zero => intro N; left; rfl
  | succ f ih =>
    intro N
    by_cases h : N < 2 ^ 53
    · left; rw [double_shift, if_pos h]
    · right
      rw [double_shift, if_neg h]
      rcases ih (N / 2) with h0 | h1
      · rw [h0]; exact Nat.le_of_not_lt h
      · have : 2 ^ (52 + double_shift f (N / 2)) * 2 ≤ N := by
          have := Nat.mul_le_mul_right 2 h1
          exact le_trans this (Nat.div_mul_le_self N 2)
        calc 2 ^ (52 + (double_shift f (N / 2) + 1))
            = 2 ^ (52 + double_shift f (N / 2)) * 2 := by ring
          _ ≤ N := this

theorem round_half_even_zero (N : Nat) : round_half_even 0 N = N := by
  simp [round_half_even, Nat.mod_one]

theorem round_half_even_error (s N : Nat) :
    2 * |((round_half_even s N : Nat) : Int) - N| ≤ ((2 ^ s : Nat) : Int) := by
  have hP : 0 < 2 ^ s := by positivity
  have hdm := Nat.div_add_mod N (2 ^ s)
  have hr := Nat.mod_lt N hP
  unfold round_half_even
  generalize 2 ^ s = P at *
  generalize N / P = q at *
  generalize N % P = r at *
  have hM : (q + 1) * P = q * P + P := by ring
  have hc : P * q = q * P := by ring
  rw [hM]
  rw [hc] at hdm
  clear hM hc
  generalize q * P = M at *
  split_ifs
  · rcases abs_cases (((M : Nat) : Int) - N) with h | h <;> rw [h.1] <;> omega
  · rcases abs_cases (((M + P : Nat) : Int) - N) with h | h <;> rw [h.1] <;> push_cast <;> omega
  · rcases abs_cases (((M : Nat) : Int) - N) with h | h <;> rw [h.1] <;> omega
  · rcases abs_cases (((M + P : Nat) : Int) - N) with h | h <;> rw [h.1] <;> push_cast <;> omega

theorem round_double_error (x : Int) : 2 ^ 53 * |round_double x - x| ≤ |x| := by
  have key : ∀ N : Nat, 2 ^ 53 *
      |((round_half_even (double_shift 2100 N) N : Nat) : Int) - N| ≤ (N : Int) := by
    intro N
    rcases double_shift_spec 2100 N with h0 | h1
    · rw [h0, round_half_even_zero]; simp
    · have he := round_half_even_error (double_shift 2100 N) N
      have h2 : ((2 ^ (52 + double_shift 2100 N) : Nat) : Int) ≤ (N : Int) := by exact_mod_cast h1
      have h3 : ((2 ^ (52 + double_shift 2100 N) : Nat) : Int)
          = 2 ^ 52 * ((2 ^ double_shift 2100 N : Nat) : Int) := by
        push_cast; ring
      nlinarith [abs_nonneg (((round_half_even (double_shift 2100 N) N : Nat) : Int) - N)]
  unfold round_double
  rcases lt_trichotomy x 0 with hx | hx | hx
  · have hs : Int.sign x = -1 := Int.sign_eq_neg_one_of_neg hx
    have hn : ((x.natAbs : Nat) : Int) = -x := by omega
    have k := key x.natAbs
    rw [hn] at k
    rw [hs, abs_of_neg hx]
    have : -1 * ((round_half_even (double_shift 2100 x.natAbs) x.natAbs : Nat) : Int) - x
        = -(((round_half_even (double_shift 2100 x.natAbs) x.natAbs : Nat) : Int) - (-x)) := by
      ring
    rw [this, abs_neg]
    exact k
  · subst hx; simp
  · have hs : Int.sign x = 1 := Int.sign_eq_one_of_pos hx
    have hn : ((x.natAbs : Nat) : Int) = x := by omega
    have k := key x.natAbs
    rw [hn] at k
    rw [hs, abs_of_pos hx, one_mul]
    exact k

theorem double_sub_error (a b : Int) : 2 ^ 53 * |double_sub a b - (a - b)| ≤ |a - b| :=
  round_double_error (a - b)

theorem double_shift_bound : ∀ (fuel N : Nat), N < 2 ^ (53 + fuel) →
    N / 2 ^ double_shift fuel N < 2 ^ 53 := by
  intro fuel
  induction fuel with
  | zero => intro N h; simpa [double_shift] using h
  | succ f ih =>
    intro N h
    by_cases h53 : N < 2 ^ 53
    · rw [double_shift, if_pos h53]; simpa using h53
    · rw [double_shift, if_neg h53]
      have h2 : N / 2 < 2 ^ (53 + f) := by
        apply Nat.div_lt_of_lt_mul
        calc N < 2 ^ (53 + (f + 1)) := h
          _ = 2 * 2 ^ (53 + f) := by ring
      have := ih (N / 2) h2
      rw [Nat.div_div_eq_div_mul] at this
      rw [pow_succ, mul_comm]
      exact this

/-- The rounded magnitude has a significand of at most 53 bits: it is
`m * 2^s` with `m ≤ 2^53` (`m = 2^53` is the next power of two). -/
theorem round_double_representable (x : Int) (hx : x.natAbs < 2 ^ (53 + 2100)) :
    ∃ m : Nat, m ≤ 2 ^ 53 ∧
      (round_double x).natAbs = m * 2 ^ double_shift 2100 x.natAbs := by
  have hq := double_shift_bound 2100 x.natAbs hx
  have hs : (Int.sign x).natAbs ≤ 1 := by
    rcases lt_trichotomy x 0 with h | h | h
    · rw [Int.sign_eq_neg_one_of_neg h]; decide
    · subst h; decide
    · rw [Int.sign_eq_one_of_pos h]; decide
  unfold round_double
  rw [Int.natAbs_mul, Int.natAbs_ofNat]
  generalize double_shift 2100 x.natAbs = s at *
  generalize x.natAbs = N at *
  have hR : ∃ m : Nat, m ≤ 2 ^ 53 ∧ round_half_even s N = m * 2 ^ s := by
    unfold round_half_even
    split_ifs
    · exact ⟨_, le_of_lt hq, rfl⟩
    · exact ⟨_, hq, rfl⟩
    · exact ⟨_, le_of_lt hq, rfl⟩
    · exact ⟨_, hq, rfl⟩
  obtain ⟨m, hm, hR⟩ := hR
  rw [hR]
  generalize (Int.sign x).natAbs = e at *
  interval_cases e
  · exact ⟨0, Nat.zero_le _, by simp⟩
  · exact ⟨m, hm, by simp⟩

/-- For doubles: with ascending times at most `beta`, the initial gap plus the
gaps stored by the double subtraction is within `2^(-53) * (beta - dtau0)` of
`beta`. -/
theorem double_table_sum_error (config : configuration Int)
    (hp : config.oplist.Pairwise (fun a b => b.tau < a.tau))
    (hb : ∀ o ∈ config.oplist, o.tau ≤ config.beta) :
    2 ^ 53 * |dtau0_of config +
        ((config_table_with double_sub config).map p1.dtau).sum - config.beta|
      ≤ config.beta - dtau0_of config :=
  fill_table_with_sum_error double_sub (2 ^ 53) (by positivity) double_sub_error _ _
    (List.pairwise_reverse.mpr hp) (fun o ho => hb o (List.mem_reverse.mp ho))

set_option maxRecDepth 8000 in
set_option exponentiation.threshold 4000 in
/-- The table that the fill loop stores for `rounding_config`: the gaps are the
doubles `0.6299999999999999` and `0.17000000000000004`. -/
theorem rounding_config_table :
    config_table_with double_sub rounding_config =
      [⟨double_of 5674535530486824 1021, false, 0⟩,
       ⟨double_of 1531223873305969 1021, true, 0⟩] := by
  rfl

/-! ### Claims -/

/-- Claim C1: whenever the call returns a scalar `v`, the entries whose loop body
ran form a prefix of the schedule, each of them is a returning block paired with
its accumulated bound of the first pass, and `v` is the sum, over these entries
in schedule order and over every eigenstate `psi0` of each block, of
`exp(-bound) * dot_product(psi0, psi_final psi0)`. -/
theorem returned_trace_is_sum_of_contributions {K S : Type} [LinearOrderedField K]
    [Inhabited S] (w : atomic_correlators_worker K S) (v : K)
    (h : (operator_call w).ret = .ok v) :
    (operator_call w).locals.entered <+: to_sort w ∧
    (∀ e ∈ (operator_call w).locals.entered, ∃ n, n < n_blocks w ∧ blo w n = (n : Int) ∧
        e = (E_min_delta_tau w n, (n : Int))) ∧
    v = ((operator_call w).locals.entered.map (fun e =>
          ((List.range (block_size w e.2)).map (fun k =>
            w.exp (-e.1) * w.dot_product (eigenstate w e.2 k)
              (psi_final w (eigenstate w e.2 k)))).sum)).sum := by
  have key : (operator_call w).locals.entered <+: to_sort w ∧
      v = ((operator_call w).locals.entered.map (block_sum w)).sum := by
    rcases operator_call_ok w v h with ⟨_, hv, hl⟩ | ⟨_, hb, hv⟩
    · rw [hl, hv]; simp [exact_init]
    · obtain ⟨pre, post, h1, h2, _, h4, _⟩ := block_loop_ok w _ _ _ _ hb
      simp only [exact_init, List.nil_append, zero_add] at h2 h4
      rw [h2, hv, h4]
      exact ⟨⟨post, h1.symm⟩, rfl⟩
  refine ⟨key.1, ?_, ?_⟩
  · intro e he
    exact (mem_to_sort w e).1 (key.1.subset he)
  · rw [key.2]
    congr 1
    apply List.map_congr_left
    intro e _
    simp [block_sum, states_of, contribution, partial_trace_no_emin, List.map_map,
      Function.comp_def]

/-- Witness of C1: the single orbital of energy 1 with the pair of operators
returns `exp(-1/2)`, the contribution of the one state of block 1. -/
theorem returned_trace_is_sum_of_contributions_witness :
    (operator_call (orbital ℝ Real.exp 1 (pair_oplist ℝ) false false)).ret =
        .ok (Real.exp (-(1 / 2))) ∧
    ((operator_call (orbital ℝ Real.exp 1 (pair_oplist ℝ) false false)).locals.entered <+:
        to_sort (orbital ℝ Real.exp 1 (pair_oplist ℝ) false false) ∧
      (∀ e ∈ (operator_call (orbital ℝ Real.exp 1 (pair_oplist ℝ) false false)).locals.entered,
        ∃ n, n < n_blocks (orbital ℝ Real.exp 1 (pair_oplist ℝ) false false) ∧
          blo (orbital ℝ Real.exp 1 (pair_oplist ℝ) false false) n = (n : Int) ∧
          e = (E_min_delta_tau (orbital ℝ Real.exp 1 (pair_oplist ℝ) false false) n, (n : Int))) ∧
      Real.exp (-(1 / 2)) =
        ((operator_call (orbital ℝ Real.exp 1 (pair_oplist ℝ) false false)).locals.entered.map
          (fun e =>
            ((List.range (block_size (orbital ℝ Real.exp 1 (pair_oplist ℝ) false false) e.2)).map
              (fun k =>
                (orbital ℝ Real.exp 1 (pair_oplist ℝ) false false).exp (-e.1) *
                  (orbital ℝ Real.exp 1 (pair_oplist ℝ) false false).dot_product
                    (eigenstate (orbital ℝ Real.exp 1 (pair_oplist ℝ) false false) e.2 k)
                    (psi_final (orbital ℝ Real.exp 1 (pair_oplist ℝ) false false)
                      (eigenstate (orbital ℝ Real.exp 1 (pair_oplist ℝ) false false)
                        e.2 k)))).sum)).sum) :=
  ⟨(orbital_pair_call false false).1,
    returned_trace_is_sum_of_contributions _ _ (orbital_pair_call false false).1⟩

/-- Counterexample to C2 as stated: for the single orbital of energy 36 with an
empty configuration and `beta = 1`, the eigenbasis is orthonormal with ascending
eigenvalues, yet the call returns `1` while the partition function is
`1 + exp(-36)`: block 1 is cut off by the continuation predicate. -/
theorem empty_configuration_cutoff_counterexample :
    orthonormal_eigenbasis (orbital ℝ Real.exp 36 [] false false) ∧
    (orbital ℝ Real.exp 36 [] false false).config.oplist = [] ∧
    0 < (orbital ℝ Real.exp 36 [] false false).config.beta ∧
    0 < n_blocks (orbital ℝ Real.exp 36 [] false false) ∧
    (operator_call (orbital ℝ Real.exp 36 [] false false)).ret = .ok 1 ∧
    partition_function (orbital ℝ Real.exp 36 [] false false) = 1 + Real.exp (-36) ∧
    (operator_call (orbital ℝ Real.exp 36 [] false false)).ret ≠
      .ok (partition_function (orbital ℝ Real.exp 36 [] false false)) := by
  obtain ⟨h1, _, h3⟩ := orbital_empty_call false false
  refine ⟨orbital_eigenbasis _ _ _ _, rfl, ?_, ?_, h1, h3, ?_⟩
  · simp [orbital]
  · simp [n_blocks, orbital]
  · rw [h1, h3]
    intro h
    simp only [Except.ok.injEq, self_eq_add_right] at h
    exact absurd h (Real.exp_pos _).ne'

/-- Claim C2 (amended): for an empty configuration, `beta > 0` and an eigenbasis
with at least one block, ascending eigenvalues, orthonormal eigenstates and
`apply_no_emin` multiplying eigenstate `k` of block `b` by
`exp(-dtau * (E_k - E_min(b)))`, the call returns the partition function
provided no block is cut off by the continuation predicate, which holds when
`exp(-beta * E_min(b))` is at least `1e-15` times the partition function for
every block `b`. -/
theorem empty_configuration_partition_function {S : Type} [Inhabited S] [AddCommGroup S]
    [Module ℝ S] (w : atomic_correlators_worker ℝ S) (hcfg : w.config.oplist = [])
    (hbeta : 0 < w.config.beta) (hn : 0 < n_blocks w) (hb : orthonormal_eigenbasis w)
    (hcut : ∀ b : Nat, b < n_blocks w →
      epsilon * partition_function w ≤ Real.exp (-(w.config.beta * E_min w b))) :
    (operator_call w).ret = .ok (partition_function w) :=
  (empty_config_call w hcfg hbeta hn hb hcut).1

/-- Witness of C2 (amended): the two blocks with the eigenvalues `[0, 1]` and
`[1/2]`, `beta = 2`. -/
theorem empty_configuration_partition_function_witness :
    (two_blocks ℝ Real.exp false false).config.oplist = [] ∧
    0 < (two_blocks ℝ Real.exp false false).config.beta ∧
    0 < n_blocks (two_blocks ℝ Real.exp false false) ∧
    orthonormal_eigenbasis (two_blocks ℝ Real.exp false false) ∧
    (∀ b : Nat, b < n_blocks (two_blocks ℝ Real.exp false false) →
      epsilon * partition_function (two_blocks ℝ Real.exp false false) ≤
        Real.exp (-((two_blocks ℝ Real.exp false false).config.beta *
          E_min (two_blocks ℝ Real.exp false false) b))) ∧
    (operator_call (two_blocks ℝ Real.exp false false)).ret =
      .ok (partition_function (two_blocks ℝ Real.exp false false)) :=
  ⟨rfl, two_blocks_cut.1, two_blocks_cut.2.1, two_blocks_eigenbasis false false,
    two_blocks_cut.2.2,
    empty_configuration_partition_function _ rfl two_blocks_cut.1 two_blocks_cut.2.1
      (two_blocks_eigenbasis false false) two_blocks_cut.2.2⟩

/-- Claim C3: with two blocks, block 0 having the eigenvalues `[0, 1]` and
block 1 the eigenvalue `[1/2]`, an empty configuration and `beta = 2` (and an
orthonormal eigenbasis), the call evaluates both blocks, block 0 first, all
three states pass the consistency check, and the call returns
`exp(0) + exp(-2) + exp(-1)`. -/
theorem concrete_two_block_scenario {S : Type} [Inhabited S] [AddCommGroup S] [Module ℝ S]
    (w : atomic_correlators_worker ℝ S) (psi00 psi01 psi10 : S)
    (hcfg : w.config = { beta := 2, oplist := [] })
    (hsys : w.sosp.eigensystems = [⟨[0, 1], [psi00, psi01]⟩, ⟨[1 / 2], [psi10]⟩])
    (hb : orthonormal_eigenbasis w) :
    (operator_call w).ret = .ok (Real.exp 0 + Real.exp (-2) + Real.exp (-1)) ∧
    (operator_call w).locals.entered = [(0, 0), (1, 1)] ∧
    (operator_call w).locals.visited = [(0, 0, 0), (0, 0, 1), (1, 1, 0)] := by
  have hexp : w.exp = Real.exp := hb.1
  have hbeta : w.config.beta = 2 := by rw [hcfg]
  have hop : w.config.oplist = [] := by rw [hcfg]
  have hn : n_blocks w = 2 := by simp [n_blocks, hsys]
  have hE0 : E_min w ((0 : Nat) : Int) = 0 := by simp [E_min, get_eigensystem, hsys]
  have hE1 : E_min w ((1 : Nat) : Int) = 1 / 2 := by simp [E_min, get_eigensystem, hsys]
  have hZ : partition_function w = Real.exp 0 + Real.exp (-2) + Real.exp (-1) := by
    simp [partition_function, hsys, hexp, hbeta]
  have hZ3 : partition_function w ≤ 3 := by
    rw [hZ]
    have h1 : Real.exp (-2) ≤ 1 := Real.exp_le_one_iff.2 (by norm_num)
    have h2 : Real.exp (-1) ≤ 1 := Real.exp_le_one_iff.2 (by norm_num)
    rw [Real.exp_zero]; linarith
  have hcut : ∀ b : Nat, b < n_blocks w →
      epsilon * partition_function w ≤ Real.exp (-(w.config.beta * E_min w b)) := by
    intro b hb1
    have heps : (epsilon : ℝ) * partition_function w ≤ 1 / 3 := by
      have : (epsilon : ℝ) * partition_function w ≤ epsilon * 3 :=
        mul_le_mul_of_nonneg_left hZ3 (by unfold epsilon; positivity)
      refine le_trans this ?_
      unfold epsilon; norm_num
    rw [hn] at hb1
    interval_cases b
    · rw [hE0, hbeta]; simp only [mul_zero, neg_zero, Real.exp_zero]; linarith
    · rw [hE1, hbeta]
      have : -((2 : ℝ) * (1 / 2)) = -1 := by norm_num
      rw [this]
      exact le_trans heps exp_neg_one_ge
  obtain ⟨r1, r2, r3⟩ := empty_config_call w hop (by rw [hbeta]; norm_num) (by rw [hn]; norm_num) hb hcut
  have hs : to_sort w = [(0, 0), (1, 1)] := by
    unfold to_sort
    rw [empty_config_to_sort_unsorted w hop, hn]
    simp only [List.range_succ, List.range_zero, List.nil_append, List.cons_append, List.map]
    rw [hE0, hE1, hbeta]
    norm_num [List.insertionSort, List.orderedInsert, pair_le]
  refine ⟨by rw [r1, hZ], by rw [r2, hs], ?_⟩
  rw [r3, hs]
  simp [states_of, block_size, get_eigensystem, hsys, List.range_succ]


/-- Witness of C3: the concrete two-block input over triples of amplitudes. -/
theorem concrete_two_block_scenario_witness :
    (two_blocks ℝ Real.exp false false).config = { beta := 2, oplist := [] } ∧
    (two_blocks ℝ Real.exp false false).sosp.eigensystems =
      [⟨[0, 1], [(1, 0, 0), (0, 1, 0)]⟩, ⟨[1 / 2], [(0, 0, 1)]⟩] ∧
    orthonormal_eigenbasis (two_blocks ℝ Real.exp false false) ∧
    ((operator_call (two_blocks ℝ Real.exp false false)).ret =
        .ok (Real.exp 0 + Real.exp (-2) + Real.exp (-1)) ∧
      (operator_call (two_blocks ℝ Real.exp false false)).locals.entered = [(0, 0), (1, 1)] ∧
      (operator_call (two_blocks ℝ Real.exp false false)).locals.visited =
        [(0, 0, 0), (0, 0, 1), (1, 1, 0)]) :=
  ⟨rfl, rfl, two_blocks_eigenbasis false false,
    concrete_two_block_scenario _ _ _ _ rfl rfl (two_blocks_eigenbasis false false)⟩
/-- Claim C4: if for every block `n` the full connectivity chain from `n` does
not end in `n` (it meets the forbidden value `-1` or ends in another block), the
call returns exactly `0` and the exact pass enters no block and evaluates no
state. -/
theorem structural_zero {K S : Type} [LinearOrderedField K] [Inhabited S]
    (w : atomic_correlators_worker K S)
    (h : ∀ n, n < n_blocks w → connectivity_chain w (crange w) (n : Int) ≠ (n : Int)) :
    (operator_call w).ret = .ok 0 ∧
    (operator_call w).locals.entered = [] ∧
    (operator_call w).locals.visited = [] := by
  have hb : ∀ n, n < n_blocks w → blo w n ≠ (n : Int) := by
    intro n hn
    rcases blo_eq w n with h1 | h1
    · rw [h1]; omega
    · rw [h1]; exact h n hn
  obtain ⟨h1, h2⟩ := operator_call_no_return w hb
  exact ⟨h1, by rw [h2]; rfl, by rw [h2]; rfl⟩


/-- Witness of C4: the single orbital with one annihilation operator; the chain
from block 0 is forbidden and the chain from block 1 ends in block 0. -/
theorem structural_zero_witness :
    (∀ n, n < n_blocks (orbital ℝ Real.exp 1 (single_oplist ℝ) false false) →
      connectivity_chain (orbital ℝ Real.exp 1 (single_oplist ℝ) false false)
        (crange (orbital ℝ Real.exp 1 (single_oplist ℝ) false false)) (n : Int) ≠ (n : Int)) ∧
    ((operator_call (orbital ℝ Real.exp 1 (single_oplist ℝ) false false)).ret = .ok 0 ∧
      (operator_call (orbital ℝ Real.exp 1 (single_oplist ℝ) false false)).locals.entered = [] ∧
      (operator_call (orbital ℝ Real.exp 1 (single_oplist ℝ) false false)).locals.visited = []) :=
  ⟨orbital_single_chain Real.exp false false,
    structural_zero _ (orbital_single_chain Real.exp false false)⟩
/-- Claim C5: the call throws exactly when the dot product of some visited state
exceeds `1.0000001` in magnitude; it throws at the first such state, the
running total then holding the contributions of the states before it only; and
whenever a scalar is returned every visited state passed the check. -/
theorem fatal_check_iff {K S : Type} [LinearOrderedField K] [Inhabited S]
    (w : atomic_correlators_worker K S) :
    ((operator_call w).ret = .error failure.halte_la ↔
      ∃ s ∈ (operator_call w).locals.visited,
        check_bound < |partial_trace_no_emin w s.2.1 s.2.2|) ∧
    ((operator_call w).ret = .error failure.halte_la →
      ∃ pre s, (operator_call w).locals.visited = pre ++ [s] ∧
        (∀ t ∈ pre, |partial_trace_no_emin w t.2.1 t.2.2| ≤ check_bound) ∧
        check_bound < |partial_trace_no_emin w s.2.1 s.2.2| ∧
        (operator_call w).locals.full_trace = (pre.map (contribution w)).sum) ∧
    (∀ v, (operator_call w).ret = .ok v →
      ∀ s ∈ (operator_call w).locals.visited,
        |partial_trace_no_emin w s.2.1 s.2.2| ≤ check_bound) := by
  rcases operator_call_visited w with ⟨v, hr, hv⟩ | ⟨hr, hv⟩ | ⟨hr, pre, s, h1, h2, h3, h4⟩
  · refine ⟨⟨fun h => ?_, fun ⟨s, hs, hc⟩ => absurd hc (not_lt.2 (hv s hs))⟩,
      fun h => ?_, fun _ _ => hv⟩
    · rw [hr] at h; exact absurd h (by simp)
    · rw [hr] at h; exact absurd h (by simp)
  · refine ⟨⟨fun h => ?_, fun ⟨s, hs, hc⟩ => absurd hc (not_lt.2 (hv s hs))⟩,
      fun h => ?_, fun v h => ?_⟩
    · rw [hr] at h; exact absurd h (by simp)
    · rw [hr] at h; exact absurd h (by simp)
    · rw [hr] at h; exact absurd h (by simp)
  · refine ⟨⟨fun _ => ⟨s, by rw [h1]; simp, h3⟩, fun _ => hr⟩,
      fun _ => ⟨pre, s, h1, h2, h3, h4⟩, fun v h => ?_⟩
    rw [hr] at h; exact absurd h (by simp)

/-- Witness of C5: when the creation operator doubles the amplitude, the one
state of block 1 has the dot product 2 and the call throws. -/
theorem fatal_check_iff_witness :
    (operator_call (doubling_orbital ℝ Real.exp)).ret = .error failure.halte_la ∧
    ∃ s ∈ (operator_call (doubling_orbital ℝ Real.exp)).locals.visited,
      check_bound < |partial_trace_no_emin (doubling_orbital ℝ Real.exp) s.2.1 s.2.2| :=
  ⟨doubling_orbital_call.1, (fatal_check_iff _).1.1 doubling_orbital_call.1⟩

/-- Claim C7: the schedule `to_sort[0 .. n_bl)` contains exactly the pairs
`(E_min_delta_tau[n], n)` of the blocks `n` with `blo[n] == n`, each block once,
sorted by ascending bound with ties broken by ascending block index; its first
entry has the smallest bound. -/
theorem schedule_is_sorted_returning_blocks {K S : Type} [LinearOrderedField K] [Inhabited S]
    (w : atomic_correlators_worker K S) :
    (∀ e, e ∈ to_sort w ↔
      ∃ n, n < n_blocks w ∧ blo w n = (n : Int) ∧ e = (E_min_delta_tau w n, (n : Int))) ∧
    ((to_sort w).map Prod.snd).Nodup ∧
    (to_sort w).Sorted (fun a b => a.1 < b.1 ∨ (a.1 = b.1 ∧ a.2 ≤ b.2)) ∧
    (∀ e0 ∈ (to_sort w).head?, ∀ e ∈ to_sort w, e0.1 ≤ e.1) := by
  refine ⟨mem_to_sort w, to_sort_nodup w, to_sort_sorted w, ?_⟩
  intro e0 he0 e he
  have hs := to_sort_sorted w
  cases hl : to_sort w with
  | nil => rw [hl] at he; simp at he
  | cons x xs =>
    rw [hl] at he he0 hs
    simp only [List.head?_cons, Option.mem_def, Option.some.injEq] at he0
    subst he0
    rcases List.mem_cons.1 he with rfl | he
    · exact le_refl _
    · have := List.rel_of_sorted_cons hs e he
      rcases this with h | ⟨h, _⟩
      · exact h.le
      · exact h.le


/-- Counterexample to C8 as stated: with an empty configuration and the single orbital of
energy 100, the running bound of block 1 after the initial gap is 100, above
the reference bound 0 plus 35, and yet block 1 is not marked forbidden and is
in the schedule with bound 100. -/
theorem margin_not_tested_after_initial_gap :
    E_min_delta_tau0 (orbital ℝ Real.exp 100 [] false false) + 35 <
        running_bound (orbital ℝ Real.exp 100 [] false false) 1 0 ∧
    blo (orbital ℝ Real.exp 100 [] false false) 1 = 1 ∧
    ((100 : ℝ), (1 : Int)) ∈ to_sort (orbital ℝ Real.exp 100 [] false false) ∧
    ¬ (∀ e ∈ to_sort (orbital ℝ Real.exp 100 [] false false),
        e.1 ≤ E_min_delta_tau0 (orbital ℝ Real.exp 100 [] false false) + 35) := by
  obtain ⟨_, ht, hd, h0, _, h1⟩ := orbital_empty_first_pass Real.exp 100 false false
  have hs := (orbital_empty_to_sort Real.exp 100 false false (by norm_num)).2
  refine ⟨?_, ?_, ?_, ?_⟩
  · have : running_bound (orbital ℝ Real.exp 100 [] false false) 1 0 = 100 := by
      have := congrArg Prod.snd h1
      simpa [running_bound, first_pass, ht, block_walk] using this
    rw [this, h0]; norm_num
  · rw [blo, h1]
  · rw [hs]; simp
  · intro h
    have := h (100, 1) (by rw [hs]; simp)
    rw [h0] at this
    norm_num at this

/-- Claim C8 (amended): if the running bound of block `n` exceeds the reference bound
plus 35 after any insertion, block `n` is marked forbidden and is not in the
schedule; and when the configuration has at least one insertion every block of
the schedule has a bound of at most the reference bound plus 35. -/
theorem margin_after_insertions {K S : Type} [LinearOrderedField K] [Inhabited S]
    (w : atomic_correlators_worker K S) :
    (∀ n k, 1 ≤ k → k ≤ (config_table w).length →
      E_min_delta_tau0 w + 35 < running_bound w n k →
        blo w n = -1 ∧ ∀ e ∈ to_sort w, e.2 ≠ (n : Int)) ∧
    (config_table w ≠ [] → ∀ e ∈ to_sort w, e.1 ≤ E_min_delta_tau0 w + 35) := by
  have key : ∀ n k, 1 ≤ k → k ≤ (config_table w).length →
      E_min_delta_tau0 w + 35 < running_bound w n k → blo w n = -1 :=
    fun n k h1 h2 h3 => block_walk_margin w _ _ _ _ k h1 h2 h3
  refine ⟨fun n k h1 h2 h3 => ⟨key n k h1 h2 h3, ?_⟩, ?_⟩
  · intro e he hen
    obtain ⟨m, _, hb, rfl⟩ := (mem_to_sort w e).1 he
    simp only [Nat.cast_inj] at hen
    subst hen
    have := key m k h1 h2 h3
    rw [this] at hb
    omega
  · intro hne e he
    obtain ⟨m, _, hb, rfl⟩ := (mem_to_sort w e).1 he
    by_contra hgt
    have hlen : 1 ≤ (config_table w).length := by
      cases h : config_table w with
      | nil => exact absurd h hne
      | cons _ _ => simp
    have hrun : running_bound w m (config_table w).length = E_min_delta_tau w m := by
      simp [running_bound, E_min_delta_tau, first_pass]
    have := key m _ hlen (le_refl _) (by rw [hrun]; exact not_le.1 hgt)
    rw [this] at hb
    omega


/-- Witness of C8 (amended): for the single orbital of energy 100 with the pair
of operators the running bound of block 1 after the second insertion is 50,
above the reference bound 0 plus 35, and block 1 is marked forbidden. -/
theorem margin_after_insertions_witness :
    E_min_delta_tau0 (orbital ℝ Real.exp 100 (pair_oplist ℝ) false false) + 35 <
        running_bound (orbital ℝ Real.exp 100 (pair_oplist ℝ) false false) 1 2 ∧
    blo (orbital ℝ Real.exp 100 (pair_oplist ℝ) false false) 1 = -1 ∧
    ∀ e ∈ to_sort (orbital ℝ Real.exp 100 (pair_oplist ℝ) false false), e.2 ≠ ((1 : Nat) : Int) :=
  ⟨orbital_pair_running,
    (margin_after_insertions (orbital ℝ Real.exp 100 (pair_oplist ℝ) false false)).1 1 2
      (by norm_num) (by rw [(orbital_pair_table Real.exp 100 false false).1]; simp)
      orbital_pair_running⟩
/-- Claim C9: when all minimum eigenvalues are non-negative and all time gaps
are positive, the running bound of the walk of block `n` starts at
`dtau0 * E_min(n)`, is non-negative and non-decreasing from one insertion to
the next, and ends at the stored bound `E_min_delta_tau[n]`, which is therefore
at least `dtau0 * E_min(n)`. -/
theorem bound_monotone {K S : Type} [LinearOrderedField K] [Inhabited S]
    (w : atomic_correlators_worker K S) (hE : ∀ bl, 0 ≤ E_min w bl) (hd0 : 0 < dtau0 w)
    (hd : ∀ p ∈ config_table w, 0 < p.dtau) (n : Nat) :
    running_bound w n 0 = dtau0 w * E_min w (n : Int) ∧
    running_bound w n (config_table w).length = E_min_delta_tau w n ∧
    (∀ k, 0 ≤ running_bound w n k ∧ running_bound w n k ≤ running_bound w n (k + 1)) ∧
    dtau0 w * E_min w (n : Int) ≤ E_min_delta_tau w n := by
  have hd1 : ∀ p ∈ config_table w, 0 ≤ p.dtau := fun p hp => (hd p hp).le
  have h0 : 0 ≤ dtau0 w * E_min w (n : Int) := mul_nonneg hd0.le (hE _)
  refine ⟨by simp [running_bound, block_walk], by simp [running_bound, E_min_delta_tau, first_pass],
    fun k => ⟨?_, ?_⟩, ?_⟩
  · exact le_trans h0 (block_walk_ge w _ hE _ _ _ (fun p hp => hd1 p (List.mem_of_mem_take hp)))
  · exact block_walk_prefix_mono w _ hE _ _ _ k hd1
  · exact block_walk_ge w _ hE _ _ _ hd1


/-- Witness of C9: block 1 of the single orbital of energy 1 with the pair of
operators. -/
theorem bound_monotone_witness :
    (∀ bl, 0 ≤ E_min (orbital ℝ Real.exp 1 (pair_oplist ℝ) false false) bl) ∧
    0 < dtau0 (orbital ℝ Real.exp 1 (pair_oplist ℝ) false false) ∧
    (∀ p ∈ config_table (orbital ℝ Real.exp 1 (pair_oplist ℝ) false false), 0 < p.dtau) ∧
    (running_bound (orbital ℝ Real.exp 1 (pair_oplist ℝ) false false) 1 0 =
        dtau0 (orbital ℝ Real.exp 1 (pair_oplist ℝ) false false) *
          E_min (orbital ℝ Real.exp 1 (pair_oplist ℝ) false false) ((1 : Nat) : Int) ∧
      running_bound (orbital ℝ Real.exp 1 (pair_oplist ℝ) false false) 1
          (config_table (orbital ℝ Real.exp 1 (pair_oplist ℝ) false false)).length =
        E_min_delta_tau (orbital ℝ Real.exp 1 (pair_oplist ℝ) false false) 1 ∧
      (∀ k, 0 ≤ running_bound (orbital ℝ Real.exp 1 (pair_oplist ℝ) false false) 1 k ∧
        running_bound (orbital ℝ Real.exp 1 (pair_oplist ℝ) false false) 1 k ≤
          running_bound (orbital ℝ Real.exp 1 (pair_oplist ℝ) false false) 1 (k + 1)) ∧
      dtau0 (orbital ℝ Real.exp 1 (pair_oplist ℝ) false false) *
          E_min (orbital ℝ Real.exp 1 (pair_oplist ℝ) false false) ((1 : Nat) : Int) ≤
        E_min_delta_tau (orbital ℝ Real.exp 1 (pair_oplist ℝ) false false) 1) :=
  ⟨orbital_E_min Real.exp 1 _ false false (by norm_num),
    (orbital_pair_gaps Real.exp 1 false false).1,
    (orbital_pair_gaps Real.exp 1 false false).2,
    bound_monotone _ (orbital_E_min Real.exp 1 _ false false (by norm_num))
      (orbital_pair_gaps Real.exp 1 false false).1
      (orbital_pair_gaps Real.exp 1 false false).2 1⟩
/-- Counterexample to C10 as stated: for the single orbital with one
annihilation operator and histograms enabled, `one_non_zero` is true (the walk
of block 1 ends in block 0, not in the forbidden value) although no block is
returning; the call does not leave at the fast exit and records block 0 in the
block histogram. -/
theorem one_non_zero_without_returning_block :
    one_non_zero (orbital ℝ Real.exp 1 (single_oplist ℝ) true false) = true ∧
    (¬ ∃ n, n < n_blocks (orbital ℝ Real.exp 1 (single_oplist ℝ) true false) ∧
        blo (orbital ℝ Real.exp 1 (single_oplist ℝ) true false) n = (n : Int)) ∧
    (operator_call (orbital ℝ Real.exp 1 (single_oplist ℝ) true false)).histo_bs_block = [0] := by
  obtain ⟨h1, h2, h3⟩ := orbital_single_call Real.exp false
  refine ⟨h1, ?_, h3⟩
  rintro ⟨n, hn, hb⟩
  have : ((E_min_delta_tau (orbital ℝ Real.exp 1 (single_oplist ℝ) true false) n, (n : Int))) ∈
      to_sort (orbital ℝ Real.exp 1 (single_oplist ℝ) true false) :=
    (mem_to_sort _ _).2 ⟨n, hn, hb, rfl⟩
  rw [h2] at this
  simp at this

/-- Claim C10 (amended): `one_non_zero` is true if and only if the walk of at
least one block ends with a value other than the forbidden `-1`; when it is
false the call returns `0` at the fast exit and records nothing; and whenever no
block is returning the call returns `0` without entering any block, at the fast
exit or after an exact pass over the empty schedule. -/
theorem fast_exit_flag_characterisation {K S : Type} [LinearOrderedField K]
    [Inhabited S] (w : atomic_correlators_worker K S) :
    (one_non_zero w = true ↔ ∃ n, n < n_blocks w ∧ blo w n ≠ -1) ∧
    (one_non_zero w = false →
      operator_call w =
        { ret := .ok 0, locals := exact_init, histos := [], histo_bs_block := [] }) ∧
    ((¬ ∃ n, n < n_blocks w ∧ blo w n = (n : Int)) →
      (operator_call w).ret = .ok 0 ∧ (operator_call w).locals = exact_init) := by
  refine ⟨one_non_zero_iff w, operator_call_fast_exit w, fun h => ?_⟩
  exact operator_call_no_return w (fun n hn hb => h ⟨n, hn, hb⟩)

/-- Claim C11: the call of the worker built with `make_histograms = true` and
the call of the worker built with `make_histograms = false` have the same
outcome (the same returned scalar, or the same failure) and leave the same
locals; and a value is pushed into a histogram only when histograms are
enabled and the call returns, the returned scalar being the fully accumulated
`full_trace`. -/
theorem diagnostics_do_not_influence_result {K S : Type} [LinearOrderedField K] [Inhabited S]
    (w : atomic_correlators_worker K S) :
    (operator_call (with_histograms w true)).ret =
      (operator_call (with_histograms w false)).ret ∧
    (operator_call (with_histograms w true)).locals =
      (operator_call (with_histograms w false)).locals ∧
    (∀ b, ((operator_call (with_histograms w b)).histos ≠ [] ∨
        (operator_call (with_histograms w b)).histo_bs_block ≠ []) →
      b = true ∧ ∃ v, (operator_call (with_histograms w b)).ret = .ok v ∧
        v = (operator_call (with_histograms w b)).locals.full_trace) := by
  have key : ∀ b, (operator_call (with_histograms w b)).ret = (operator_call w).ret ∧
      (operator_call (with_histograms w b)).locals = (operator_call w).locals := by
    intro b
    unfold operator_call
    rw [one_non_zero_with_histograms, to_sort_with_histograms, block_loop_with_histograms]
    cases one_non_zero w
    · simp
    · simp only [Bool.not_true, Bool.false_eq_true, if_false]
      cases block_loop w (to_sort w) 0 exact_init with
      | error x => simp
      | ok a =>
        cases (with_histograms w b).make_histograms <;> cases w.make_histograms <;> simp
  refine ⟨by rw [(key true).1, (key false).1], by rw [(key true).2, (key false).2], ?_⟩
  intro b hb
  obtain ⟨h1, v, hv⟩ := operator_call_histos _ hb
  refine ⟨h1, v, hv, ?_⟩
  rcases operator_call_ok _ v hv with ⟨_, h0, hl⟩ | ⟨_, _, hf⟩
  · rw [hl, h0]; rfl
  · exact hf

/-- Witness of C11: the single orbital of energy 1 with the pair of operators
returns `exp(-1/2)` with and without histograms. -/
theorem diagnostics_do_not_influence_result_witness :
    (operator_call (with_histograms (orbital ℝ Real.exp 1 (pair_oplist ℝ) true false) true)).ret =
      (operator_call (with_histograms (orbital ℝ Real.exp 1 (pair_oplist ℝ) true false) false)).ret :=
  (diagnostics_do_not_influence_result (orbital ℝ Real.exp 1 (pair_oplist ℝ) true false)).1

/-- Claim C12: the entries of the schedule whose loop body ran form a prefix of
the schedule; every one of them passed the test
`exp(-bound_i) >= |runningTotal| * 1e-15` against the trace accumulated over
all the states of the entries before it; when the call returns, the first entry
that was not entered fails the test, so that entry `i` is entered if and only
if all the earlier entries were entered and the test holds for `i`; the first
entry of a non-empty schedule is always entered; and a call that fails does so
inside the body of the last entry it entered. -/
theorem continuation_predicate {K S : Type} [LinearOrderedField K] [Inhabited S]
    (w : atomic_correlators_worker K S) (hexp : ∀ x, 0 ≤ w.exp x) :
    (operator_call w).locals.entered <+: to_sort w ∧
    (∀ (i : Nat) (e : K × Int), (operator_call w).locals.entered[i]? = some e →
      w.exp (-e.1) ≥ |running_total w i| * epsilon) ∧
    (∀ v, (operator_call w).ret = .ok v →
      ∀ e, (to_sort w)[(operator_call w).locals.entered.length]? = some e →
        w.exp (-e.1) < |running_total w (operator_call w).locals.entered.length| * epsilon) ∧
    (∀ v, (operator_call w).ret = .ok v →
      ∀ (i : Nat) (e : K × Int), (to_sort w)[i]? = some e →
        (i < (operator_call w).locals.entered.length ↔
          (∀ j, j < i → j < (operator_call w).locals.entered.length) ∧
            w.exp (-e.1) ≥ |running_total w i| * epsilon)) ∧
    (∀ e, (to_sort w).head? = some e → (operator_call w).locals.entered.head? = some e) ∧
    (∀ f, (operator_call w).ret = .error f → (operator_call w).locals.entered ≠ []) := by
  -- the entries entered, in every outcome
  have hall : ∃ post, to_sort w = (operator_call w).locals.entered ++ post ∧
      ∀ q1 e q2, (operator_call w).locals.entered = q1 ++ e :: q2 →
        w.exp (-e.1) ≥ |(q1.map (block_sum w)).sum| * epsilon := by
    rcases operator_call_locals w with ⟨h1, h2⟩ | ⟨_, h2⟩
    · refine ⟨[], ?_, ?_⟩
      · rw [h2, to_sort_nil_of_not_one_non_zero w h1]; simp [exact_init]
      · intro q1 e q2 hq
        rw [h2] at hq
        simp [exact_init] at hq
    · obtain ⟨pre, post, p1, p2, p3⟩ := block_loop_tests w _ _ _ _ h2
      simp only [exact_init, List.nil_append, zero_add] at p2 p3
      exact ⟨post, by rw [p2]; exact p1, by rw [p2]; exact p3⟩
  obtain ⟨post, hsplit, htests⟩ := hall
  have h2 : ∀ (i : Nat) (e : K × Int), (operator_call w).locals.entered[i]? = some e →
      w.exp (-e.1) ≥ |running_total w i| * epsilon := by
    intro i e hie
    have hi : i < (operator_call w).locals.entered.length := by
      rcases Nat.lt_or_ge i (operator_call w).locals.entered.length with h | h
      · exact h
      · rw [List.getElem?_eq_none h] at hie; simp at hie
    have hget : (operator_call w).locals.entered[i] = e := by
      rw [List.getElem?_eq_getElem hi] at hie
      simpa using hie
    have hdec : (operator_call w).locals.entered =
        (operator_call w).locals.entered.take i ++
          e :: (operator_call w).locals.entered.drop (i + 1) := by
      rw [← hget, List.getElem_cons_drop _ _ hi, List.take_append_drop]
    rw [running_total_take w _ _ hsplit i hi.le]
    exact htests _ e _ hdec
  have h3 : ∀ v, (operator_call w).ret = .ok v →
      ∀ e, (to_sort w)[(operator_call w).locals.entered.length]? = some e →
        w.exp (-e.1) <
          |running_total w (operator_call w).locals.entered.length| * epsilon := by
    intro v hv e he
    obtain ⟨post1, s1, s2, s3⟩ := operator_call_ok_stop w v hv
    have hrt : running_total w (operator_call w).locals.entered.length = v := by
      rw [running_total_take w _ _ s1 _ (le_refl _), List.take_length, s2]
    have hhead : post1.head? = some e := by
      have hs1 : (to_sort w)[(operator_call w).locals.entered.length]? = post1[0]? := by
        conv_lhs => rw [s1]
        rw [List.getElem?_append_right (le_refl _)]
        simp
      rw [hs1] at he
      rw [← he]
      cases post1 <;> simp
    rw [hrt]
    exact s3 e hhead
  refine ⟨⟨post, hsplit.symm⟩, h2, h3, ?_, ?_, operator_call_error_entered w⟩
  · intro v hv i e hie
    constructor
    · intro hi
      refine ⟨fun j hj => lt_trans hj hi, ?_⟩
      apply h2 i e
      have : (to_sort w)[i]? = (operator_call w).locals.entered[i]? := by
        conv_lhs => rw [hsplit]
        exact List.getElem?_append_left hi
      rw [← this]; exact hie
    · rintro ⟨hj, htest⟩
      by_contra hi
      have hle : (operator_call w).locals.entered.length ≤ i := not_lt.1 hi
      have heq : (operator_call w).locals.entered.length = i := by
        rcases Nat.lt_or_ge (operator_call w).locals.entered.length i with h | h
        · exact absurd (hj _ h) (lt_irrefl _)
        · exact le_antisymm hle h
      have := h3 v hv e (by rw [heq]; exact hie)
      rw [heq] at this
      exact absurd htest (not_le.2 this)
  · intro e he
    cases hts : to_sort w with
    | nil => rw [hts] at he; simp at he
    | cons e1 rest =>
      rw [hts] at he
      simp only [List.head?_cons, Option.some.injEq] at he
      subst he
      rcases operator_call_locals w with ⟨h1, _⟩ | ⟨_, h5⟩
      · rw [to_sort_nil_of_not_one_non_zero w h1] at hts
        simp at hts
      · rw [hts] at h5
        exact first_entry_entered w hexp e1 rest _ h5

/-- Witness of C12: for the single orbital of energy 36 with an empty
configuration the first entry of the schedule is entered. -/
theorem continuation_predicate_witness :
    (∀ x, 0 ≤ (orbital ℝ Real.exp 36 [] false false).exp x) ∧
    ∀ e, (to_sort (orbital ℝ Real.exp 36 [] false false)).head? = some e →
      (operator_call (orbital ℝ Real.exp 36 [] false false)).locals.entered.head? = some e :=
  ⟨fun x => (Real.exp_pos x).le,
    (continuation_predicate (orbital ℝ Real.exp 36 [] false false)
      (fun x => (Real.exp_pos x).le)).2.2.2.2.1⟩

/-- Claim C13 fails on the code: for the two blocks with the eigenvalues
`[0, 1]` and `[1/2]`, an empty configuration and `beta = 2`, the call returns
and the schedule starts with block 0, whose first state contributes `1`, the
very first contribution added to the running total; but `first_term` ends as
`exp(-2)`, the contribution of the last state of block 0, because line 139
assigns it for every state of the entry at position 0. -/
theorem first_term_is_last_state_of_first_block :
    (operator_call (two_blocks ℝ Real.exp false false)).ret =
      .ok (Real.exp 0 + Real.exp (-2) + Real.exp (-1)) ∧
    (operator_call (two_blocks ℝ Real.exp false false)).locals.first_term = Real.exp (-2) ∧
    contribution (two_blocks ℝ Real.exp false false) (0, 0, 0) = 1 ∧
    (operator_call (two_blocks ℝ Real.exp false false)).locals.first_term ≠
      contribution (two_blocks ℝ Real.exp false false) (0, 0, 0) := by
  obtain ⟨h1, h2, h3, h4⟩ := two_blocks_call
  have hbs : block_size (two_blocks ℝ Real.exp false false) (0 : Int) = 2 := by
    simp [block_size, get_eigensystem, two_blocks]
  have hft := first_term_value (two_blocks ℝ Real.exp false false)
    (fun x => (Real.exp_pos x).le) _ h1 (0, 0) [(1, 1)] h2
  simp only [hbs] at hft
  norm_num at hft
  rw [h4] at hft
  refine ⟨h1, hft, h3, ?_⟩
  rw [hft, h3]
  intro h
  have : Real.exp (-2) < 1 := by
    rw [Real.exp_lt_one_iff]; norm_num
  linarith

/-- Counterexample to C14 as stated: for the single orbital of energy 1 with the
pair of operators and histograms enabled, the call returns `exp(-1/2)` and
writes `1` to the histogram `FullTrace_ExpSumMin`, whereas the reference bound
`E_min_delta_tau0` is 0 and `|fullTrace| / exp(-referenceBound)` is
`exp(-1/2)`. -/
theorem second_histogram_not_reference_bound :
    (orbital ℝ Real.exp 1 (pair_oplist ℝ) true false).make_histograms = true ∧
    (operator_call (orbital ℝ Real.exp 1 (pair_oplist ℝ) true false)).ret =
      .ok (Real.exp (-(1 / 2))) ∧
    ((operator_call (orbital ℝ Real.exp 1 (pair_oplist ℝ) true false)).histos.filter
        (fun p => decide (p.1 = "FullTrace_ExpSumMin"))).map Prod.snd = [1] ∧
    |Real.exp (-(1 / 2))| /
        (orbital ℝ Real.exp 1 (pair_oplist ℝ) true false).exp
          (-(E_min_delta_tau0 (orbital ℝ Real.exp 1 (pair_oplist ℝ) true false))) =
      Real.exp (-(1 / 2)) ∧
    Real.exp (-(1 / 2)) ≠ 1 := by
  have hc : (orbital ℝ Real.exp 1 (pair_oplist ℝ) true false).exp = Real.exp := rfl
  refine ⟨rfl, (orbital_pair_call true false).1, ?_, ?_, ?_⟩
  · rw [orbital_pair_histos.1]
    simp
  · rw [orbital_pair_E0, hc, abs_of_pos (Real.exp_pos _)]
    simp
  · intro h
    have : Real.exp (-(1 / 2)) < 1 := by
      rw [Real.exp_lt_one_iff]; norm_num
    linarith

/-- Claim C14 (amended): when diagnostics are enabled and the call reaches the
recording step, the value written to the histogram `FullTrace_ExpSumMin` is
`|fullTrace| / exp(-to_sort[0].first)`, where `to_sort[0].first` is the bound
of the first entry of the schedule, the smallest accumulated bound of the
scheduled blocks (and 0 when the schedule is empty). -/
theorem second_histogram_value {K S : Type} [LinearOrderedField K] [Inhabited S]
    (w : atomic_correlators_worker K S) (hh : w.make_histograms = true)
    (hone : one_non_zero w = true) (v : K) (hv : (operator_call w).ret = .ok v) :
    (((operator_call w).histos.filter
        (fun p => decide (p.1 = "FullTrace_ExpSumMin"))).map Prod.snd =
      [|v| / w.exp (-((to_sort w).headD (0, 0)).1)]) ∧
    (∀ e ∈ to_sort w, ((to_sort w).headD (0, 0)).1 ≤ e.1) := by
  obtain ⟨h1, _, h3⟩ := operator_call_histos_eq w hh hone v hv
  constructor
  · rw [h1]
    unfold histo_pushes
    simp only [h3]
    split <;> simp
  · intro e he
    have hs := to_sort_sorted w
    cases hl : to_sort w with
    | nil => rw [hl] at he; simp at he
    | cons x xs =>
      rw [hl] at he hs
      simp only [List.headD_cons]
      rcases List.mem_cons.1 he with rfl | he
      · exact le_refl _
      · rcases List.rel_of_sorted_cons hs e he with h | ⟨h, _⟩
        · exact h.le
        · exact h.le

/-- Witness of C14 (amended): the single orbital of energy 1 with the pair of
operators and histograms enabled. -/
theorem second_histogram_value_witness :
    (orbital ℝ Real.exp 1 (pair_oplist ℝ) true false).make_histograms = true ∧
    one_non_zero (orbital ℝ Real.exp 1 (pair_oplist ℝ) true false) = true ∧
    (operator_call (orbital ℝ Real.exp 1 (pair_oplist ℝ) true false)).ret =
      .ok (Real.exp (-(1 / 2))) ∧
    ((operator_call (orbital ℝ Real.exp 1 (pair_oplist ℝ) true false)).histos.filter
        (fun p => decide (p.1 = "FullTrace_ExpSumMin"))).map Prod.snd =
      [|Real.exp (-(1 / 2))| /
        (orbital ℝ Real.exp 1 (pair_oplist ℝ) true false).exp
          (-((to_sort (orbital ℝ Real.exp 1 (pair_oplist ℝ) true false)).headD (0, 0)).1)] :=
  ⟨rfl, (orbital_pair_to_sort Real.exp true false).1, (orbital_pair_call true false).1,
    (second_histogram_value _ rfl (orbital_pair_to_sort Real.exp true false).1 _
      (orbital_pair_call true false).1).1⟩

set_option maxRecDepth 8000 in
set_option exponentiation.threshold 4000 in
/-- Counterexample to C15 as stated: `beta = 1.0`, an annihilation at the double
nearest to `0.2` and a creation at the double nearest to `0.83`.  The times are
distinct and in `(0, beta)`.  The exact difference of the two times,
`11349071060973649 * 2^(-54)`, needs 54 bits, so line 53 stores the rounded gap
`5674535530486824 * 2^(-53)`; the last gap `1531223873305969 * 2^(-53)` is
exact.  The initial gap plus the two stored gaps is `beta - 2^(-54)`, not
`beta`; added in double precision from left to right they give
`beta - 2^(-53)`, again not `beta`. -/
theorem gap_sum_differs_from_beta :
    rounding_config.oplist.Pairwise (fun a b => b.tau < a.tau) ∧
    (∀ o ∈ rounding_config.oplist, 0 < o.tau ∧ o.tau < rounding_config.beta) ∧
    dtau0_of rounding_config = double_of 3602879701896397 1020 ∧
    double_of 7475975381435023 1021 - double_of 3602879701896397 1020 =
      double_of 11349071060973649 1020 ∧
    (config_table_with double_sub rounding_config).map p1.dtau =
      [double_of 5674535530486824 1021, double_of 1531223873305969 1021] ∧
    dtau0_of rounding_config + ((config_table_with double_sub rounding_config).map p1.dtau).sum =
      rounding_config.beta - double_of 1 1020 ∧
    dtau0_of rounding_config + ((config_table_with double_sub rounding_config).map p1.dtau).sum ≠
      rounding_config.beta ∧
    double_add (double_add (dtau0_of rounding_config) (double_of 5674535530486824 1021))
      (double_of 1531223873305969 1021) = rounding_config.beta - double_of 1 1021 ∧
    double_add (double_add (dtau0_of rounding_config) (double_of 5674535530486824 1021))
      (double_of 1531223873305969 1021) ≠ rounding_config.beta := by
  refine ⟨by decide, by decide, rfl, by decide, by decide, by decide, by decide, by decide,
    by decide⟩

/-- Claim C15 (amended): for every configuration, whatever the subtraction `sub`
of lines 53 and 130 returns: for an empty configuration the gap table is empty
and the initial gap is `beta`; otherwise the initial gap is the time of the
first insertion in ascending time, the table has one entry per insertion, entry
`i` carries the dagger flag and the linear index of insertion `i` and the gap
`sub next t_i` from its time to the time of the next insertion, or to `beta` for
the last one; the gaps computed by the exact pass are those of the table.  The
initial gap plus the gaps of the table is `beta` when the subtraction is exact;
when each subtraction has a relative error of at most `1/c` (for `double`,
`c = 2^53`) and the times are ascending and at most `beta`, the sum differs from
`beta` by at most `(beta - dtau0) / c`. -/
theorem gap_table_up_to_rounding {K : Type} [LinearOrderedCommRing K] (sub : K → K → K)
    (config : configuration K) :
    (config.oplist = [] → config_table_with sub config = [] ∧ dtau0_of config = config.beta) ∧
    (∀ o rest, config.oplist.reverse = o :: rest → dtau0_of config = o.tau) ∧
    (config_table_with sub config).length = config.oplist.length ∧
    (∀ (i : Nat) (o : op_desc K), config.oplist.reverse[i]? = some o →
      (config_table_with sub config)[i]? =
        some { dtau := sub (match config.oplist.reverse[i + 1]? with
                            | some nx => nx.tau
                            | none => config.beta) o.tau,
               dag := o.dagger, n := o.linear_index }) ∧
    exact_gaps_with sub config.beta config.oplist.reverse =
      (config_table_with sub config).map p1.dtau ∧
    ((∀ a b, sub a b = a - b) →
      dtau0_of config + ((config_table_with sub config).map p1.dtau).sum = config.beta) ∧
    (∀ c : K, 0 ≤ c → (∀ a b, c * |sub a b - (a - b)| ≤ |a - b|) →
      config.oplist.Pairwise (fun a b => b.tau < a.tau) →
      (∀ o ∈ config.oplist, o.tau ≤ config.beta) →
      c * |dtau0_of config + ((config_table_with sub config).map p1.dtau).sum - config.beta|
        ≤ config.beta - dtau0_of config) := by
  refine ⟨fun h => ?_, fun o rest h => ?_, ?_, fill_table_with_getElem _ _ _,
    exact_gaps_with_eq_table _ _ _, fun h => fill_table_with_sum_exact sub h _ _,
    fun c hc hsub hp hb => ?_⟩
  · simp [config_table_with, dtau0_of, h, fill_table_with, time_or_beta]
  · simp [dtau0_of, h, time_or_beta]
  · simp [config_table_with, fill_table_with_length]
  · exact fill_table_with_sum_error sub c hc hsub _ _ (List.pairwise_reverse.mpr hp)
      (fun o ho => hb o (List.mem_reverse.mp ho))

set_option maxRecDepth 8000 in
set_option exponentiation.threshold 4000 in
/-- Witness of C15 (amended): the double subtraction has relative error at most
`2^(-53)`, and for `beta = 1.0` with insertions at the doubles nearest to `0.2`
and `0.83` the initial gap plus the stored gaps is within
`(beta - dtau0) * 2^(-53)` of `beta`. -/
theorem gap_table_up_to_rounding_witness :
    (∀ a b : Int, 2 ^ 53 * |double_sub a b - (a - b)| ≤ |a - b|) ∧
    rounding_config.oplist.Pairwise (fun a b => b.tau < a.tau) ∧
    (∀ o ∈ rounding_config.oplist, o.tau ≤ rounding_config.beta) ∧
    2 ^ 53 * |dtau0_of rounding_config +
        ((config_table_with double_sub rounding_config).map p1.dtau).sum - rounding_config.beta|
      ≤ rounding_config.beta - dtau0_of rounding_config :=
  ⟨double_sub_error, by decide, by decide,
    (gap_table_up_to_rounding double_sub rounding_config).2.2.2.2.2.2 (2 ^ 53) (by positivity)
      double_sub_error (by decide) (by decide)⟩

/-- Counterexample to C16 as stated: for the single orbital with the
annihilation operator at time 1/4 and the creation operator at time 1, which is
`beta`, the times are pairwise distinct and in `(0, beta]`, the last gap of the
exact pass is `beta - 1 = 0`, and the call with assertions enabled fails at
`assert(dtau > 0)`. -/
theorem assertion_fails_at_beta :
    (orbital ℝ Real.exp 1 (edge_oplist ℝ) false false).config.oplist.Pairwise
      (fun a b => b.tau < a.tau) ∧
    (∀ o ∈ (orbital ℝ Real.exp 1 (edge_oplist ℝ) false false).config.oplist,
      0 < o.tau ∧ o.tau ≤ (orbital ℝ Real.exp 1 (edge_oplist ℝ) false false).config.beta) ∧
    (0 : ℝ) ∈ exact_gaps (orbital ℝ Real.exp 1 (edge_oplist ℝ) false false).config.beta
      (crange (orbital ℝ Real.exp 1 (edge_oplist ℝ) false false)) ∧
    (operator_call (orbital ℝ Real.exp 1 (edge_oplist ℝ) false false)).ret =
      .error failure.assertion := by
  refine ⟨?_, ?_, ?_, orbital_edge_call.1⟩
  · simp [orbital, edge_oplist]
    norm_num
  · intro o ho
    simp only [orbital, edge_oplist, List.mem_cons, List.not_mem_nil, or_false] at ho
    rcases ho with rfl | rfl <;> norm_num [orbital]
  · rw [orbital_edge_call.2]; simp

/-- Claim C16 (amended): for every configuration whose insertion times are
pairwise distinct (strictly descending in container order) and each in the open
interval `(0, beta)`, every gap `dtau` computed in the exact pass is strictly
positive, and the call never fails at `assert(dtau > 0)`. -/
theorem assertion_never_fails {K S : Type} [LinearOrderedField K] [Inhabited S]
    (w : atomic_correlators_worker K S)
    (hsorted : w.config.oplist.Pairwise (fun a b => b.tau < a.tau))
    (hrange : ∀ o ∈ w.config.oplist, 0 < o.tau ∧ o.tau < w.config.beta) :
    (∀ g ∈ exact_gaps w.config.beta (crange w), 0 < g) ∧
    (operator_call w).ret ≠ .error failure.assertion := by
  have hasc : (crange w).Pairwise (fun a b => a.tau < b.tau) := by
    unfold crange
    rw [List.pairwise_reverse]
    exact hsorted
  have hlt : ∀ o ∈ crange w, o.tau < w.config.beta := by
    intro o ho
    exact (hrange o (by simpa [crange] using ho)).2
  have hpos := exact_gaps_pos w.config.beta (crange w) hasc hlt
  refine ⟨hpos, fun h => ?_⟩
  obtain ⟨_, hb⟩ := operator_call_error w _ h
  obtain ⟨psi, hp⟩ := block_loop_assertion w _ _ _ _ hb
  obtain ⟨_, g, hg, hn⟩ := propagate_none w _ _ hp
  exact hn (hpos g hg)

/-- Witness of C16 (amended): the pair of operators at times 1/4 and 3/4 with
`beta = 1`. -/
theorem assertion_never_fails_witness :
    (orbital ℝ Real.exp 1 (pair_oplist ℝ) false false).config.oplist.Pairwise
      (fun a b => b.tau < a.tau) ∧
    (∀ o ∈ (orbital ℝ Real.exp 1 (pair_oplist ℝ) false false).config.oplist,
      0 < o.tau ∧ o.tau < (orbital ℝ Real.exp 1 (pair_oplist ℝ) false false).config.beta) ∧
    (∀ g ∈ exact_gaps (orbital ℝ Real.exp 1 (pair_oplist ℝ) false false).config.beta
        (crange (orbital ℝ Real.exp 1 (pair_oplist ℝ) false false)), 0 < g) ∧
    (operator_call (orbital ℝ Real.exp 1 (pair_oplist ℝ) false false)).ret ≠
      .error failure.assertion :=
  ⟨orbital_pair_data_model.1, orbital_pair_data_model.2,
    assertion_never_fails _ orbital_pair_data_model.1 orbital_pair_data_model.2⟩

/-- Claim C17: when `std::exp` is monotone and the call returns `v`, every entry
of the schedule that was not entered has `exp(-bound) < 1e-15 * |v|`. -/
theorem skipped_blocks_negligible {K S : Type} [LinearOrderedField K] [Inhabited S]
    (w : atomic_correlators_worker K S) (hexp : Monotone w.exp) (v : K)
    (h : (operator_call w).ret = .ok v) :
    ∀ e ∈ to_sort w, e ∉ (operator_call w).locals.entered →
      w.exp (-e.1) < epsilon * |v| := by
  intro e he hne
  obtain ⟨post, hsplit, _, hstop⟩ := operator_call_ok_stop w v h
  have hepost : e ∈ post := by
    rw [hsplit] at he
    rcases List.mem_append.1 he with h1 | h1
    · exact absurd h1 hne
    · exact h1
  cases hpost : post with
  | nil => rw [hpost] at hepost; simp at hepost
  | cons e1 rest =>
    have h1 := hstop e1 (by rw [hpost]; simp)
    have hs : (to_sort w).Sorted pair_le := to_sort_sorted w
    rw [hsplit, hpost] at hs
    have hs1 : (e1 :: rest).Sorted pair_le := (List.pairwise_append.1 hs).2.1
    have hle : e1.1 ≤ e.1 := by
      rw [hpost] at hepost
      rcases List.mem_cons.1 hepost with rfl | h2
      · exact le_refl _
      · rcases List.rel_of_sorted_cons hs1 e h2 with h3 | ⟨h3, _⟩
        · exact h3.le
        · exact h3.le
    have : w.exp (-e.1) ≤ w.exp (-e1.1) := hexp (neg_le_neg hle)
    rw [mul_comm]
    exact lt_of_le_of_lt this h1

/-- Witness of C17: for the single orbital of energy 36 with an empty
configuration the call returns 1 and block 1, which is not entered, has
`exp(-36) < 1e-15`. -/
theorem skipped_blocks_negligible_witness :
    Monotone (orbital ℝ Real.exp 36 [] false false).exp ∧
    (operator_call (orbital ℝ Real.exp 36 [] false false)).ret = .ok 1 ∧
    ∀ e ∈ to_sort (orbital ℝ Real.exp 36 [] false false),
      e ∉ (operator_call (orbital ℝ Real.exp 36 [] false false)).locals.entered →
        (orbital ℝ Real.exp 36 [] false false).exp (-e.1) < epsilon * |(1 : ℝ)| :=
  ⟨Real.exp_monotone, (orbital_empty_call false false).1,
    skipped_blocks_negligible _ Real.exp_monotone 1 (orbital_empty_call false false).1⟩

/-- Claim C18: when all minimum eigenvalues and all gaps of the table are
non-negative and the connectivity chain from block 0 does not meet the
forbidden value, the walk of block 0 in the bound pass is not cut by the
35-unit test (it is the reference walk), `blo[0]` is the final block of the
chain from block 0, and `E_min_delta_tau[0]` is the reference bound
`E_min_delta_tau0`. -/
theorem reference_block_not_pruned {K S : Type} [LinearOrderedField K] [Inhabited S]
    (w : atomic_correlators_worker K S) (hE : ∀ bl, 0 ≤ E_min w bl)
    (hd : ∀ p ∈ config_table w, 0 ≤ p.dtau)
    (hchain : connectivity_chain w (crange w) 0 ≠ -1) :
    first_pass w 0 = ref_walk w (config_table w) 0 (dtau0 w * E_min w 0) ∧
    blo w 0 = connectivity_chain w (crange w) 0 ∧
    blo w 0 ≠ -1 ∧
    E_min_delta_tau w 0 = E_min_delta_tau0 w := by
  have key : first_pass w 0 = ref_walk w (config_table w) 0 (dtau0 w * E_min w 0) := by
    rcases block_walk_vs_ref_walk w (E_min_delta_tau0 w) hE (config_table w) 0
      (dtau0 w * E_min w 0) hd with h | ⟨_, h⟩
    · simpa [first_pass] using h
    · exfalso
      have : E_min_delta_tau0 w + 35 < E_min_delta_tau0 w := h
      linarith
  have hb : blo w 0 = connectivity_chain w (crange w) 0 := by
    rw [blo, key]
    exact ref_walk_chain w _ _ _ _
  refine ⟨key, hb, by rw [hb]; exact hchain, ?_⟩
  rw [E_min_delta_tau, key]
  rfl

/-- Witness of C18: the single orbital of energy 1 with the creation operator at
time 1/4 and the annihilation operator at time 3/4. -/
theorem reference_block_not_pruned_witness :
    (∀ bl, 0 ≤ E_min (orbital ℝ Real.exp 1 (reversed_pair_oplist ℝ) false false) bl) ∧
    (∀ p ∈ config_table (orbital ℝ Real.exp 1 (reversed_pair_oplist ℝ) false false),
      0 ≤ p.dtau) ∧
    connectivity_chain (orbital ℝ Real.exp 1 (reversed_pair_oplist ℝ) false false)
      (crange (orbital ℝ Real.exp 1 (reversed_pair_oplist ℝ) false false)) 0 ≠ -1 ∧
    E_min_delta_tau (orbital ℝ Real.exp 1 (reversed_pair_oplist ℝ) false false) 0 =
      E_min_delta_tau0 (orbital ℝ Real.exp 1 (reversed_pair_oplist ℝ) false false) :=
  ⟨orbital_E_min Real.exp 1 _ false false (by norm_num),
    (orbital_reversed_pair Real.exp false false).1,
    (orbital_reversed_pair Real.exp false false).2,
    (reference_block_not_pruned _ (orbital_E_min Real.exp 1 _ false false (by norm_num))
      (orbital_reversed_pair Real.exp false false).1
      (orbital_reversed_pair Real.exp false false).2).2.2.2⟩

end cthyb_krylov
